import Mathlib

/-! writebuffer: a verification development.

A shallow embedding of `writebuffer.c` in its default build (memory mode, `FILE_BUFFER`
not defined).

* The heap of `Buffer` nodes is a map from node addresses to node contents; the two static
  nodes `inBuffer` and `outBuffer` live at addresses `0` and `1`, `malloc` hands out the
  addresses `2, 3, ...` in turn.  Payload blocks (`cur->buf`) live in a second map, from block
  numbers to byte arrays (functions from offsets to bytes).
* Pointers stored in memory are `Option Nat` (`none` is `NULL` or an indeterminate pointer);
  integer fields left uninitialised by `malloc` hold the arbitrary values of `Cfg`.
* The two threads are step functions on one shared `State`.  Every region of the source that
  runs under the node locks is one step, every `sem_wait` and every `sem_post` is one step, and
  every system call (`read`, `write`, `malloc`) gets the environment's answer as an `Ev`.
  A step that cannot be taken (a `sem_wait` on a zero semaphore, `pthread_join` on a running
  thread, a finished thread) is `none`.
* `enqLog`, `writes` and `out` are traces: they record what was enqueued, which byte ranges
  were handed to `write`, and which bytes the output stream accepted.  No step reads them.
-/

namespace WriteBuffer

/-! ## Data model -/

def BUF_TYPE_NORMAL : Nat := 0

def BUF_TYPE_END : Nat := 1

def BUF_TYPE_HEAD : Nat := 2

def BUF_TYPE_TAIL : Nat := 3

/-- A `Buffer` node without its lock: `next`, `type`, `length`, `buf`. -/
structure Buffer where
  next : Option Nat
  type : Nat
  length : Nat
  buf : Option Nat
deriving DecidableEq

/-- Build constants (`BUFSZ`, `MAXBUFS`) and the contents of uninitialised memory: the `type`
and `length` of a node fresh from `malloc`, the bytes of a fresh payload block, and the local
variable `rd` of `main` before the first `read`. -/
structure Cfg where
  BUFSZ : Nat
  MAXBUFS : Nat
  junkType : Nat
  junkLen : Nat
  junkMem : Nat → Nat
  junkRd : Int

abbrev Heap := Nat → Buffer

/-- Address of the static node `inBuffer`, head of the free queue. -/
def inBuffer : Nat := 0

/-- Address of the static node `outBuffer`, head of the pending queue. -/
def outBuffer : Nat := 1

/-- Contents of a node fresh from `malloc`. -/
def junkNode (cfg : Cfg) : Buffer :=
  { next := none, type := cfg.junkType, length := cfg.junkLen, buf := none }

/-- The first `n` bytes of a payload block. -/
def readBytes (m : Nat → Nat) (n : Nat) : List Nat :=
  (List.range n).map m

/-- A payload block after `d` has been stored at offset `off`. -/
def storeBytes (m : Nat → Nat) (off : Nat) (d : List Nat) : Nat → Nat :=
  fun i => if off ≤ i ∧ i < off + d.length then d.getD (i - off) 0 else m i

/-- Program points of the main thread: those of `newBuffer` (`retryNew` to `repost`) and those
of the read loop of `main`. -/
inductive PPC where
  | retryNew
  | reuse
  | allocNode
  | allocBuf
  | waitRetryNew
  | repost
  | read
  | enqueue
  | post
  | join
  | exited
deriving DecidableEq

/-- Program points of the writer thread. -/
inductive WPC where
  | semwait
  | dequeue
  | write
  | recycle
  | post
  | done
deriving DecidableEq

/-- The environment's answer to a system call.  For `read`, `ok k` offers `k + 1` bytes; for
`write`, `ok k` leaves the last `k` bytes unwritten (`ok 0` is a full write); for `malloc`,
`ok _` is success.  `fail` is the error return. -/
inductive Ev where
  | ok (k : Nat)
  | fail
deriving DecidableEq

/-- One scheduling decision: which thread steps, and what the environment answers. -/
inductive Label where
  | prod (e : Ev)
  | wr (e : Ev)
deriving DecidableEq

/-- A chunk as recorded in the enqueue trace: type, length, and the `length` payload bytes. -/
structure Chunk where
  type : Nat
  length : Nat
  bytes : List Nat
deriving DecidableEq

structure State where
  heap : Heap
  mem : Nat → Nat → Nat
  nextNode : Nat
  nextMem : Nat
  inBufferTail : Nat
  inBufferSem : Nat
  outBufferTail : Nat
  outBufferSem : Nat
  bufCt : Nat
  ppc : PPC
  inLoop : Bool
  ncur : Option Nat
  pcur : Option Nat
  rd : Int
  input : List Nat
  wpc : WPC
  wcur : Option Nat
  enqLog : List Chunk
  writes : List (List Nat)
  out : List Nat
  exit : Option Nat

/-! ## Queue relinking -/

/-- Lines 300-312 of `main`: the chunk of `cur` is copied into the tail sentinel, `cur`
becomes the new tail sentinel. -/
def enqueueOut (h : Heap) (tail cur ty : Nat) : Heap :=
  let h1 := Function.update h tail
    { next := some cur, type := ty, length := (h cur).length, buf := (h cur).buf }
  Function.update h1 cur { next := none, type := BUF_TYPE_TAIL, length := (h1 cur).length, buf := none }

/-- Lines 130-135 of `writer`: the payload of `cur` goes into the tail sentinel of the free
queue, `cur` becomes the new tail sentinel. -/
def recycle (h : Heap) (tail cur : Nat) : Heap :=
  let h1 := Function.update h tail
    { next := some cur, type := BUF_TYPE_NORMAL, length := (h tail).length, buf := (h cur).buf }
  Function.update h1 cur { next := none, type := BUF_TYPE_TAIL, length := (h1 cur).length, buf := none }

/-- The unlink `head.next = cur->next` of lines 94 and 178. -/
def unlink (h : Heap) (head cur : Nat) : Heap :=
  Function.update h head { h head with next := (h cur).next }

/-! ## The main thread -/

/-- Where `newBuffer` returns to: the call of line 272 enters the read loop, the call of
line 323 is followed by `if (rd == 0) break;`. -/
def afterNew (s : State) : PPC :=
  if s.inLoop = true ∧ s.rd = 0 then PPC.join else PPC.read

/-- One step of `newBuffer`. -/
def newBuffer (cfg : Cfg) (e : Ev) (s : State) : Option State :=
  match s.ppc with
  | PPC.retryNew =>
    match (s.heap inBuffer).next with
    | none => none
    | some c =>
      if (s.heap c).type = BUF_TYPE_NORMAL then
        some { s with ncur := some c, heap := unlink s.heap inBuffer c, ppc := PPC.reuse }
      else
        some { s with ncur := some c, ppc := PPC.allocNode }
  | PPC.reuse =>
    match s.ncur with
    | none => none
    | some c =>
      if s.inBufferSem = 0 then none
      else some { s with
        inBufferSem := s.inBufferSem - 1
        heap := Function.update s.heap c { s.heap c with length := 0 }
        pcur := some c
        ppc := afterNew s }
  | PPC.allocNode =>
    if cfg.MAXBUFS ≤ s.bufCt then some { s with ppc := PPC.waitRetryNew }
    else
      match e with
      | Ev.fail => some { s with ncur := none, ppc := PPC.waitRetryNew }
      | Ev.ok _ => some { s with ncur := some s.nextNode, nextNode := s.nextNode + 1, ppc := PPC.allocBuf }
  | PPC.allocBuf =>
    match s.ncur with
    | none => none
    | some c =>
      match e with
      | Ev.fail => some { s with ppc := PPC.waitRetryNew }
      | Ev.ok _ => some { s with
          heap := Function.update s.heap c
            { s.heap c with buf := some s.nextMem, length := 0, type := BUF_TYPE_NORMAL }
          nextMem := s.nextMem + 1
          bufCt := s.bufCt + 1
          pcur := some c
          ppc := afterNew s }
  | PPC.waitRetryNew =>
    if s.inBufferSem = 0 then none
    else some { s with inBufferSem := s.inBufferSem - 1, ppc := PPC.repost }
  | PPC.repost =>
    some { s with inBufferSem := s.inBufferSem + 1, ppc := PPC.retryNew }
  | _ => none

/-- The payload bytes a chunk node stands for. -/
def chunkOf (s : State) (ty : Nat) (c : Nat) : Chunk :=
  { type := ty
    length := (s.heap c).length
    bytes := match (s.heap c).buf with
      | some p => readBytes (s.mem p) (s.heap c).length
      | none => [] }

/-- One step of the read loop of `main` (lines 276-331). -/
def main (cfg : Cfg) (e : Ev) (s : State) : Option State :=
  match s.ppc with
  | PPC.read =>
    match s.pcur with
    | none => none
    | some c =>
      match e with
      | Ev.fail => some { s with rd := -1, ppc := PPC.join }
      | Ev.ok k =>
        match (s.heap c).buf with
        | none => none
        | some p =>
          let len := (s.heap c).length
          let n := min (k + 1) (min (cfg.BUFSZ - len) s.input.length)
          some { s with
            heap := Function.update s.heap c { s.heap c with length := len + n }
            mem := Function.update s.mem p (storeBytes (s.mem p) len (s.input.take n))
            input := s.input.drop n
            rd := (n : Int)
            ppc := if len + n = cfg.BUFSZ ∨ n = 0 then PPC.enqueue else PPC.read }
  | PPC.enqueue =>
    match s.pcur with
    | none => none
    | some c =>
      let ty := if s.rd = 0 then BUF_TYPE_END else BUF_TYPE_NORMAL
      some { s with
        heap := enqueueOut s.heap s.outBufferTail c ty
        outBufferTail := c
        enqLog := s.enqLog ++ [chunkOf s ty c]
        ppc := PPC.post }
  | PPC.post =>
    some { s with outBufferSem := s.outBufferSem + 1, inLoop := true, ppc := PPC.retryNew }
  | PPC.join =>
    if s.wpc = WPC.done then some { s with ppc := PPC.exited, exit := some 0 } else none
  | _ => none

/-- One step of the main thread. -/
def producer (cfg : Cfg) (e : Ev) (s : State) : Option State :=
  match s.ppc with
  | PPC.read | PPC.enqueue | PPC.post | PPC.join | PPC.exited => main cfg e s
  | _ => newBuffer cfg e s

/-! ## The writer thread -/

/-- The call `write(1, buf, n)`: the range handed over is logged, the stream accepts all of it
but the last `k` bytes on `ok k` and nothing on `fail`; the result is ignored by the caller. -/
def doWrite (e : Ev) (s : State) (buf : Option Nat) (n : Nat) : State :=
  let bytes := match buf with
    | some p => readBytes (s.mem p) n
    | none => []
  let accepted := match e with
    | Ev.ok k => bytes.take (n - k)
    | Ev.fail => []
  { s with writes := s.writes ++ [bytes], out := s.out ++ accepted }

/-- One step of `writer` (lines 85-161). -/
def writer (cfg : Cfg) (e : Ev) (s : State) : Option State :=
  match s.wpc with
  | WPC.semwait =>
    if s.outBufferSem = 0 then none
    else some { s with outBufferSem := s.outBufferSem - 1, wpc := WPC.dequeue }
  | WPC.dequeue =>
    match (s.heap outBuffer).next with
    | none => none
    | some c =>
      some { s with wcur := some c, heap := unlink s.heap outBuffer c, wpc := WPC.write }
  | WPC.write =>
    match s.wcur with
    | none => none
    | some c =>
      if (s.heap c).type = BUF_TYPE_NORMAL then
        some { doWrite e s (s.heap c).buf cfg.BUFSZ with wpc := WPC.recycle }
      else if (s.heap c).type = BUF_TYPE_END then
        some { doWrite e s (s.heap c).buf (s.heap c).length with wpc := WPC.done }
      else some { s with wpc := WPC.recycle }
  | WPC.recycle =>
    match s.wcur with
    | none => none
    | some c =>
      some { s with
        heap := recycle s.heap s.inBufferTail c
        inBufferTail := c
        wpc := WPC.post }
  | WPC.post =>
    some { s with inBufferSem := s.inBufferSem + 1, wpc := WPC.semwait }
  | WPC.done => none

/-! ## The program -/

/-- One step of the process; nothing runs once `main` has returned. -/
def step (cfg : Cfg) (l : Label) (s : State) : Option State :=
  if s.exit.isSome then none
  else
    match l with
    | Label.prod e => producer cfg e s
    | Label.wr e => writer cfg e s

/-- A run under a schedule. -/
def run (cfg : Cfg) : List Label → State → Option State
  | [], s => some s
  | l :: ls, s => (step cfg l s).bind (run cfg ls)

/-- The state after the set-up of `main` (lines 245-269) with `input` waiting on standard input:
both queues hold their head and a `malloc`ed tail sentinel, both semaphores are 0, the writer
thread has been created and `main` is about to call `newBuffer` (line 272). -/
def init (cfg : Cfg) (input : List Nat) : State :=
  { heap := fun a =>
      if a = inBuffer then { next := some 2, type := BUF_TYPE_HEAD, length := 0, buf := none }
      else if a = outBuffer then { next := some 3, type := BUF_TYPE_HEAD, length := 0, buf := none }
      else if a = 2 ∨ a = 3 then { junkNode cfg with type := BUF_TYPE_TAIL }
      else junkNode cfg
    mem := fun _ => cfg.junkMem
    nextNode := 4
    nextMem := 0
    inBufferTail := 2
    inBufferSem := 0
    outBufferTail := 3
    outBufferSem := 0
    bufCt := 0
    ppc := PPC.retryNew
    inLoop := false
    ncur := none
    pcur := none
    rd := cfg.junkRd
    input := input
    wpc := WPC.semwait
    wcur := none
    enqLog := []
    writes := []
    out := []
    exit := none }

/-! ## Linked structure of a queue -/

/-- Following `next` from node `a` visits the nodes of `l` in turn and then reaches `t`. -/
def Chain (h : Heap) : Nat → List Nat → Nat → Prop
  | a, [], t => (h a).next = some t
  | a, x :: xs, t => (h a).next = some x ∧ Chain h x xs t

/-- The nodes met when following `next` pointers from `p` until the node `tail` is reached
(at most `fuel` of them). -/
def walk (h : Heap) (tail : Nat) : Nat → Option Nat → List Nat
  | 0, _ => []
  | _ + 1, none => []
  | fuel + 1, some a => if a = tail then [] else a :: walk h tail fuel (h a).next

/-- The nodes linked between a head sentinel and the tail sentinel of its queue. -/
def linked (s : State) (head tail : Nat) : List Nat :=
  walk s.heap tail s.nextNode (s.heap head).next

/-- A node carrying a chunk: its type is `BUF_TYPE_NORMAL` or `BUF_TYPE_END`. -/
def isData (h : Heap) (a : Nat) : Bool :=
  decide ((h a).type = BUF_TYPE_NORMAL ∨ (h a).type = BUF_TYPE_END)

/-- Number of `NORMAL`/`END` nodes linked between a head sentinel and the tail sentinel. -/
def dataCount (s : State) (head tail : Nat) : Nat :=
  ((linked s head tail).filter (isData s.heap)).length

/-! ## Ownership of nodes and payload blocks -/

/-- The shape of the two queues: `inL` and `outL` are the data nodes of the free and of the
pending queue, `own` the nodes held by the two threads outside the queues, `hold` those of
them that carry a payload.  All nodes are distinct allocated nodes, every data node and every
holding node references its own allocated payload block, and the sentinels reference none. -/
structure Shape (h : Heap) (inT outT nn nm : Nat) (inL outL own hold : List Nat) : Prop where
  chainIn : Chain h inBuffer inL inT
  chainOut : Chain h outBuffer outL outT
  ndIn : inL.Nodup
  ndOut : outL.Nodup
  ndOwn : own.Nodup
  dIn : ∀ a ∈ inL, a ≠ inT ∧ a ≠ outT ∧ a ∉ outL ∧ a ∉ own
  dOut : ∀ a ∈ outL, a ≠ inT ∧ a ≠ outT ∧ a ∉ own
  dOwn : ∀ a ∈ own, a ≠ inT ∧ a ≠ outT
  dTail : inT ≠ outT
  rIn : ∀ a ∈ inL, 2 ≤ a ∧ a < nn
  rOut : ∀ a ∈ outL, 2 ≤ a ∧ a < nn
  rOwn : ∀ a ∈ own, 2 ≤ a ∧ a < nn
  rTail : (2 ≤ inT ∧ inT < nn) ∧ (2 ≤ outT ∧ outT < nn)
  holdSub : List.Sublist hold own
  bufs : ∀ a, a ∈ inL ∨ a ∈ outL ∨ a ∈ hold → ∃ p, (h a).buf = some p ∧ p < nm
  bufInj : ∀ a b, (a ∈ inL ∨ a ∈ outL ∨ a ∈ hold) → (b ∈ inL ∨ b ∈ outL ∨ b ∈ hold) →
    (h a).buf = (h b).buf → a = b
  headIn : (h inBuffer).buf = none
  headOut : (h outBuffer).buf = none
  tailIn : (h inT).buf = none ∧ (h inT).type = BUF_TYPE_TAIL
  tailOut : (h outT).buf = none ∧ (h outT).type = BUF_TYPE_TAIL
  typeIn : ∀ a ∈ inL, (h a).type = BUF_TYPE_NORMAL
  typeOut : ∀ a ∈ outL, (h a).type = BUF_TYPE_NORMAL ∨ (h a).type = BUF_TYPE_END

/-- The node the main thread holds outside the queues: the one `newBuffer` is about to return,
or `cur` of `main` while it is being filled or enqueued. -/
def pOwnOf (pc : PPC) (ncur pcur : Option Nat) : List Nat :=
  match pc with
  | PPC.reuse | PPC.allocBuf => ncur.toList
  | PPC.read | PPC.enqueue | PPC.join | PPC.exited => pcur.toList
  | _ => []

def pOwn (s : State) : List Nat := pOwnOf s.ppc s.ncur s.pcur

/-- The node held by the main thread that carries a payload. -/
def pHoldOf (pc : PPC) (ncur pcur : Option Nat) : List Nat :=
  match pc with
  | PPC.reuse => ncur.toList
  | PPC.read | PPC.enqueue | PPC.join | PPC.exited => pcur.toList
  | _ => []

def pHold (s : State) : List Nat := pHoldOf s.ppc s.ncur s.pcur

/-- The node the writer holds outside the queues: `cur` between its dequeue and its recycle. -/
def wOwnOf (pc : WPC) (wcur : Option Nat) : List Nat :=
  match pc with
  | WPC.write | WPC.recycle => wcur.toList
  | _ => []

def wOwn (s : State) : List Nat := wOwnOf s.wpc s.wcur

/-- The 0/1 value of a condition. -/
def ind (p : Prop) [Decidable p] : Nat := if p then 1 else 0

/-- The invariant of the two-thread program on queues, ownership, semaphores and `bufCt`;
`inL` and `outL` are the data nodes of the free and of the pending queue. -/
structure Inv (cfg : Cfg) (s : State) (inL outL : List Nat) : Prop where
  shape : Shape s.heap s.inBufferTail s.outBufferTail s.nextNode s.nextMem inL outL
    (pOwn s ++ wOwn s) (pHold s ++ wOwn s)
  hasN : s.ppc = PPC.reuse ∨ s.ppc = PPC.allocBuf → ∃ c, s.ncur = some c
  hasP : s.ppc = PPC.read ∨ s.ppc = PPC.enqueue ∨ s.ppc = PPC.join ∨ s.ppc = PPC.exited →
    ∃ c, s.pcur = some c
  hasW : s.wpc = WPC.write ∨ s.wpc = WPC.recycle → ∃ c, s.wcur = some c
  semOut : s.outBufferSem + ind (s.wpc = WPC.dequeue) + ind (s.ppc = PPC.post) = outL.length
  semIn : s.inBufferSem + ind (s.wpc = WPC.post) + ind (s.ppc = PPC.repost) =
    inL.length + ind (s.ppc = PPC.reuse)
  typeP : ∀ c ∈ pHold s, (s.heap c).type = BUF_TYPE_NORMAL
  typeW : ∀ c ∈ wOwn s, (s.heap c).type = BUF_TYPE_NORMAL ∨
    (s.wpc = WPC.write ∧ (s.heap c).type = BUF_TYPE_END)
  cnt : s.bufCt = s.nextMem ∧ s.bufCt ≤ cfg.MAXBUFS ∧
    (s.ppc = PPC.allocBuf → s.bufCt < cfg.MAXBUFS)
  exitP : s.exit = none ∨ s.ppc = PPC.exited

/-! ## Data in flight -/

/-- The chunk held by node `a`, with the type stored in the node. -/
def nodeChunk (s : State) (a : Nat) : Chunk := chunkOf s (s.heap a).type a

/-- The end-of-stream chunk has been enqueued: `rd == 0` and `main` is past line 317. -/
def ended (s : State) : Prop :=
  s.rd = 0 ∧ s.ppc ≠ PPC.read ∧ s.ppc ≠ PPC.enqueue ∧ (s.ppc = PPC.post ∨ s.inLoop = true)

instance (s : State) : Decidable (ended s) := by
  unfold ended
  infer_instance

/-- The node the writer has dequeued and not yet written. -/
def wPendOf (pc : WPC) (wcur : Option Nat) : List Nat :=
  match pc with
  | WPC.write => wcur.toList
  | _ => []

def wPend (s : State) : List Nat := wPendOf s.wpc s.wcur

/-- The bytes read so far into the chunk `main` is filling. -/
def curBytes (s : State) : List Nat :=
  match s.ppc with
  | PPC.read | PPC.enqueue | PPC.join | PPC.exited =>
    match s.pcur with
    | some c => (nodeChunk s c).bytes
    | none => []
  | _ => []

/-- What `main` knows about the chunk it holds, by program point. -/
def localOk (cfg : Cfg) (s : State) : Prop :=
  match s.ppc with
  | PPC.read => ∀ c, s.pcur = some c → (s.heap c).length < cfg.BUFSZ
  | PPC.enqueue => ∀ c, s.pcur = some c →
      (s.rd ≠ 0 ∧ (s.heap c).length = cfg.BUFSZ) ∨
      (s.rd = 0 ∧ (s.heap c).length < cfg.BUFSZ ∧ s.input = [])
  | PPC.join | PPC.exited => s.rd = 0 → ∀ c, s.pcur = some c → (s.heap c).length = 0
  | _ => True

/-- The invariant on the data: `written` are the chunks the writer has handed to `write`,
`outL` the data nodes of the pending queue, `whole` the bytes that were on standard input. -/
structure Data (cfg : Cfg) (whole : List Nat) (s : State) (outL : List Nat)
    (written : List Chunk) : Prop where
  log : s.enqLog = written ++ (wPend s ++ outL).map (nodeChunk s)
  wr : s.writes = written.map (fun e => e.bytes)
  wrN : s.wpc ≠ WPC.done → ∀ e ∈ written, e.type = BUF_TYPE_NORMAL
  wrD : s.wpc = WPC.done → written = s.enqLog ∧ ended s
  logN : ¬ ended s → ∀ e ∈ s.enqLog, e.type = BUF_TYPE_NORMAL
  logE : ended s → ∃ pre e, s.enqLog = pre ++ [e] ∧ (∀ x ∈ pre, x.type = BUF_TYPE_NORMAL) ∧
    e.type = BUF_TYPE_END ∧ e.length < cfg.BUFSZ ∧ s.input = []
  logL : ∀ e ∈ s.enqLog, e.bytes.length = e.length ∧
    (e.type = BUF_TYPE_NORMAL → e.length = cfg.BUFSZ)
  bytes : (s.enqLog.map (fun e => e.bytes)).flatten ++ curBytes s ++ s.input = whole
  loc : localOk cfg s

/-- The invariant of the program: queue shape, ownership, semaphore counts and data in flight,
for an input `whole`. -/
def Good (cfg : Cfg) (whole : List Nat) (s : State) : Prop :=
  ∃ inL outL written, Inv cfg s inL outL ∧ Data cfg whole s outL written

/-- The states the program can reach from its initial state with `whole` on standard input. -/
def Reachable (cfg : Cfg) (whole : List Nat) (s : State) : Prop :=
  ∃ ls, run cfg ls (init cfg whole) = some s

/-- Outside the program points where a thread holds a chunk, its variable `cur` is
uninitialised or still points to the node it turned into a tail sentinel. -/
def Stale (s : State) : Prop :=
  ((s.ppc ≠ PPC.read ∧ s.ppc ≠ PPC.enqueue ∧ s.ppc ≠ PPC.join ∧ s.ppc ≠ PPC.exited) →
    (s.pcur = none ∨ s.pcur = some s.outBufferTail)) ∧
  ((s.wpc = WPC.semwait ∨ s.wpc = WPC.dequeue ∨ s.wpc = WPC.post) →
    (s.wcur = none ∨ s.wcur = some s.inBufferTail))

/-! ## One queue on its own -/

/-- A queue seen alone: the heap, the address of its head sentinel and its tail pointer. -/
structure Queue where
  heap : Heap
  head : Nat
  tail : Nat

/-- What a node carries: type, length, payload pointer. -/
structure Item where
  type : Nat
  length : Nat
  buf : Option Nat
deriving DecidableEq

def item (h : Heap) (a : Nat) : Item :=
  { type := (h a).type, length := (h a).length, buf := (h a).buf }

/-- The sentinel-swap enqueue of `main` (lines 296-317) with chunk type `ty`. -/
def Queue.enq (q : Queue) (cur ty : Nat) : Queue :=
  { q with heap := enqueueOut q.heap q.tail cur ty, tail := cur }

/-- The head dequeue of `writer` (lines 89-95): the detached node and the queue left. -/
def Queue.deq (q : Queue) : Option (Nat × Queue) :=
  match (q.heap q.head).next with
  | none => none
  | some c => some (c, { q with heap := unlink q.heap q.head c })

/-- The recycle of `writer` (lines 127-139). -/
def Queue.recycle (q : Queue) (cur : Nat) : Queue :=
  { q with heap := WriteBuffer.recycle q.heap q.tail cur, tail := cur }

/-- The reuse path of `newBuffer` (lines 173-183): the node returned, with `length` reset,
and the queue left; `none` when the front node is not `NORMAL`. -/
def Queue.take (q : Queue) : Option (Nat × Queue) :=
  match (q.heap q.head).next with
  | none => none
  | some c =>
    if (q.heap c).type = BUF_TYPE_NORMAL then
      let h1 := unlink q.heap q.head c
      some (c, { q with heap := Function.update h1 c { h1 c with length := 0 } })
    else none

/-- The nodes linked between the head and the tail of a queue, looking at most `bound` nodes
ahead. -/
def Queue.nodes (bound : Nat) (q : Queue) : List Nat :=
  walk q.heap q.tail bound (q.heap q.head).next

/-- What the two threads do to one queue: add the chunk of a node they own (`put`), remove the
front chunk (`get`), or write to a node they own (`store`). -/
inductive QOp where
  | put (cur : Nat) (ty : Nat)
  | get
  | store (a : Nat) (b : Buffer)

/-- The node handed to an operation belongs to its caller: it is an allocated node that is
neither a sentinel of the queue nor linked in it. -/
def Queue.owns (bound : Nat) (q : Queue) (a : Nat) : Prop :=
  a < bound ∧ a ≠ q.head ∧ a ≠ q.tail ∧ a ∉ q.nodes bound

instance (bound : Nat) (q : Queue) (a : Nat) : Decidable (q.owns bound a) := by
  unfold Queue.owns
  infer_instance

/-- The operations are applied as the program applies them to the pending queue: nodes handed
over are owned by the caller, and a dequeue happens only when a data node is linked. -/
def validPending (bound : Nat) : Queue → List QOp → Prop
  | _, [] => True
  | q, QOp.put c ty :: ops => q.owns bound c ∧ validPending bound (q.enq c ty) ops
  | q, QOp.get :: ops =>
    q.nodes bound ≠ [] ∧
      match q.deq with
      | some (_, q2) => validPending bound q2 ops
      | none => False
  | q, QOp.store a b :: ops =>
    q.owns bound a ∧ validPending bound { q with heap := Function.update q.heap a b } ops

/-- The same operations as seen by a list queue: a `put` adds the chunk of the node handed
over (`some`), a `get` removes one (`none`). -/
def opsPending : Queue → List QOp → List (Option Item)
  | _, [] => []
  | q, QOp.put c ty :: ops =>
    some { type := ty, length := (q.heap c).length, buf := (q.heap c).buf } ::
      opsPending (q.enq c ty) ops
  | q, QOp.get :: ops =>
    match q.deq with
    | some (_, q2) => none :: opsPending q2 ops
    | none => []
  | q, QOp.store a b :: ops =>
    opsPending { q with heap := Function.update q.heap a b } ops

/-- What the nodes dequeued from the pending queue carry, in order. -/
def dequeuedPending : Queue → List QOp → List Item
  | _, [] => []
  | q, QOp.put c ty :: ops => dequeuedPending (q.enq c ty) ops
  | q, QOp.get :: ops =>
    match q.deq with
    | some (c, q2) => item q2.heap c :: dequeuedPending q2 ops
    | none => []
  | q, QOp.store a b :: ops =>
    dequeuedPending { q with heap := Function.update q.heap a b } ops

/-- The operations are applied as the program applies them to the free queue. -/
def validFree (bound : Nat) : Queue → List QOp → Prop
  | _, [] => True
  | q, QOp.put c _ :: ops => q.owns bound c ∧ validFree bound (q.recycle c) ops
  | q, QOp.get :: ops =>
    q.nodes bound ≠ [] ∧
      match q.take with
      | some (_, q2) => validFree bound q2 ops
      | none => False
  | q, QOp.store a b :: ops =>
    q.owns bound a ∧ validFree bound { q with heap := Function.update q.heap a b } ops

/-- The operations on the free queue as seen by a list queue. -/
def opsFree : Queue → List QOp → List (Option Item)
  | _, [] => []
  | q, QOp.put c _ :: ops => some (item q.heap c) :: opsFree (q.recycle c) ops
  | q, QOp.get :: ops =>
    match q.take with
    | some (_, q2) => none :: opsFree q2 ops
    | none => []
  | q, QOp.store a b :: ops =>
    opsFree { q with heap := Function.update q.heap a b } ops

/-- What the nodes returned from the free queue by `newBuffer` carry, in order. -/
def dequeuedFree : Queue → List QOp → List Item
  | _, [] => []
  | q, QOp.put c _ :: ops => dequeuedFree (q.recycle c) ops
  | q, QOp.get :: ops =>
    match q.take with
    | some (c, q2) => item q2.heap c :: dequeuedFree q2 ops
    | none => []
  | q, QOp.store a b :: ops =>
    dequeuedFree { q with heap := Function.update q.heap a b } ops

/-- The abstract list queue: `some x` appends `x`, `none` removes the front element; the
result is the list of elements removed, in order. -/
def listQueue : List Item → List (Option Item) → List Item
  | _, [] => []
  | l, some x :: ops => listQueue (l ++ [x]) ops
  | [], none :: _ => []
  | x :: l, none :: ops => x :: listQueue l ops

/-- The elements added by a sequence of list-queue operations, in order. -/
def added (ops : List (Option Item)) : List Item := ops.filterMap id

/-- The nodes `l` are the data nodes of queue `q`: they are linked in this order between
head and tail, and head, tail and data nodes are distinct nodes below `bound`. -/
def QRep (bound : Nat) (q : Queue) (l : List Nat) : Prop :=
  Chain q.heap q.head l q.tail ∧ (q.head :: q.tail :: l).Nodup ∧
    ∀ a ∈ q.head :: q.tail :: l, a < bound

/-- An empty queue: the head sentinel points to the tail sentinel. -/
def Queue.empty (bound : Nat) (q : Queue) : Prop :=
  (q.heap q.head).next = some q.tail ∧ q.head ≠ q.tail ∧ q.head < bound ∧ q.tail < bound

instance (bound : Nat) (q : Queue) : Decidable (q.empty bound) := by
  unfold Queue.empty
  infer_instance

/-! ## Statements about runs -/

/-- The chunks the chunking property asks for: `⌊L/C⌋` chunks of type `NORMAL` holding `C`
bytes each, then one chunk of type `END` holding the last `L mod C` bytes. -/
def specChunks (C : Nat) (whole : List Nat) : List Chunk :=
  (List.range (whole.length / C)).map
      (fun i => { type := BUF_TYPE_NORMAL, length := C, bytes := (whole.drop (i * C)).take C }) ++
    [{ type := BUF_TYPE_END, length := whole.length % C,
       bytes := whole.drop (whole.length / C * C) }]

/-- A node that may reference a payload block: a node linked in the free or in the pending
queue, `cur` of `main`, the node `newBuffer` has unlinked and is about to return, or `cur` of
the running writer. -/
def Holder (s : State) (a : Nat) : Prop :=
  a ∈ linked s inBuffer s.inBufferTail ∨ a ∈ linked s outBuffer s.outBufferTail ∨
    s.pcur = some a ∨ (s.ppc = PPC.reuse ∧ s.ncur = some a) ∨
    (s.wpc ≠ WPC.done ∧ s.wcur = some a)

/-- The holders of payload blocks, one entry for each role a node plays: the nodes linked in
the free queue, the nodes linked in the pending queue, the chunk of `main` (the node
`newBuffer` is about to return, or `cur` of the read loop), and `cur` of the writer between
its dequeue and its recycle. -/
def holders (s : State) : List Nat :=
  linked s inBuffer s.inBufferTail ++ linked s outBuffer s.outBufferTail ++ pHold s ++ wOwn s

/-- The bytes of the range `r` the output stream takes when `write` is answered by `e`. -/
def accepted (e : Ev) (r : List Nat) : List Nat :=
  match e with
  | Ev.ok k => r.take (r.length - k)
  | Ev.fail => []

/-- In a step of the writer the environment lets `write` transfer everything. -/
def isFull : Label → Bool
  | Label.wr (Ev.ok 0) => true
  | Label.wr _ => false
  | Label.prod _ => true

/-- Every `write` of the schedule transfers all the bytes it is asked to. -/
def FullWrites (ls : List Label) : Prop :=
  ∀ l ∈ ls, isFull l = true

instance (ls : List Label) : Decidable (FullWrites ls) := by
  unfold FullWrites
  infer_instance

/-- No `read` and no `malloc` of the schedule fails. -/
def noFail : Label → Bool
  | Label.prod Ev.fail => false
  | _ => true

def NoFailure (ls : List Label) : Prop :=
  ∀ l ∈ ls, noFail l = true

instance (ls : List Label) : Decidable (NoFailure ls) := by
  unfold NoFailure
  infer_instance

/-- No step of the process is possible. -/
def Stuck (cfg : Cfg) (s : State) : Prop :=
  ∀ l, step cfg l s = none

/-! ## Concrete runs -/

/-- Chunk capacity 4, the pool cap of the source. -/
def cfg4 : Cfg :=
  { BUFSZ := 4, MAXBUFS := 128, junkType := 7, junkLen := 9, junkMem := fun _ => 0, junkRd := 5 }

/-- Chunk capacity 4, pool cap 1. -/
def cfgCap1 : Cfg := { cfg4 with MAXBUFS := 1 }

/-- A step of the main thread; a `read` in it offers `k + 1` bytes. -/
def P (k : Nat) : Label := Label.prod (Ev.ok k)

/-- A step of the writer; a `write` in it transfers everything. -/
def W : Label := Label.wr (Ev.ok 0)

/-- The state a schedule leads to (the start state if the schedule cannot be run). -/
def runD (cfg : Cfg) (ls : List Label) (s : State) : State :=
  (run cfg ls s).getD s

/-- The main thread gets its first chunk: `retryNew`, `malloc` of the node, `malloc` of the
payload. -/
def schedFirst : List Label := [P 0, P 0, P 0]

/-- The main thread fills a chunk with one `read`, enqueues it and posts; the writer takes it,
writes it, recycles it and posts; the main thread takes the recycled chunk. -/
def schedChunk : List Label := [P 3, P 0, P 0, W, W, W, W, W, P 0, P 0]

/-- The main thread reads end of input, enqueues the last chunk and posts; the writer takes it
and writes it. -/
def schedEnd : List Label := [P 3, P 0, P 0, W, W, W]

/-- After the last chunk: `newBuffer` once more (`retryNew`, two `malloc`s), then
`pthread_join` and the return of `main`. -/
def schedExit : List Label := [P 0, P 0, P 0, P 0]

def inputABCDEFGH : List Nat := [65, 66, 67, 68, 69, 70, 71, 72]

def inputABCDEF : List Nat := [65, 66, 67, 68, 69, 70]

def inputABCD : List Nat := [65, 66, 67, 68]

/-- One chunk goes through the writer and back into the free queue, then `newBuffer` unlinks
it (line 178) and stands before its `sem_wait` (line 181). -/
def schedUnlinked : List Label := schedFirst ++ [P 3, P 0, P 0, W, W, W, W, W, P 0]

/-- The first `read` of `main` fails. -/
def schedReadFail : List Label := schedFirst ++ [Label.prod Ev.fail]

/-- The `malloc` of the node fails in the first `newBuffer`. -/
def schedNodeFail : List Label := [P 0, Label.prod Ev.fail]

/-- The `malloc` of the payload fails in the first `newBuffer`. -/
def schedBufFail : List Label := [P 0, P 0, Label.prod Ev.fail]

/-- With the pool cap at 1 and empty input: the first chunk becomes the end-of-stream chunk,
the writer writes it and ends, and `main` is in `newBuffer` again (`retryNew`, then the cap
check). -/
def schedCap1 : List Label := schedFirst ++ schedEnd ++ [P 0, P 0]

/-- A whole run on "ABCDEFGH": two full chunks, the end-of-stream chunk, the return of `main`. -/
def schedABCDEFGH : List Label :=
  schedFirst ++ schedChunk ++ schedChunk ++ schedEnd ++ schedExit

/-- A whole run on "ABCDEF": one full chunk, a `read` that leaves the second chunk half full,
the end-of-stream chunk, the return of `main`. -/
def schedABCDEF : List Label :=
  schedFirst ++ schedChunk ++ [P 3] ++ schedEnd ++ schedExit

def inputAL : List Nat := [65, 66, 67, 68, 69, 70, 71, 72, 73, 74, 75, 76]

/-- The main thread fills and enqueues a chunk and gets the next one from `malloc`. -/
def schedAhead : List Label := [P 3, P 0, P 0, P 0, P 0, P 0]

/-- Three chunks are enqueued while the writer sleeps; the writer then writes and recycles the
first and dequeues the second.  One chunk is in the free queue, one in the pending queue, one
with the writer and a fourth with `main`. -/
def schedFourHolders : List Label :=
  schedFirst ++ schedAhead ++ schedAhead ++ schedAhead ++ [W, W, W, W, W, W, W]

/-- A whole run on empty input. -/
def schedNoInput : List Label := schedFirst ++ schedEnd ++ schedExit

/-- A queue whose head sentinel (node 0) points to its tail sentinel (node 2); nodes 5 and 6
are chunks of length 4 and 2 with payload blocks 0 and 1, owned by the caller. -/
def queue0 : Queue :=
  { heap := fun a =>
      if a = 0 then { next := some 2, type := BUF_TYPE_HEAD, length := 0, buf := none }
      else if a = 2 then { next := none, type := BUF_TYPE_TAIL, length := 9, buf := none }
      else if a = 5 then { next := none, type := BUF_TYPE_NORMAL, length := 4, buf := some 0 }
      else if a = 6 then { next := none, type := BUF_TYPE_NORMAL, length := 2, buf := some 1 }
      else { next := none, type := 7, length := 9, buf := none }
    head := 0
    tail := 2 }

/-- Two chunks are handed over, then both are taken back. -/
def opsTwo : List QOp := [QOp.put 5 BUF_TYPE_NORMAL, QOp.put 6 BUF_TYPE_NORMAL, QOp.get, QOp.get]

instance decValidPending (bound : Nat) :
    ∀ (ops : List QOp) (q : Queue), Decidable (validPending bound q ops)
  | [], _ => isTrue trivial
  | QOp.put c ty :: ops, q =>
    have := decValidPending bound ops (q.enq c ty)
    inferInstanceAs (Decidable (q.owns bound c ∧ validPending bound (q.enq c ty) ops))
  | QOp.get :: ops, q =>
    match h : q.deq with
    | some (c, q2) =>
      have := decValidPending bound ops q2
      decidable_of_iff (q.nodes bound ≠ [] ∧ validPending bound q2 ops) (by
        simp [validPending, h])
    | none => isFalse (by simp [validPending, h])
  | QOp.store a b :: ops, q =>
    have := decValidPending bound ops { q with heap := Function.update q.heap a b }
    inferInstanceAs (Decidable (q.owns bound a ∧
      validPending bound { q with heap := Function.update q.heap a b } ops))

instance decValidFree (bound : Nat) :
    ∀ (ops : List QOp) (q : Queue), Decidable (validFree bound q ops)
  | [], _ => isTrue trivial
  | QOp.put c _ :: ops, q =>
    have := decValidFree bound ops (q.recycle c)
    inferInstanceAs (Decidable (q.owns bound c ∧ validFree bound (q.recycle c) ops))
  | QOp.get :: ops, q =>
    match h : q.take with
    | some (c, q2) =>
      have := decValidFree bound ops q2
      decidable_of_iff (q.nodes bound ≠ [] ∧ validFree bound q2 ops) (by
        simp [validFree, h])
    | none => isFalse (by simp [validFree, h])
  | QOp.store a b :: ops, q =>
    have := decValidFree bound ops { q with heap := Function.update q.heap a b }
    inferInstanceAs (Decidable (q.owns bound a ∧
      validFree bound { q with heap := Function.update q.heap a b } ops))

/-! ## Progress -/

/-- Every payload block allocated so far is accounted for by a semaphore count or by a thread
standing at a program point where it holds a chunk or owes a `sem_post`; the block of the
end-of-stream chunk stays with the writer. -/
def Balance (s : State) : Prop :=
  s.bufCt = s.inBufferSem + s.outBufferSem + ind (s.wpc = WPC.post) + ind (s.ppc = PPC.repost)
    + ind (s.wpc = WPC.dequeue) + ind (s.ppc = PPC.post)
    + ind (s.ppc = PPC.read ∨ s.ppc = PPC.enqueue ∨ s.ppc = PPC.join ∨ s.ppc = PPC.exited)
    + ind (s.wpc = WPC.write ∨ s.wpc = WPC.recycle ∨ s.wpc = WPC.done)

/-- No `read` and no `malloc` has failed so far: `main` has left its loop only after the
end-of-stream chunk, waits in `newBuffer` only with the pool at its cap, and has returned only
after the writer ended. -/
def Clean (cfg : Cfg) (s : State) : Prop :=
  (s.ppc = PPC.join ∨ s.ppc = PPC.exited → ended s) ∧
  (s.ppc = PPC.waitRetryNew ∨ s.ppc = PPC.repost → cfg.MAXBUFS ≤ s.bufCt) ∧
  (s.ppc = PPC.exited → s.wpc = WPC.done)

/-- Whether `main` still has to come back to `read`: 0 once `read` has returned 0. -/
def mainTodo (s : State) : Nat :=
  if s.rd = 0 ∧ (s.ppc = PPC.enqueue ∨ s.ppc = PPC.post ∨ (s.inLoop = true ∧ s.ppc ≠ PPC.read))
  then 0 else 1

/-- How far `main` is from its next `read`, in steps of the model. -/
def mainPhase (s : State) : Nat :=
  match s.ppc with
  | PPC.enqueue => 10
  | PPC.post => 9
  | PPC.retryNew => if s.inBufferSem = 0 then 8 else 4
  | PPC.allocNode => 7
  | PPC.allocBuf => 6
  | PPC.waitRetryNew => 6
  | PPC.repost => 5
  | PPC.reuse => 3
  | _ => 0

/-- A bound on the steps `main` takes, with full reads, until the end-of-stream chunk is
posted. -/
def mainRank (s : State) : Nat :=
  20 * (s.input.length + mainTodo s) + mainPhase s

/-- A bound on the steps the writer can take without a step of `main`. -/
def writerRank (s : State) : Nat :=
  5 * s.outBufferSem +
    match s.wpc with
    | WPC.dequeue => 4
    | WPC.write => 3
    | WPC.recycle => 2
    | WPC.post => 1
    | _ => 0

/-! ## Payload bytes -/

theorem readBytes_length (m : Nat → Nat) (n : Nat) : (readBytes m n).length = n := by
  simp [readBytes]

theorem readBytes_zero (m : Nat → Nat) : readBytes m 0 = [] := by
  simp [readBytes]

theorem readBytes_add (m : Nat → Nat) (a b : Nat) :
    readBytes m (a + b) = readBytes m a ++ (List.range b).map (fun i => m (a + i)) := by
  simp [readBytes, List.range_add, List.map_map, Function.comp_def]

theorem map_getD_range (d : List Nat) : (List.range d.length).map (fun i => d.getD i 0) = d := by
  apply List.ext_getElem
  · simp
  · intro i h1 h2
    simp at h1
    simp [List.getElem?_eq_getElem h1]

theorem readBytes_store (m : Nat → Nat) (off : Nat) (d : List Nat) :
    readBytes (storeBytes m off d) (off + d.length) = readBytes m off ++ d := by
  rw [readBytes_add]
  congr 1
  · apply List.map_congr_left
    intro i hi
    simp at hi
    simp [storeBytes]
    omega
  · conv_rhs => rw [← map_getD_range d]
    apply List.map_congr_left
    intro i hi
    simp at hi
    simp [storeBytes, hi]

theorem readBytes_store_le (m : Nat → Nat) (off n : Nat) (d : List Nat) (h : n ≤ off) :
    readBytes (storeBytes m off d) n = readBytes m n := by
  apply List.map_congr_left
  intro i hi
  simp at hi
  simp [storeBytes]
  omega

/-! ## Chains of nodes -/

theorem Chain.congr {h h2 : Heap} {a : Nat} {l : List Nat} {t : Nat}
    (hc : Chain h a l t) (hf : ∀ x ∈ a :: l, (h2 x).next = (h x).next) : Chain h2 a l t := by
  induction l generalizing a with
  | nil =>
    simp only [Chain] at hc ⊢
    rw [hf a (by simp)]; exact hc
  | cons x xs ih =>
    simp only [Chain] at hc ⊢
    refine ⟨by rw [hf a (by simp)]; exact hc.1, ih hc.2 ?_⟩
    intro y hy
    exact hf y (List.mem_cons_of_mem _ hy)

theorem Chain.snoc {h : Heap} {a : Nat} {l : List Nat} {t c : Nat}
    (hc : Chain h a l t) (ht : (h t).next = some c) : Chain h a (l ++ [t]) c := by
  induction l generalizing a with
  | nil =>
    simp only [Chain] at hc
    simp [Chain, hc, ht]
  | cons x xs ih =>
    simp only [Chain] at hc
    simp only [List.cons_append, Chain]
    exact ⟨hc.1, ih hc.2⟩

theorem walk_chain {h : Heap} {a : Nat} {l : List Nat} {t fuel : Nat}
    (hc : Chain h a l t) (hn : t ∉ l) (hf : l.length < fuel) :
    walk h t fuel (h a).next = l := by
  induction l generalizing a fuel with
  | nil =>
    simp only [Chain] at hc
    cases fuel with
    | zero => simp at hf
    | succ f => simp [hc, walk]
  | cons x xs ih =>
    simp only [Chain] at hc
    cases fuel with
    | zero => simp at hf
    | succ f =>
      have hx : x ≠ t := by
        intro e; apply hn; simp [e]
      have hxs : t ∉ xs := by
        intro e; apply hn; simp [e]
      simp only [List.length_cons, Nat.add_lt_add_iff_right] at hf
      rw [hc.1]
      simp [walk, hx, ih hc.2 hxs hf]

theorem nodup_length_le {l : List Nat} {n : Nat} (hn : l.Nodup) (hr : ∀ a ∈ l, a < n) :
    l.length ≤ n := by
  have hs : l ⊆ List.range n := by
    intro a ha
    simp [hr a ha]
  have := (List.subperm_of_subset hn hs).length_le
  simpa using this

theorem chain_front {h : Heap} {a : Nat} {l : List Nat} {t : Nat} (hc : Chain h a l t) :
    (h a).next = some ((l ++ [t]).headI) := by
  cases l <;> simp only [Chain] at hc <;> simp [hc]

/-! ## Relinking and the shape of the queues -/

theorem enqueueOut_cur (h : Heap) (t c ty : Nat) :
    enqueueOut h t c ty c =
      { next := none, type := BUF_TYPE_TAIL, length := (h c).length, buf := none } := by
  by_cases e : c = t <;> simp [enqueueOut, Function.update, e]

theorem enqueueOut_tail (h : Heap) (t c ty : Nat) (hne : t ≠ c) :
    enqueueOut h t c ty t =
      { next := some c, type := ty, length := (h c).length, buf := (h c).buf } := by
  simp [enqueueOut, Function.update, hne]

theorem enqueueOut_other (h : Heap) (t c ty a : Nat) (h1 : a ≠ t) (h2 : a ≠ c) :
    enqueueOut h t c ty a = h a := by
  simp [enqueueOut, Function.update, h1, h2]

theorem shape_enqueue {h : Heap} {inT outT nn nm : Nat} {inL outL own hold : List Nat}
    {c : Nat} (ty : Nat)
    (hs : Shape h inT outT nn nm inL outL (c :: own) (c :: hold))
    (hty : ty = BUF_TYPE_NORMAL ∨ ty = BUF_TYPE_END) :
    Shape (enqueueOut h outT c ty) inT c nn nm inL (outL ++ [outT]) own hold := by
  obtain ⟨hci, hco, ndIn, ndOut, ndOwn, dIn, dOut, dOwn, dTail, rIn, rOut, rOwn, rTail, hsub,
    hbf, hbi, hhi, hho, hti, hto, htyi, htyo⟩ := hs
  simp only [List.nodup_cons, List.mem_cons, not_or, forall_eq_or_imp] at ndOwn dIn dOut dOwn rOwn
  have hsub2 : List.Sublist hold own := List.cons_sublist_cons.mp hsub
  have hsubm : ∀ a ∈ hold, a ∈ own := fun a ha => hsub2.subset ha
  have hct : outT ≠ c := fun e => dOwn.1.2 e.symm
  have hT : enqueueOut h outT c ty outT = _ := enqueueOut_tail h outT c ty hct
  have hC : enqueueOut h outT c ty c = _ := enqueueOut_cur h outT c ty
  have hO : ∀ a, a ≠ outT → a ≠ c → enqueueOut h outT c ty a = h a :=
    fun a h1 h2 => enqueueOut_other h outT c ty a h1 h2
  have hin : ∀ a ∈ inL, enqueueOut h outT c ty a = h a := by
    intro a ha; have := dIn a ha; exact hO a (by tauto) (by tauto)
  have hout : ∀ a ∈ outL, enqueueOut h outT c ty a = h a := by
    intro a ha; have := dOut a ha; exact hO a (by tauto) (by tauto)
  have hown : ∀ a ∈ own, enqueueOut h outT c ty a = h a := by
    intro a ha; have := dOwn.2 a ha
    exact hO a (by tauto) (by rintro rfl; exact ndOwn.1 ha)
  have h0 : enqueueOut h outT c ty inBuffer = h inBuffer := by
    apply hO <;> simp [inBuffer] <;> omega
  have h1 : enqueueOut h outT c ty outBuffer = h outBuffer := by
    apply hO <;> simp [outBuffer] <;> omega
  have hit : enqueueOut h outT c ty inT = h inT := by
    apply hO <;> tauto
  constructor
  · apply hci.congr
    intro x hx
    simp only [List.mem_cons] at hx
    rcases hx with rfl | hx
    · rw [h0]
    · rw [hin x hx]
  · apply Chain.snoc
    · apply hco.congr
      intro x hx
      simp only [List.mem_cons] at hx
      rcases hx with rfl | hx
      · rw [h1]
      · rw [hout x hx]
    · rw [hT]
  · exact ndIn
  · simp only [List.nodup_append, List.nodup_cons, List.not_mem_nil, not_false_eq_true,
      List.nodup_nil, and_self, List.mem_singleton, true_and]
    refine ⟨ndOut, ?_⟩
    intro a ha e
    simp only [List.mem_singleton] at e
    exact (dOut a ha).2.1 e
  · exact ndOwn.2
  · intro a ha
    have := dIn a ha
    simp only [List.mem_append, List.mem_singleton, not_or]
    tauto
  · intro a ha
    simp only [List.mem_append, List.mem_singleton] at ha
    rcases ha with ha | rfl
    · have := dOut a ha
      tauto
    · refine ⟨dTail.symm, hct, fun hm => (dOwn.2 a hm).2 rfl⟩
  · intro a ha
    have := dOwn.2 a ha
    refine ⟨by tauto, by rintro rfl; exact ndOwn.1 ha⟩
  · exact fun e => dOwn.1.1 e.symm
  · exact rIn
  · intro a ha
    simp only [List.mem_append, List.mem_singleton] at ha
    rcases ha with ha | rfl
    · exact rOut a ha
    · exact rTail.2
  · exact rOwn.2
  · exact ⟨rTail.1, rOwn.1⟩
  · exact hsub2
  · intro a ha
    simp only [List.mem_append, List.mem_singleton] at ha
    rcases ha with ha | (ha | rfl) | ha
    · rw [hin a ha]; exact hbf a (by simp [ha])
    · rw [hout a ha]; exact hbf a (by simp [ha])
    · rw [hT]; exact hbf c (by simp)
    · rw [hown a (hsubm a ha)]; exact hbf a (by simp [ha])
  · have key : ∀ x, (x ∈ inL ∨ x ∈ outL ++ [outT] ∨ x ∈ hold) →
        ∃ y, (y ∈ inL ∨ y ∈ outL ∨ y ∈ c :: hold) ∧
          (enqueueOut h outT c ty x).buf = (h y).buf ∧ (y = x ∨ (x = outT ∧ y = c)) ∧ x ≠ c := by
      intro x hx
      simp only [List.mem_append, List.mem_singleton] at hx
      rcases hx with hx | (hx | rfl) | hx
      · exact ⟨x, by simp [hx], by rw [hin x hx], Or.inl rfl, (dIn x hx).2.2.2.1⟩
      · exact ⟨x, by simp [hx], by rw [hout x hx], Or.inl rfl, (dOut x hx).2.2.1⟩
      · exact ⟨c, by simp, by rw [hT], Or.inr ⟨rfl, rfl⟩, hct⟩
      · exact ⟨x, by simp [hx], by rw [hown x (hsubm x hx)], Or.inl rfl,
          by rintro rfl; exact ndOwn.1 (hsubm _ hx)⟩
    intro a b ha hb e
    obtain ⟨ya, hya, ea, ca, na⟩ := key a ha
    obtain ⟨yb, hyb, eb, cb, nb⟩ := key b hb
    have hy : ya = yb := hbi ya yb hya hyb (by rw [← ea, ← eb, e])
    rcases ca with rfl | ⟨rfl, rfl⟩ <;> rcases cb with rfl | ⟨rfl, rfl⟩
    · exact hy
    · exact absurd hy na
    · exact absurd hy.symm nb
    · rfl
  · rw [h0]; exact hhi
  · rw [h1]; exact hho
  · rw [hit]; exact hti
  · rw [hC]; simp
  · intro a ha; rw [hin a ha]; exact htyi a ha
  · intro a ha
    simp only [List.mem_append, List.mem_singleton] at ha
    rcases ha with ha | rfl
    · rw [hout a ha]; exact htyo a ha
    · rw [hT]; exact hty

theorem recycle_cur (h : Heap) (t c : Nat) :
    recycle h t c c =
      { next := none, type := BUF_TYPE_TAIL, length := (h c).length, buf := none } := by
  by_cases e : c = t <;> simp [recycle, Function.update, e]

theorem recycle_tail (h : Heap) (t c : Nat) (hne : t ≠ c) :
    recycle h t c t =
      { next := some c, type := BUF_TYPE_NORMAL, length := (h t).length, buf := (h c).buf } := by
  simp [recycle, Function.update, hne]

theorem recycle_other (h : Heap) (t c a : Nat) (h1 : a ≠ t) (h2 : a ≠ c) :
    recycle h t c a = h a := by
  simp [recycle, Function.update, h1, h2]

theorem shape_recycle {h : Heap} {inT outT nn nm : Nat} {inL outL own hold : List Nat}
    {c : Nat}
    (hs : Shape h inT outT nn nm inL outL (own ++ [c]) (hold ++ [c])) :
    Shape (recycle h inT c) c outT nn nm (inL ++ [inT]) outL own hold := by
  obtain ⟨hci, hco, ndIn, ndOut, ndOwn, dIn, dOut, dOwn, dTail, rIn, rOut, rOwn, rTail, hsub,
    hbf, hbi, hhi, hho, hti, hto, htyi, htyo⟩ := hs
  have hsub2 : List.Sublist hold own := (List.append_sublist_append_right [c]).mp hsub
  have hsubm : ∀ a ∈ hold, a ∈ own := fun a ha => hsub2.subset ha
  have hcown : c ∉ own := by
    intro hm
    have := List.disjoint_of_nodup_append ndOwn hm
    simp at this
  have ndOwn2 : own.Nodup := (List.nodup_append.mp ndOwn).1
  simp only [List.mem_append, List.mem_singleton, not_or] at dIn dOut dOwn rOwn
  have hct : inT ≠ c := fun e => (dOwn c (Or.inr rfl)).1 e.symm
  have hT : recycle h inT c inT = _ := recycle_tail h inT c hct
  have hC : recycle h inT c c = _ := recycle_cur h inT c
  have hO : ∀ a, a ≠ inT → a ≠ c → recycle h inT c a = h a :=
    fun a h1 h2 => recycle_other h inT c a h1 h2
  have hin : ∀ a ∈ inL, recycle h inT c a = h a := by
    intro a ha; have := dIn a ha; exact hO a (by tauto) (by tauto)
  have hout : ∀ a ∈ outL, recycle h inT c a = h a := by
    intro a ha; have := dOut a ha; exact hO a (by tauto) (by tauto)
  have hown : ∀ a ∈ own, recycle h inT c a = h a := by
    intro a ha; have := dOwn a (Or.inl ha)
    exact hO a (by tauto) (by rintro rfl; exact hcown ha)
  have h0 : recycle h inT c inBuffer = h inBuffer := by
    have := rOwn c (Or.inr rfl)
    apply hO <;> simp [inBuffer] <;> omega
  have h1 : recycle h inT c outBuffer = h outBuffer := by
    have := rOwn c (Or.inr rfl)
    apply hO <;> simp [outBuffer] <;> omega
  have hot : recycle h inT c outT = h outT := by
    apply hO
    · exact dTail.symm
    · exact fun e => (dOwn c (Or.inr rfl)).2 e.symm
  constructor
  · apply Chain.snoc
    · apply hci.congr
      intro x hx
      simp only [List.mem_cons] at hx
      rcases hx with rfl | hx
      · rw [h0]
      · rw [hin x hx]
    · rw [hT]
  · apply hco.congr
    intro x hx
    simp only [List.mem_cons] at hx
    rcases hx with rfl | hx
    · rw [h1]
    · rw [hout x hx]
  · simp only [List.nodup_append, List.nodup_cons, List.not_mem_nil, not_false_eq_true,
      List.nodup_nil, and_self, List.mem_singleton, true_and]
    refine ⟨ndIn, ?_⟩
    intro a ha e
    simp only [List.mem_singleton] at e
    exact (dIn a ha).1 e
  · exact ndOut
  · exact ndOwn2
  · intro a ha
    simp only [List.mem_append, List.mem_singleton] at ha
    rcases ha with ha | rfl
    · have := dIn a ha
      tauto
    · refine ⟨hct, dTail, fun hm => (dOut a hm).1 rfl, fun hm => (dOwn a (Or.inl hm)).1 rfl⟩
  · intro a ha
    have := dOut a ha
    tauto
  · intro a ha
    have := dOwn a (Or.inl ha)
    refine ⟨by rintro rfl; exact hcown ha, by tauto⟩
  · exact (dOwn c (Or.inr rfl)).2
  · intro a ha
    simp only [List.mem_append, List.mem_singleton] at ha
    rcases ha with ha | rfl
    · exact rIn a ha
    · exact rTail.1
  · exact rOut
  · exact fun a ha => rOwn a (Or.inl ha)
  · exact ⟨rOwn c (Or.inr rfl), rTail.2⟩
  · exact hsub2
  · intro a ha
    simp only [List.mem_append, List.mem_singleton] at ha
    rcases ha with (ha | rfl) | ha | ha
    · rw [hin a ha]; exact hbf a (by simp [ha])
    · rw [hT]; exact hbf c (by simp)
    · rw [hout a ha]; exact hbf a (by simp [ha])
    · rw [hown a (hsubm a ha)]; exact hbf a (by simp [ha])
  · have key : ∀ x, (x ∈ inL ++ [inT] ∨ x ∈ outL ∨ x ∈ hold) →
        ∃ y, (y ∈ inL ∨ y ∈ outL ∨ y ∈ hold ++ [c]) ∧
          (recycle h inT c x).buf = (h y).buf ∧ (y = x ∨ (x = inT ∧ y = c)) ∧ x ≠ c := by
      intro x hx
      simp only [List.mem_append, List.mem_singleton] at hx
      rcases hx with (hx | rfl) | hx | hx
      · exact ⟨x, by simp [hx], by rw [hin x hx], Or.inl rfl, (dIn x hx).2.2.2.2⟩
      · exact ⟨c, by simp, by rw [hT], Or.inr ⟨rfl, rfl⟩, hct⟩
      · exact ⟨x, by simp [hx], by rw [hout x hx], Or.inl rfl, (dOut x hx).2.2.2⟩
      · exact ⟨x, by simp [hx], by rw [hown x (hsubm x hx)], Or.inl rfl,
          by rintro rfl; exact hcown (hsubm _ hx)⟩
    intro a b ha hb e
    obtain ⟨ya, hya, ea, ca, na⟩ := key a ha
    obtain ⟨yb, hyb, eb, cb, nb⟩ := key b hb
    have hy : ya = yb := hbi ya yb hya hyb (by rw [← ea, ← eb, e])
    rcases ca with rfl | ⟨rfl, rfl⟩ <;> rcases cb with rfl | ⟨rfl, rfl⟩
    · exact hy
    · exact absurd hy na
    · exact absurd hy.symm nb
    · rfl
  · rw [h0]; exact hhi
  · rw [h1]; exact hho
  · rw [hC]; simp
  · rw [hot]; exact hto
  · intro a ha
    simp only [List.mem_append, List.mem_singleton] at ha
    rcases ha with ha | rfl
    · rw [hin a ha]; exact htyi a ha
    · rw [hT]
  · intro a ha; rw [hout a ha]; exact htyo a ha

theorem unlink_other (h : Heap) (head x a : Nat) (hne : a ≠ head) : unlink h head x a = h a := by
  simp [unlink, Function.update, hne]

theorem unlink_head (h : Heap) (head x : Nat) :
    unlink h head x head = { h head with next := (h x).next } := by
  simp [unlink, Function.update]

theorem chain_unlink {h : Heap} {a x : Nat} {l : List Nat} {t : Nat}
    (hc : Chain h a (x :: l) t) (ha : a ∉ l) : Chain (unlink h a x) a l t := by
  simp only [Chain] at hc
  cases l with
  | nil =>
    simp only [Chain] at hc ⊢
    rw [unlink_head]; exact hc.2
  | cons y ys =>
    simp only [Chain] at hc ⊢
    refine ⟨by rw [unlink_head]; exact hc.2.1, hc.2.2.congr ?_⟩
    intro z hz
    rw [unlink_other]
    rintro rfl
    exact ha hz

theorem shape_dequeue {h : Heap} {inT outT nn nm : Nat} {inL outL own hold : List Nat}
    {x : Nat}
    (hs : Shape h inT outT nn nm inL (x :: outL) own hold) :
    Shape (unlink h outBuffer x) inT outT nn nm inL outL (own ++ [x]) (hold ++ [x]) := by
  obtain ⟨hci, hco, ndIn, ndOut, ndOwn, dIn, dOut, dOwn, dTail, rIn, rOut, rOwn, rTail, hsub,
    hbf, hbi, hhi, hho, hti, hto, htyi, htyo⟩ := hs
  simp only [List.nodup_cons, List.mem_cons, not_or, forall_eq_or_imp] at ndOut dIn dOut rOut htyo
  have hO : ∀ a, 2 ≤ a → unlink h outBuffer x a = h a := by
    intro a ha
    apply unlink_other
    simp [outBuffer]; omega
  have h0 : unlink h outBuffer x inBuffer = h inBuffer := by
    apply unlink_other; simp [inBuffer, outBuffer]
  have hbuf : ∀ a, (unlink h outBuffer x a).buf = (h a).buf := by
    intro a
    by_cases e : a = outBuffer
    · subst e; rw [unlink_head]
    · rw [unlink_other _ _ _ _ e]
  have htype : ∀ a, (unlink h outBuffer x a).type = (h a).type := by
    intro a
    by_cases e : a = outBuffer
    · subst e; rw [unlink_head]
    · rw [unlink_other _ _ _ _ e]
  constructor
  · apply hci.congr
    intro y hy
    simp only [List.mem_cons] at hy
    rcases hy with rfl | hy
    · rw [h0]
    · rw [hO y (rIn y hy).1]
  · apply chain_unlink hco
    intro hm
    have := (rOut.2 _ hm).1
    simp [outBuffer] at this
  · exact ndIn
  · exact ndOut.2
  · rw [List.nodup_append]
    refine ⟨ndOwn, by simp, ?_⟩
    intro a ha e
    simp only [List.mem_singleton] at e
    subst e
    exact dOut.1.2.2 ha
  · intro a ha
    have := dIn a ha
    simp only [List.mem_append, List.mem_singleton, not_or]
    tauto
  · intro a ha
    have := dOut.2 a ha
    simp only [List.mem_append, List.mem_singleton, not_or]
    refine ⟨this.1, this.2.1, this.2.2, ?_⟩
    rintro rfl
    exact ndOut.1 ha
  · intro a ha
    simp only [List.mem_append, List.mem_singleton] at ha
    rcases ha with ha | rfl
    · exact dOwn a ha
    · exact ⟨dOut.1.1, dOut.1.2.1⟩
  · exact dTail
  · exact rIn
  · exact rOut.2
  · intro a ha
    simp only [List.mem_append, List.mem_singleton] at ha
    rcases ha with ha | rfl
    · exact rOwn a ha
    · exact rOut.1
  · exact rTail
  · exact (List.append_sublist_append_right [x]).mpr hsub
  · intro a ha
    rw [hbuf]
    apply hbf
    simp only [List.mem_append, List.mem_cons, List.mem_singleton, List.not_mem_nil,
      or_false] at ha ⊢
    clear * - ha
    tauto
  · intro a b ha hb e
    rw [hbuf, hbuf] at e
    apply hbi a b _ _ e
    · simp only [List.mem_append, List.mem_cons, List.mem_singleton, List.not_mem_nil,
        or_false] at ha ⊢
      clear * - ha
      tauto
    · simp only [List.mem_append, List.mem_cons, List.mem_singleton, List.not_mem_nil,
        or_false] at hb ⊢
      clear * - hb
      tauto
  · rw [hbuf]; exact hhi
  · rw [hbuf]; exact hho
  · rw [hbuf, htype]; exact hti
  · rw [hbuf, htype]; exact hto
  · intro a ha; rw [htype]; exact htyi a ha
  · intro a ha; rw [htype]; exact htyo.2 a ha

theorem shape_takeFree {h : Heap} {inT outT nn nm : Nat} {inL outL own hold : List Nat}
    {x : Nat}
    (hs : Shape h inT outT nn nm (x :: inL) outL own hold) :
    Shape (unlink h inBuffer x) inT outT nn nm inL outL (x :: own) (x :: hold) := by
  obtain ⟨hci, hco, ndIn, ndOut, ndOwn, dIn, dOut, dOwn, dTail, rIn, rOut, rOwn, rTail, hsub,
    hbf, hbi, hhi, hho, hti, hto, htyi, htyo⟩ := hs
  simp only [List.nodup_cons, List.mem_cons, not_or, forall_eq_or_imp] at ndIn dIn dOut rIn htyi
  have hO : ∀ a, 2 ≤ a → unlink h inBuffer x a = h a := by
    intro a ha
    apply unlink_other
    simp [inBuffer]; omega
  have h1 : unlink h inBuffer x outBuffer = h outBuffer := by
    apply unlink_other; simp [inBuffer, outBuffer]
  have hbuf : ∀ a, (unlink h inBuffer x a).buf = (h a).buf := by
    intro a
    by_cases e : a = inBuffer
    · subst e; rw [unlink_head]
    · rw [unlink_other _ _ _ _ e]
  have htype : ∀ a, (unlink h inBuffer x a).type = (h a).type := by
    intro a
    by_cases e : a = inBuffer
    · subst e; rw [unlink_head]
    · rw [unlink_other _ _ _ _ e]
  constructor
  · apply chain_unlink hci
    intro hm
    have := (rIn.2 _ hm).1
    simp [inBuffer] at this
  · apply hco.congr
    intro y hy
    simp only [List.mem_cons] at hy
    rcases hy with rfl | hy
    · rw [h1]
    · rw [hO y (rOut y hy).1]
  · exact ndIn.2
  · exact ndOut
  · rw [List.nodup_cons]
    exact ⟨dIn.1.2.2.2, ndOwn⟩
  · intro a ha
    have := dIn.2 a ha
    simp only [List.mem_cons, not_or]
    refine ⟨this.1, this.2.1, this.2.2.1, ?_, this.2.2.2⟩
    rintro rfl
    exact ndIn.1 ha
  · intro a ha
    have := dOut a ha
    simp only [List.mem_cons, not_or]
    refine ⟨this.1, this.2.1, ?_, this.2.2⟩
    rintro rfl
    exact dIn.1.2.2.1 ha
  · intro a ha
    simp only [List.mem_cons] at ha
    rcases ha with rfl | ha
    · exact ⟨dIn.1.1, dIn.1.2.1⟩
    · exact dOwn a ha
  · exact dTail
  · exact rIn.2
  · exact rOut
  · intro a ha
    simp only [List.mem_cons] at ha
    rcases ha with rfl | ha
    · exact rIn.1
    · exact rOwn a ha
  · exact rTail
  · exact List.cons_sublist_cons.mpr hsub
  · intro a ha
    rw [hbuf]
    apply hbf
    simp only [List.mem_append, List.mem_cons, List.mem_singleton, List.not_mem_nil,
      or_false] at ha ⊢
    clear * - ha
    tauto
  · intro a b ha hb e
    rw [hbuf, hbuf] at e
    apply hbi a b _ _ e
    · simp only [List.mem_append, List.mem_cons, List.mem_singleton, List.not_mem_nil,
        or_false] at ha ⊢
      clear * - ha
      tauto
    · simp only [List.mem_append, List.mem_cons, List.mem_singleton, List.not_mem_nil,
        or_false] at hb ⊢
      clear * - hb
      tauto
  · rw [hbuf]; exact hhi
  · rw [hbuf]; exact hho
  · rw [hbuf, htype]; exact hti
  · rw [hbuf, htype]; exact hto
  · intro a ha; rw [htype]; exact htyi.2 a ha
  · intro a ha; rw [htype]; exact htyo a ha

theorem shape_frame {h h2 : Heap} {inT outT nn nm : Nat} {inL outL own hold : List Nat}
    (hs : Shape h inT outT nn nm inL outL own hold)
    (hf : ∀ a, (h2 a).next = (h a).next ∧ (h2 a).buf = (h a).buf ∧ (h2 a).type = (h a).type) :
    Shape h2 inT outT nn nm inL outL own hold := by
  obtain ⟨hci, hco, ndIn, ndOut, ndOwn, dIn, dOut, dOwn, dTail, rIn, rOut, rOwn, rTail, hsub,
    hbf, hbi, hhi, hho, hti, hto, htyi, htyo⟩ := hs
  constructor
  · exact hci.congr (fun x _ => (hf x).1)
  · exact hco.congr (fun x _ => (hf x).1)
  · exact ndIn
  · exact ndOut
  · exact ndOwn
  · exact dIn
  · exact dOut
  · exact dOwn
  · exact dTail
  · exact rIn
  · exact rOut
  · exact rOwn
  · exact rTail
  · exact hsub
  · intro a ha; rw [(hf a).2.1]; exact hbf a ha
  · intro a b ha hb e
    rw [(hf a).2.1, (hf b).2.1] at e
    exact hbi a b ha hb e
  · rw [(hf _).2.1]; exact hhi
  · rw [(hf _).2.1]; exact hho
  · rw [(hf _).2.1, (hf _).2.2]; exact hti
  · rw [(hf _).2.1, (hf _).2.2]; exact hto
  · intro a ha; rw [(hf a).2.2]; exact htyi a ha
  · intro a ha; rw [(hf a).2.2]; exact htyo a ha

theorem shape_allocNode {h : Heap} {inT outT nn nm : Nat} {inL outL own hold : List Nat}
    (hs : Shape h inT outT nn nm inL outL own hold) :
    Shape h inT outT (nn + 1) nm inL outL (nn :: own) hold := by
  obtain ⟨hci, hco, ndIn, ndOut, ndOwn, dIn, dOut, dOwn, dTail, rIn, rOut, rOwn, rTail, hsub,
    hbf, hbi, hhi, hho, hti, hto, htyi, htyo⟩ := hs
  constructor
  · exact hci
  · exact hco
  · exact ndIn
  · exact ndOut
  · rw [List.nodup_cons]
    refine ⟨fun hm => ?_, ndOwn⟩
    have := (rOwn _ hm).2
    omega
  · intro a ha
    have := dIn a ha
    have := rIn a ha
    simp only [List.mem_cons, not_or]
    refine ⟨by tauto, by tauto, by tauto, by omega, by tauto⟩
  · intro a ha
    have := dOut a ha
    have := rOut a ha
    simp only [List.mem_cons, not_or]
    refine ⟨by tauto, by tauto, by omega, by tauto⟩
  · intro a ha
    simp only [List.mem_cons] at ha
    rcases ha with rfl | ha
    · constructor <;> omega
    · exact dOwn a ha
  · exact dTail
  · intro a ha; have := rIn a ha; omega
  · intro a ha; have := rOut a ha; omega
  · intro a ha
    simp only [List.mem_cons] at ha
    rcases ha with rfl | ha
    · have := rTail.1; omega
    · have := rOwn a ha; omega
  · omega
  · exact hsub.cons _
  · exact hbf
  · exact hbi
  · exact hhi
  · exact hho
  · exact hti
  · exact hto
  · exact htyi
  · exact htyo

theorem shape_allocBuf {h : Heap} {inT outT nn nm : Nat} {inL outL own hold : List Nat}
    {c : Nat}
    (hs : Shape h inT outT nn nm inL outL (c :: own) hold) (hh : hold.Sublist own) :
    Shape (Function.update h c
        { h c with buf := some nm, length := 0, type := BUF_TYPE_NORMAL })
      inT outT nn (nm + 1) inL outL (c :: own) (c :: hold) := by
  obtain ⟨hci, hco, ndIn, ndOut, ndOwn, dIn, dOut, dOwn, dTail, rIn, rOut, rOwn, rTail, hsub,
    hbf, hbi, hhi, hho, hti, hto, htyi, htyo⟩ := hs
  simp only [List.nodup_cons, List.mem_cons, not_or, forall_eq_or_imp] at ndOwn dIn dOut dOwn rOwn
  have hO : ∀ a, a ≠ c → Function.update h c
      { h c with buf := some nm, length := 0, type := BUF_TYPE_NORMAL } a = h a :=
    fun a ha => Function.update_noteq ha _ _
  have hC : Function.update h c
      { h c with buf := some nm, length := 0, type := BUF_TYPE_NORMAL } c =
      { h c with buf := some nm, length := 0, type := BUF_TYPE_NORMAL } :=
    Function.update_same _ _ _
  have hnext : ∀ a, (Function.update h c
      { h c with buf := some nm, length := 0, type := BUF_TYPE_NORMAL } a).next = (h a).next := by
    intro a
    by_cases e : a = c
    · subst e; rw [hC]
    · rw [hO a e]
  have hin : ∀ a ∈ inL, a ≠ c := fun a ha => (dIn a ha).2.2.2.1
  have hout : ∀ a ∈ outL, a ≠ c := fun a ha => (dOut a ha).2.2.1
  have hhold : ∀ a ∈ hold, a ≠ c := by
    intro a ha
    rintro rfl
    exact ndOwn.1 (hh.subset ha)
  have hold : ∀ a, (a ∈ inL ∨ a ∈ outL ∨ a ∈ hold) → a ≠ c := by
    intro a ha
    rcases ha with ha | ha | ha
    · exact hin a ha
    · exact hout a ha
    · exact hhold a ha
  constructor
  · exact hci.congr (fun x _ => hnext x)
  · exact hco.congr (fun x _ => hnext x)
  · exact ndIn
  · exact ndOut
  · rw [List.nodup_cons]; exact ndOwn
  · intro a ha
    have := dIn a ha
    simp only [List.mem_cons, not_or]
    exact this
  · intro a ha
    have := dOut a ha
    simp only [List.mem_cons, not_or]
    exact this
  · intro a ha
    simp only [List.mem_cons] at ha
    rcases ha with rfl | ha
    · exact dOwn.1
    · exact dOwn.2 a ha
  · exact dTail
  · exact rIn
  · exact rOut
  · intro a ha
    simp only [List.mem_cons] at ha
    rcases ha with rfl | ha
    · exact rOwn.1
    · exact rOwn.2 a ha
  · exact rTail
  · exact List.cons_sublist_cons.mpr hh
  · intro a ha
    simp only [List.mem_cons] at ha
    by_cases e : a = c
    · subst e
      rw [hC]
      exact ⟨nm, rfl, by omega⟩
    · rw [hO a e]
      obtain ⟨p, hp, hlt⟩ := hbf a (by clear * - ha e; tauto)
      exact ⟨p, hp, by omega⟩
  · intro a b ha hb e
    simp only [List.mem_cons] at ha hb
    by_cases ea : a = c
    · by_cases eb : b = c
      · rw [ea, eb]
      · exfalso
        subst ea
        rw [hC, hO b eb] at e
        obtain ⟨p, hp, hlt⟩ := hbf b (by clear * - hb eb; tauto)
        rw [hp] at e
        simp only [Option.some.injEq] at e
        omega
    · by_cases eb : b = c
      · exfalso
        subst eb
        rw [hC, hO a ea] at e
        obtain ⟨p, hp, hlt⟩ := hbf a (by clear * - ha ea; tauto)
        rw [hp] at e
        simp only [Option.some.injEq] at e
        omega
      · rw [hO a ea, hO b eb] at e
        exact hbi a b (by clear * - ha ea; tauto) (by clear * - hb eb; tauto) e
  · rw [hO]; exact hhi
    have := rOwn.1; simp [inBuffer]; omega
  · rw [hO]; exact hho
    have := rOwn.1; simp [outBuffer]; omega
  · rw [hO]; exact hti
    exact fun e => dOwn.1.1 e.symm
  · rw [hO]; exact hto
    exact fun e => dOwn.1.2 e.symm
  · intro a ha; rw [hO a (hin a ha)]; exact htyi a ha
  · intro a ha; rw [hO a (hout a ha)]; exact htyo a ha

theorem shape_dropLast {h : Heap} {inT outT nn nm : Nat} {inL outL own hold : List Nat}
    {w : Nat}
    (hs : Shape h inT outT nn nm inL outL (own ++ [w]) (hold ++ [w])) :
    Shape h inT outT nn nm inL outL own hold := by
  obtain ⟨hci, hco, ndIn, ndOut, ndOwn, dIn, dOut, dOwn, dTail, rIn, rOut, rOwn, rTail, hsub,
    hbf, hbi, hhi, hho, hti, hto, htyi, htyo⟩ := hs
  simp only [List.mem_append, List.mem_singleton, not_or] at dIn dOut dOwn rOwn hbf hbi
  constructor
  · exact hci
  · exact hco
  · exact ndIn
  · exact ndOut
  · exact (List.nodup_append.mp ndOwn).1
  · intro a ha
    have := dIn a ha
    exact ⟨this.1, this.2.1, this.2.2.1, this.2.2.2.1⟩
  · intro a ha
    have := dOut a ha
    exact ⟨this.1, this.2.1, this.2.2.1⟩
  · exact fun a ha => dOwn a (Or.inl ha)
  · exact dTail
  · exact rIn
  · exact rOut
  · exact fun a ha => rOwn a (Or.inl ha)
  · exact rTail
  · exact (List.append_sublist_append_right [w]).mp hsub
  · intro a ha
    apply hbf
    clear * - ha
    tauto
  · intro a b ha hb e
    apply hbi a b _ _ e
    · clear * - ha
      tauto
    · clear * - hb
      tauto
  · exact hhi
  · exact hho
  · exact hti
  · exact hto
  · exact htyi
  · exact htyo

theorem unlink_type (h : Heap) (head x a : Nat) : (unlink h head x a).type = (h a).type := by
  by_cases e : a = head
  · subst e; rw [unlink_head]
  · rw [unlink_other _ _ _ _ e]

theorem unlink_buf (h : Heap) (head x a : Nat) : (unlink h head x a).buf = (h a).buf := by
  by_cases e : a = head
  · subst e; rw [unlink_head]
  · rw [unlink_other _ _ _ _ e]

theorem unlink_length (h : Heap) (head x a : Nat) :
    (unlink h head x a).length = (h a).length := by
  by_cases e : a = head
  · subst e; rw [unlink_head]
  · rw [unlink_other _ _ _ _ e]

theorem shape_dropFirst {h : Heap} {inT outT nn nm : Nat} {inL outL own hold : List Nat}
    {c : Nat}
    (hs : Shape h inT outT nn nm inL outL (c :: own) hold) (hh : hold.Sublist own) :
    Shape h inT outT nn nm inL outL own hold := by
  obtain ⟨hci, hco, ndIn, ndOut, ndOwn, dIn, dOut, dOwn, dTail, rIn, rOut, rOwn, rTail, hsub,
    hbf, hbi, hhi, hho, hti, hto, htyi, htyo⟩ := hs
  simp only [List.nodup_cons, List.mem_cons, not_or, forall_eq_or_imp] at ndOwn dIn dOut dOwn rOwn
  constructor
  · exact hci
  · exact hco
  · exact ndIn
  · exact ndOut
  · exact ndOwn.2
  · intro a ha
    have := dIn a ha
    exact ⟨this.1, this.2.1, this.2.2.1, this.2.2.2.2⟩
  · intro a ha
    have := dOut a ha
    exact ⟨this.1, this.2.1, this.2.2.2⟩
  · exact dOwn.2
  · exact dTail
  · exact rIn
  · exact rOut
  · exact rOwn.2
  · exact rTail
  · exact hh
  · exact hbf
  · exact hbi
  · exact hhi
  · exact hho
  · exact hti
  · exact hto
  · exact htyi
  · exact htyo

theorem update_frame (h : Heap) (c : Nat) (b : Buffer) (h1 : b.next = (h c).next)
    (h2 : b.buf = (h c).buf) (h3 : b.type = (h c).type) (a : Nat) :
    (Function.update h c b a).next = (h a).next ∧ (Function.update h c b a).buf = (h a).buf ∧
      (Function.update h c b a).type = (h a).type := by
  by_cases ea : a = c
  · subst ea; simp [h1, h2, h3]
  · simp [Function.update_noteq ea]

/-! ## The sentinel-swap queue refines a list queue -/

theorem qrep_empty {bound : Nat} {q : Queue} (h : q.empty bound) : QRep bound q [] := by
  obtain ⟨h1, h2, h3, h4⟩ := h
  refine ⟨h1, by simp [h2], ?_⟩
  intro a ha
  simp only [List.mem_cons, List.mem_singleton, List.not_mem_nil, or_false] at ha
  rcases ha with rfl | rfl <;> assumption

theorem qrep_nodes {bound : Nat} {q : Queue} {l : List Nat} (h : QRep bound q l) :
    q.nodes bound = l := by
  obtain ⟨hc, hn, hr⟩ := h
  have hnot : q.tail ∉ l := by
    intro hm
    have := (List.nodup_cons.mp (List.nodup_cons.mp hn).2).1
    exact this hm
  apply walk_chain hc hnot
  have := nodup_length_le hn hr
  simp only [List.length_cons] at this
  omega

theorem qrep_put {bound : Nat} {q : Queue} {l : List Nat} {c : Nat} (ty : Nat)
    (h : QRep bound q l) (ho : q.owns bound c) :
    QRep bound (q.enq c ty) (l ++ [q.tail]) ∧
      (∀ a ∈ l, (q.enq c ty).heap a = q.heap a) ∧
      item (q.enq c ty).heap q.tail =
        { type := ty, length := (q.heap c).length, buf := (q.heap c).buf } := by
  obtain ⟨hc, hn, hr⟩ := h
  obtain ⟨ho1, ho2, ho3, ho4⟩ := ho
  rw [qrep_nodes ⟨hc, hn, hr⟩] at ho4
  simp only [List.nodup_cons, List.mem_cons, not_or] at hn
  have hl : ∀ a ∈ l, enqueueOut q.heap q.tail c ty a = q.heap a := by
    intro a ha
    apply enqueueOut_other
    · rintro rfl; exact hn.2.1 ha
    · rintro rfl; exact ho4 ha
  have hh : enqueueOut q.heap q.tail c ty q.head = q.heap q.head :=
    enqueueOut_other _ _ _ _ _ hn.1.1 (Ne.symm ho2)
  have ht := enqueueOut_tail q.heap q.tail c ty (Ne.symm ho3)
  refine ⟨⟨?_, ?_, ?_⟩, hl, ?_⟩
  · apply Chain.snoc
    · apply hc.congr
      intro x hx
      simp only [List.mem_cons] at hx
      rcases hx with rfl | hx
      · show (enqueueOut q.heap q.tail c ty q.head).next = _
        rw [hh]
      · show (enqueueOut q.heap q.tail c ty x).next = _
        rw [hl x hx]
    · show (enqueueOut q.heap q.tail c ty q.tail).next = _
      rw [ht]
      rfl
  · show (q.head :: c :: (l ++ [q.tail])).Nodup
    simp only [List.nodup_cons, List.mem_cons, List.mem_append, List.mem_singleton, not_or,
      List.nodup_append, List.nodup_nil, List.not_mem_nil, not_false_eq_true, and_true]
    refine ⟨⟨Ne.symm ho2, hn.1.2, hn.1.1⟩, ⟨ho4, ho3⟩, hn.2.2, trivial, ?_⟩
    intro a ha e
    simp only [List.mem_singleton] at e
    subst e
    exact hn.2.1 ha
  · intro a ha
    simp only [List.mem_cons, List.mem_append, List.mem_singleton, List.not_mem_nil,
      or_false] at ha
    rcases ha with rfl | ha | ha | rfl
    · exact hr _ (by simp [Queue.enq])
    · rw [ha]; exact ho1
    · exact hr a (by simp [ha])
    · exact hr _ (by simp)
  · show item (enqueueOut q.heap q.tail c ty) q.tail = _
    simp [item, ht]

theorem qrep_get {bound : Nat} {q : Queue} {x : Nat} {xs : List Nat}
    (h : QRep bound q (x :: xs)) :
    ∃ q2, q.deq = some (x, q2) ∧ QRep bound q2 xs ∧ (∀ a, item q2.heap a = item q.heap a) := by
  obtain ⟨hc, hn, hr⟩ := h
  have hnx : (q.heap q.head).next = some x := by
    simpa [Chain] using hc.1
  simp only [List.nodup_cons, List.mem_cons, not_or] at hn
  refine ⟨{ q with heap := unlink q.heap q.head x }, by simp [Queue.deq, hnx], ⟨?_, ?_, ?_⟩, ?_⟩
  · exact chain_unlink hc hn.1.2.2
  · show (q.head :: q.tail :: xs).Nodup
    simp only [List.nodup_cons, List.mem_cons, not_or]
    exact ⟨⟨hn.1.1, hn.1.2.2⟩, hn.2.1.2, hn.2.2.2⟩
  · intro a ha
    apply hr
    simp only [List.mem_cons] at ha ⊢
    rcases ha with rfl | rfl | ha
    · exact Or.inl rfl
    · exact Or.inr (Or.inl rfl)
    · exact Or.inr (Or.inr (Or.inr ha))
  · intro a
    simp [item, unlink_type, unlink_length, unlink_buf]

theorem qrep_store {bound : Nat} {q : Queue} {l : List Nat} {a : Nat} (b : Buffer)
    (h : QRep bound q l) (ho : q.owns bound a) :
    QRep bound { q with heap := Function.update q.heap a b } l ∧
      (∀ x ∈ l, Function.update q.heap a b x = q.heap x) := by
  obtain ⟨hc, hn, hr⟩ := h
  obtain ⟨ho1, ho2, ho3, ho4⟩ := ho
  rw [qrep_nodes ⟨hc, hn, hr⟩] at ho4
  have hl : ∀ x ∈ q.head :: l, Function.update q.heap a b x = q.heap x := by
    intro x hx
    apply Function.update_noteq
    simp only [List.mem_cons] at hx
    rcases hx with rfl | hx
    · exact Ne.symm ho2
    · rintro rfl; exact ho4 hx
  refine ⟨⟨?_, hn, hr⟩, fun x hx => hl x (List.mem_cons_of_mem _ hx)⟩
  apply hc.congr
  intro x hx
  show (Function.update q.heap a b x).next = _
  rw [hl x hx]

theorem pending_refines (bound : Nat) (ops : List QOp) :
    ∀ (q : Queue) (l : List Nat), QRep bound q l → validPending bound q ops →
      dequeuedPending q ops = listQueue (l.map (item q.heap)) (opsPending q ops) := by
  induction ops with
  | nil => intro q l _ _; simp [dequeuedPending, opsPending, listQueue]
  | cons op ops ih =>
    intro q l hq hv
    cases op with
    | put c ty =>
      simp only [validPending] at hv
      obtain ⟨h1, h2, h3⟩ := qrep_put ty hq hv.1
      simp only [dequeuedPending, opsPending, listQueue]
      rw [ih _ _ h1 hv.2, List.map_append, List.map_cons, List.map_nil, h3]
      congr 2
      apply List.map_congr_left
      intro a ha
      simp [item, h2 a ha]
    | get =>
      simp only [validPending] at hv
      rw [qrep_nodes hq] at hv
      cases l with
      | nil => exact absurd rfl hv.1
      | cons x xs =>
        obtain ⟨q2, h1, h2, h3⟩ := qrep_get hq
        simp only [h1] at hv
        simp only [dequeuedPending, opsPending, h1, List.map_cons, listQueue]
        rw [ih _ _ h2 hv.2, h3]
        congr 2
        apply List.map_congr_left
        intro a _
        exact h3 a
    | store a b =>
      simp only [validPending] at hv
      obtain ⟨h1, h2⟩ := qrep_store b hq hv.1
      simp only [dequeuedPending, opsPending]
      rw [ih _ _ h1 hv.2]
      congr 1
      apply List.map_congr_left
      intro x hx
      simp [item, h2 x hx]

theorem listQueue_fifo (ops : List (Option Item)) :
    ∀ (l : List Item) (k : Nat), k < (listQueue l ops).length →
      (listQueue l ops)[k]? = (l ++ added ops)[k]? := by
  induction ops with
  | nil => intro l k hk; simp [listQueue] at hk
  | cons op ops ih =>
    intro l k hk
    cases op with
    | some x =>
      simp only [listQueue] at hk ⊢
      rw [ih _ k hk]
      simp [added]
    | none =>
      cases l with
      | nil => simp [listQueue] at hk
      | cons y ys =>
        simp only [listQueue] at hk ⊢
        cases k with
        | zero => simp
        | succ k =>
          simp only [List.length_cons, Nat.add_lt_add_iff_right] at hk
          simp only [List.getElem?_cons_succ, List.cons_append]
          rw [ih _ k hk]
          simp [added]

theorem qrep_recycle {bound : Nat} {q : Queue} {l : List Nat} {c : Nat}
    (h : QRep bound q l) (ho : q.owns bound c) :
    QRep bound (q.recycle c) (l ++ [q.tail]) ∧
      (∀ a ∈ l, (q.recycle c).heap a = q.heap a) ∧
      ((q.recycle c).heap q.tail).buf = (q.heap c).buf ∧
      ((q.recycle c).heap q.tail).type = BUF_TYPE_NORMAL := by
  obtain ⟨hc, hn, hr⟩ := h
  obtain ⟨ho1, ho2, ho3, ho4⟩ := ho
  rw [qrep_nodes ⟨hc, hn, hr⟩] at ho4
  simp only [List.nodup_cons, List.mem_cons, not_or] at hn
  have hl : ∀ a ∈ l, recycle q.heap q.tail c a = q.heap a := by
    intro a ha
    apply recycle_other
    · rintro rfl; exact hn.2.1 ha
    · rintro rfl; exact ho4 ha
  have hh : recycle q.heap q.tail c q.head = q.heap q.head :=
    recycle_other _ _ _ _ hn.1.1 (Ne.symm ho2)
  have ht := recycle_tail q.heap q.tail c (Ne.symm ho3)
  refine ⟨⟨?_, ?_, ?_⟩, hl, ?_, ?_⟩
  · apply Chain.snoc
    · apply hc.congr
      intro x hx
      simp only [List.mem_cons] at hx
      rcases hx with rfl | hx
      · show (recycle q.heap q.tail c q.head).next = _
        rw [hh]
      · show (recycle q.heap q.tail c x).next = _
        rw [hl x hx]
    · show (recycle q.heap q.tail c q.tail).next = _
      rw [ht]
      rfl
  · show (q.head :: c :: (l ++ [q.tail])).Nodup
    simp only [List.nodup_cons, List.mem_cons, List.mem_append, List.mem_singleton, not_or,
      List.nodup_append, List.nodup_nil, List.not_mem_nil, not_false_eq_true, and_true]
    refine ⟨⟨Ne.symm ho2, hn.1.2, hn.1.1⟩, ⟨ho4, ho3⟩, hn.2.2, trivial, ?_⟩
    intro a ha e
    simp only [List.mem_singleton] at e
    subst e
    exact hn.2.1 ha
  · intro a ha
    simp only [List.mem_cons, List.mem_append, List.mem_singleton, List.not_mem_nil,
      or_false] at ha
    rcases ha with rfl | ha | ha | rfl
    · exact hr _ (by simp [Queue.recycle])
    · rw [ha]; exact ho1
    · exact hr a (by simp [ha])
    · exact hr _ (by simp)
  · show (recycle q.heap q.tail c q.tail).buf = _
    rw [ht]
  · show (recycle q.heap q.tail c q.tail).type = _
    rw [ht]

theorem qrep_take {bound : Nat} {q : Queue} {x : Nat} {xs : List Nat}
    (h : QRep bound q (x :: xs)) (hty : (q.heap x).type = BUF_TYPE_NORMAL) :
    ∃ q2, q.take = some (x, q2) ∧ QRep bound q2 xs ∧
      (∀ a ∈ xs, q2.heap a = q.heap a) ∧
      item q2.heap x = { type := BUF_TYPE_NORMAL, length := 0, buf := (q.heap x).buf } := by
  obtain ⟨hc, hn, hr⟩ := h
  have hnx : (q.heap q.head).next = some x := by
    simpa [Chain] using hc.1
  simp only [List.nodup_cons, List.mem_cons, not_or] at hn
  have hx : ∀ a, a ≠ x →
      Function.update (unlink q.heap q.head x) x
        { (unlink q.heap q.head x x) with length := 0 } a = unlink q.heap q.head x a :=
    fun a ha => Function.update_noteq ha _ _
  refine ⟨⟨Function.update (unlink q.heap q.head x) x
      { (unlink q.heap q.head x x) with length := 0 }, q.head, q.tail⟩,
    by simp [Queue.take, hnx, hty], ⟨?_, ?_, ?_⟩, ?_, ?_⟩
  · apply (chain_unlink hc hn.1.2.2).congr
    intro a ha
    show (Function.update (unlink q.heap q.head x) x _ a).next = _
    rw [hx]
    simp only [List.mem_cons] at ha
    rcases ha with rfl | ha
    · exact hn.1.2.1
    · rintro rfl; exact hn.2.2.1 ha
  · show (q.head :: q.tail :: xs).Nodup
    simp only [List.nodup_cons, List.mem_cons, not_or]
    exact ⟨⟨hn.1.1, hn.1.2.2⟩, hn.2.1.2, hn.2.2.2⟩
  · intro a ha
    apply hr
    simp only [List.mem_cons] at ha ⊢
    rcases ha with rfl | rfl | ha
    · exact Or.inl rfl
    · exact Or.inr (Or.inl rfl)
    · exact Or.inr (Or.inr (Or.inr ha))
  · intro a ha
    show Function.update (unlink q.heap q.head x) x _ a = _
    rw [hx, unlink_other]
    · rintro rfl; exact hn.1.2.2 ha
    · rintro rfl; exact hn.2.2.1 ha
  · show item (Function.update (unlink q.heap q.head x) x _) x = _
    simp [item, unlink_type, unlink_buf, hty]

theorem free_refines (bound : Nat) (ops : List QOp) :
    ∀ (q : Queue) (l : List Nat) (items : List Item), QRep bound q l →
      (∀ a ∈ l, (q.heap a).type = BUF_TYPE_NORMAL) →
      l.map (fun a => (q.heap a).buf) = items.map Item.buf →
      validFree bound q ops →
      (dequeuedFree q ops).map Item.buf = (listQueue items (opsFree q ops)).map Item.buf ∧
        ∀ i ∈ dequeuedFree q ops, i.type = BUF_TYPE_NORMAL ∧ i.length = 0 := by
  induction ops with
  | nil => intro q l items _ _ _ _; simp [dequeuedFree, opsFree, listQueue]
  | cons op ops ih =>
    intro q l items hq hty hb hv
    cases op with
    | put c ty =>
      simp only [validFree] at hv
      obtain ⟨h1, h2, h3, h4⟩ := qrep_recycle hq hv.1
      simp only [dequeuedFree, opsFree, listQueue]
      apply ih _ _ _ h1 _ _ hv.2
      · intro a ha
        simp only [List.mem_append, List.mem_singleton] at ha
        rcases ha with ha | rfl
        · rw [h2 a ha]; exact hty a ha
        · exact h4
      · rw [List.map_append, List.map_append, ← hb]
        congr 1
        · apply List.map_congr_left
          intro a ha
          rw [h2 a ha]
        · simp [h3, item]
    | get =>
      simp only [validFree] at hv
      rw [qrep_nodes hq] at hv
      cases l with
      | nil => exact absurd rfl hv.1
      | cons x xs =>
        obtain ⟨q2, h1, h2, h3, h4⟩ := qrep_take hq (hty x (by simp))
        simp only [h1] at hv
        cases items with
        | nil => simp at hb
        | cons i is =>
          simp only [List.map_cons, List.cons.injEq] at hb
          simp only [dequeuedFree, opsFree, h1, listQueue, List.map_cons, List.mem_cons,
            forall_eq_or_imp]
          have := ih q2 xs is h2 (fun a ha => by rw [h3 a ha]; exact hty a (by simp [ha]))
            (by rw [← hb.2]; exact List.map_congr_left (fun a ha => by rw [h3 a ha])) hv.2
          refine ⟨by rw [this.1, h4, ← hb.1], ?_, this.2⟩
          rw [h4]
          exact ⟨rfl, rfl⟩
    | store a b =>
      simp only [validFree] at hv
      obtain ⟨h1, h2⟩ := qrep_store b hq hv.1
      simp only [dequeuedFree, opsFree]
      apply ih _ _ _ h1 _ _ hv.2
      · intro x hx
        show (Function.update q.heap a b x).type = _
        rw [h2 x hx]; exact hty x hx
      · rw [← hb]
        apply List.map_congr_left
        intro x hx
        show (Function.update q.heap a b x).buf = _
        rw [h2 x hx]

/-! ## The invariant is preserved by every step -/

theorem inv_init (cfg : Cfg) (input : List Nat) : Inv cfg (init cfg input) [] [] := by
  constructor
  · constructor <;>
      simp [init, Chain, pOwn, wOwn, pHold, pOwnOf, pHoldOf, wOwnOf, inBuffer, outBuffer, junkNode]
  all_goals simp [init, pOwn, wOwn, pHold, pOwnOf, pHoldOf, wOwnOf, ind]

theorem inv_retryNew {cfg : Cfg} {e : Ev} {s s2 : State} {inL outL : List Nat}
    (hi : Inv cfg s inL outL) (hpc : s.ppc = PPC.retryNew)
    (hs : newBuffer cfg e s = some s2) : ∃ inL2, Inv cfg s2 inL2 outL := by
  obtain ⟨hsh, hN, hP, hW, hso, hsi, htp, htw, hcnt, hex⟩ := hi
  simp only [pOwn, pHold, wOwn, pOwnOf, pHoldOf, hpc, List.nil_append, ind] at hsh htp htw hso hsi
  cases inL with
  | nil =>
    have hnx : (s.heap inBuffer).next = some s.inBufferTail := by
      simpa [Chain] using hsh.chainIn
    have hty : (s.heap s.inBufferTail).type ≠ BUF_TYPE_NORMAL := by
      rw [hsh.tailIn.2]; decide
    simp only [newBuffer, hpc, hnx, hty, if_false, Option.some.injEq] at hs
    subst hs
    refine ⟨[], ?_⟩
    constructor
    · simpa [pOwn, pHold, wOwn, pOwnOf, pHoldOf] using hsh
    · simp
    · simp
    · simpa using hW
    · simpa [ind] using hso
    · simpa [ind] using hsi
    · simp [pHold, pHoldOf]
    · simpa [wOwn] using htw
    · simpa using hcnt.imp_right (fun h => h.1)
    · simpa [hpc] using hex
  | cons x xs =>
    have hnx : (s.heap inBuffer).next = some x := by
      simpa [Chain] using hsh.chainIn.1
    have hty : (s.heap x).type = BUF_TYPE_NORMAL := hsh.typeIn x (by simp)
    simp only [newBuffer, hpc, hnx, hty, if_true, Option.some.injEq] at hs
    subst hs
    refine ⟨xs, ?_⟩
    constructor
    · simpa [pOwn, pHold, wOwn, pOwnOf, pHoldOf] using shape_takeFree hsh
    · simp
    · simp
    · simpa using hW
    · simpa [ind] using hso
    · simp only [ind, List.length_cons] at hsi ⊢
      simp at hsi ⊢
      omega
    · simp [pHold, pHoldOf, unlink_type, hty]
    · simpa [wOwn, unlink_type] using htw
    · simpa using hcnt.imp_right (fun h => h.1)
    · simpa [hpc] using hex

theorem afterNew_cases (s : State) : afterNew s = PPC.join ∨ afterNew s = PPC.read := by
  unfold afterNew
  split <;> simp

theorem inv_reuse {cfg : Cfg} {e : Ev} {s s2 : State} {inL outL : List Nat}
    (hi : Inv cfg s inL outL) (hpc : s.ppc = PPC.reuse)
    (hs : newBuffer cfg e s = some s2) : Inv cfg s2 inL outL := by
  obtain ⟨hsh, hN, hP, hW, hso, hsi, htp, htw, hcnt, hex⟩ := hi
  obtain ⟨c, hc⟩ := hN (Or.inl hpc)
  simp only [pOwn, pHold, wOwn, pOwnOf, pHoldOf, hpc, hc, Option.toList, ind,
    List.singleton_append] at hsh htp htw hso hsi
  simp only [newBuffer, hpc, hc] at hs
  split at hs
  · simp at hs
  rename_i hne
  simp only [Option.some.injEq] at hs
  subst hs
  have hsh2 : Shape (Function.update s.heap c { s.heap c with length := 0 }) s.inBufferTail
      s.outBufferTail s.nextNode s.nextMem inL outL (c :: wOwnOf s.wpc s.wcur)
      (c :: wOwnOf s.wpc s.wcur) := by
    apply shape_frame hsh
    intro a
    by_cases ea : a = c
    · subst ea; simp
    · simp [Function.update_noteq ea]
  have htype : ∀ a, (Function.update s.heap c { s.heap c with length := 0 } a).type
      = (s.heap a).type := by
    intro a
    by_cases ea : a = c
    · subst ea; simp
    · simp [Function.update_noteq ea]
  rcases afterNew_cases s with hn | hn
  all_goals
    constructor
    · simpa [pOwn, pHold, wOwn, pOwnOf, pHoldOf, hn] using hsh2
    · simp [hn]
    · simp [hn]
    · simpa using hW
    · simpa [ind, hn] using hso
    · simp only [ind] at hsi ⊢
      simp [hn] at hsi ⊢
      omega
    · simpa [pHold, pHoldOf, hn, htype] using htp
    · simpa [wOwn, htype] using htw
    · simpa [hn] using hcnt.imp_right (fun h => h.1)
    · simpa [hpc, hn] using hex

theorem inv_allocNode {cfg : Cfg} {e : Ev} {s s2 : State} {inL outL : List Nat}
    (hi : Inv cfg s inL outL) (hpc : s.ppc = PPC.allocNode)
    (hs : newBuffer cfg e s = some s2) : Inv cfg s2 inL outL := by
  obtain ⟨hsh, hN, hP, hW, hso, hsi, htp, htw, hcnt, hex⟩ := hi
  simp only [pOwn, pHold, wOwn, pOwnOf, pHoldOf, hpc, ind, List.nil_append] at hsh htp htw hso hsi
  simp only [newBuffer, hpc] at hs
  split at hs
  · simp only [Option.some.injEq] at hs
    subst hs
    constructor
    · simpa [pOwn, pHold, wOwn, pOwnOf, pHoldOf] using hsh
    · simp
    · simp
    · simpa using hW
    · simpa [ind] using hso
    · simpa [ind] using hsi
    · simp [pHold, pHoldOf]
    · simpa [wOwn] using htw
    · simpa using hcnt.imp_right (fun h => h.1)
    · simpa [hpc] using hex
  · rename_i hlt
    cases e with
    | fail =>
      simp only [Option.some.injEq] at hs
      subst hs
      constructor
      · simpa [pOwn, pHold, wOwn, pOwnOf, pHoldOf] using hsh
      · simp
      · simp
      · simpa using hW
      · simpa [ind] using hso
      · simpa [ind] using hsi
      · simp [pHold, pHoldOf]
      · simpa [wOwn] using htw
      · simpa using hcnt.imp_right (fun h => h.1)
      · simpa [hpc] using hex
    | ok k =>
      simp only [Option.some.injEq] at hs
      subst hs
      constructor
      · simpa [pOwn, pHold, wOwn, pOwnOf, pHoldOf] using shape_allocNode hsh
      · simp
      · simp
      · simpa using hW
      · simpa [ind] using hso
      · simpa [ind] using hsi
      · simp [pHold, pHoldOf]
      · simpa [wOwn] using htw
      · simp only [true_implies]
        exact ⟨hcnt.1, hcnt.2.1, by omega⟩
      · simpa [hpc] using hex

theorem inv_allocBuf {cfg : Cfg} {e : Ev} {s s2 : State} {inL outL : List Nat}
    (hi : Inv cfg s inL outL) (hpc : s.ppc = PPC.allocBuf)
    (hs : newBuffer cfg e s = some s2) : Inv cfg s2 inL outL := by
  obtain ⟨hsh, hN, hP, hW, hso, hsi, htp, htw, hcnt, hex⟩ := hi
  obtain ⟨c, hc⟩ := hN (Or.inr hpc)
  simp only [pOwn, pHold, wOwn, pOwnOf, pHoldOf, hpc, hc, Option.toList, ind,
    List.singleton_append, List.nil_append] at hsh htp htw hso hsi
  simp only [newBuffer, hpc, hc] at hs
  cases e with
  | fail =>
    simp only [Option.some.injEq] at hs
    subst hs
    constructor
    · simpa [pOwn, pHold, wOwn, pOwnOf, pHoldOf] using shape_dropFirst hsh (List.Sublist.refl _)
    · simp
    · simp
    · simpa using hW
    · simpa [ind] using hso
    · simpa [ind] using hsi
    · simp [pHold, pHoldOf]
    · simpa [wOwn] using htw
    · simpa using hcnt.imp_right (fun h => h.1)
    · simpa [hpc] using hex
  | ok k =>
    simp only [Option.some.injEq] at hs
    subst hs
    have hsh2 := shape_allocBuf hsh (List.Sublist.refl _)
    have hcw : c ∉ wOwnOf s.wpc s.wcur := (List.nodup_cons.mp hsh.ndOwn).1
    have htype : ∀ a ∈ wOwnOf s.wpc s.wcur, (Function.update s.heap c
        { s.heap c with buf := some s.nextMem, length := 0, type := BUF_TYPE_NORMAL } a).type
        = (s.heap a).type := by
      intro a ha
      have ea : a ≠ c := by rintro rfl; exact hcw ha
      simp [Function.update_noteq ea]
    have hlt := hcnt.2.2 hpc
    rcases afterNew_cases s with hn | hn
    all_goals
      constructor
      · simpa [pOwn, pHold, wOwn, pOwnOf, pHoldOf, hn] using hsh2
      · simp [hn]
      · simp [hn]
      · simpa using hW
      · simpa [ind, hn] using hso
      · simpa [ind, hn] using hsi
      · simp [pHold, pHoldOf, hn]
      · intro a ha
        simp only [wOwn] at ha
        rw [htype a ha]
        exact htw a ha
      · simp only [hn]
        refine ⟨by omega, by omega, by simp⟩
      · simpa [hpc, hn] using hex

theorem inv_waitRetryNew {cfg : Cfg} {e : Ev} {s s2 : State} {inL outL : List Nat}
    (hi : Inv cfg s inL outL) (hpc : s.ppc = PPC.waitRetryNew)
    (hs : newBuffer cfg e s = some s2) : Inv cfg s2 inL outL := by
  obtain ⟨hsh, hN, hP, hW, hso, hsi, htp, htw, hcnt, hex⟩ := hi
  simp only [pOwn, pHold, wOwn, pOwnOf, pHoldOf, hpc, ind, List.nil_append] at hsh htp htw hso hsi
  simp only [newBuffer, hpc] at hs
  split at hs
  · simp at hs
  rename_i hne
  simp only [Option.some.injEq] at hs
  subst hs
  constructor
  · simpa [pOwn, pHold, wOwn, pOwnOf, pHoldOf] using hsh
  · simp
  · simp
  · simpa using hW
  · simpa [ind] using hso
  · simp only [ind] at hsi ⊢
    simp at hsi ⊢
    omega
  · simp [pHold, pHoldOf]
  · simpa [wOwn] using htw
  · simpa using hcnt.imp_right (fun h => h.1)
  · simpa [hpc] using hex

theorem inv_repost {cfg : Cfg} {e : Ev} {s s2 : State} {inL outL : List Nat}
    (hi : Inv cfg s inL outL) (hpc : s.ppc = PPC.repost)
    (hs : newBuffer cfg e s = some s2) : Inv cfg s2 inL outL := by
  obtain ⟨hsh, hN, hP, hW, hso, hsi, htp, htw, hcnt, hex⟩ := hi
  simp only [pOwn, pHold, wOwn, pOwnOf, pHoldOf, hpc, ind, List.nil_append] at hsh htp htw hso hsi
  simp only [newBuffer, hpc, Option.some.injEq] at hs
  subst hs
  constructor
  · simpa [pOwn, pHold, wOwn, pOwnOf, pHoldOf] using hsh
  · simp
  · simp
  · simpa using hW
  · simpa [ind] using hso
  · simp only [ind] at hsi ⊢
    simp at hsi ⊢
    omega
  · simp [pHold, pHoldOf]
  · simpa [wOwn] using htw
  · simpa using hcnt.imp_right (fun h => h.1)
  · simpa [hpc] using hex

theorem inv_read {cfg : Cfg} {e : Ev} {s s2 : State} {inL outL : List Nat}
    (hi : Inv cfg s inL outL) (hpc : s.ppc = PPC.read)
    (hs : main cfg e s = some s2) : Inv cfg s2 inL outL := by
  obtain ⟨hsh, hN, hP, hW, hso, hsi, htp, htw, hcnt, hex⟩ := hi
  obtain ⟨c, hc⟩ := hP (Or.inl hpc)
  simp only [pOwn, pHold, wOwn, pOwnOf, pHoldOf, hpc, hc, Option.toList, ind,
    List.singleton_append, List.nil_append] at hsh htp htw hso hsi
  simp only [main, hpc, hc] at hs
  cases e with
  | fail =>
    simp only [Option.some.injEq] at hs
    subst hs
    constructor
    · simpa [pOwn, pHold, wOwn, pOwnOf, pHoldOf, hc] using hsh
    · simp
    · simp [hc]
    · simpa using hW
    · simpa [ind] using hso
    · simpa [ind] using hsi
    · simpa [pHold, pHoldOf, hc] using htp
    · simpa [wOwn] using htw
    · simpa using hcnt.imp_right (fun h => h.1)
    · simpa [hpc] using hex
  | ok k =>
    obtain ⟨p, hp, hplt⟩ := hsh.bufs c (by simp)
    simp only [hp, Option.some.injEq] at hs
    subst hs
    have hfr := update_frame s.heap c
      { next := (s.heap c).next, type := (s.heap c).type,
        length := (s.heap c).length + (k + 1) ⊓ ((cfg.BUFSZ - (s.heap c).length) ⊓ s.input.length),
        buf := some p } rfl hp.symm rfl
    have hsh2 := shape_frame hsh hfr
    have htype := fun a => (hfr a).2.2
    constructor
    · split <;> simpa [pOwn, pHold, wOwn, pOwnOf, pHoldOf, hc, *] using hsh2
    · split <;> simp
    · split <;> simp [hc]
    · simpa using hW
    · split <;> simpa [ind] using hso
    · split <;> simpa [ind] using hsi
    · split <;> simpa [pHold, pHoldOf, hc, htype] using htp
    · simpa [wOwn, htype] using htw
    · split <;> simpa using hcnt.imp_right (fun h => h.1)
    · split <;> simpa [hpc] using hex

theorem inv_enqueue {cfg : Cfg} {e : Ev} {s s2 : State} {inL outL : List Nat}
    (hi : Inv cfg s inL outL) (hpc : s.ppc = PPC.enqueue)
    (hs : main cfg e s = some s2) : Inv cfg s2 inL (outL ++ [s.outBufferTail]) := by
  obtain ⟨hsh, hN, hP, hW, hso, hsi, htp, htw, hcnt, hex⟩ := hi
  obtain ⟨c, hc⟩ := hP (Or.inr (Or.inl hpc))
  simp only [pOwn, pHold, wOwn, pOwnOf, pHoldOf, hpc, hc, Option.toList, ind,
    List.singleton_append, List.nil_append] at hsh htp htw hso hsi
  simp only [main, hpc, hc, Option.some.injEq] at hs
  subst hs
  have hty : (if s.rd = 0 then BUF_TYPE_END else BUF_TYPE_NORMAL) = BUF_TYPE_NORMAL ∨
      (if s.rd = 0 then BUF_TYPE_END else BUF_TYPE_NORMAL) = BUF_TYPE_END := by
    split <;> simp
  have hsh2 := shape_enqueue _ hsh hty
  have hcw : c ∉ wOwnOf s.wpc s.wcur := (List.nodup_cons.mp hsh.ndOwn).1
  have htype : ∀ a ∈ wOwnOf s.wpc s.wcur, ∀ ty,
      (enqueueOut s.heap s.outBufferTail c ty a).type = (s.heap a).type := by
    intro a ha ty
    rw [enqueueOut_other]
    · exact (hsh.dOwn a (by simp [ha])).2
    · rintro rfl; exact hcw ha
  constructor
  · simpa [pOwn, pHold, wOwn, pOwnOf, pHoldOf] using hsh2
  · simp
  · simp
  · simpa using hW
  · simp only [ind] at hso ⊢
    simp at hso ⊢
    omega
  · simpa [ind] using hsi
  · simp [pHold, pHoldOf]
  · intro a ha
    simp only [wOwn] at ha
    rw [htype a ha]
    exact htw a ha
  · simpa using hcnt.imp_right (fun h => h.1)
  · simpa [hpc] using hex

theorem inv_post {cfg : Cfg} {e : Ev} {s s2 : State} {inL outL : List Nat}
    (hi : Inv cfg s inL outL) (hpc : s.ppc = PPC.post)
    (hs : main cfg e s = some s2) : Inv cfg s2 inL outL := by
  obtain ⟨hsh, hN, hP, hW, hso, hsi, htp, htw, hcnt, hex⟩ := hi
  simp only [pOwn, pHold, wOwn, pOwnOf, pHoldOf, hpc, ind, List.nil_append] at hsh htp htw hso hsi
  simp only [main, hpc, Option.some.injEq] at hs
  subst hs
  constructor
  · simpa [pOwn, pHold, wOwn, pOwnOf, pHoldOf] using hsh
  · simp
  · simp
  · simpa using hW
  · simp only [ind] at hso ⊢
    simp at hso ⊢
    omega
  · simpa [ind] using hsi
  · simp [pHold, pHoldOf]
  · simpa [wOwn] using htw
  · simpa using hcnt.imp_right (fun h => h.1)
  · simpa [hpc] using hex

theorem inv_join {cfg : Cfg} {e : Ev} {s s2 : State} {inL outL : List Nat}
    (hi : Inv cfg s inL outL) (hpc : s.ppc = PPC.join)
    (hs : main cfg e s = some s2) : Inv cfg s2 inL outL := by
  obtain ⟨hsh, hN, hP, hW, hso, hsi, htp, htw, hcnt, hex⟩ := hi
  obtain ⟨c, hc⟩ := hP (Or.inr (Or.inr (Or.inl hpc)))
  simp only [pOwn, pHold, wOwn, pOwnOf, pHoldOf, hpc, hc, Option.toList, ind,
    List.singleton_append, List.nil_append] at hsh htp htw hso hsi
  simp only [main, hpc] at hs
  split at hs
  swap
  · simp at hs
  simp only [Option.some.injEq] at hs
  subst hs
  constructor
  · simpa [pOwn, pHold, wOwn, pOwnOf, pHoldOf, hc] using hsh
  · simp
  · simp [hc]
  · simpa using hW
  · simpa [ind] using hso
  · simpa [ind] using hsi
  · simpa [pHold, pHoldOf, hc] using htp
  · simpa [wOwn] using htw
  · simpa using hcnt.imp_right (fun h => h.1)
  · simp

theorem inv_semwait {cfg : Cfg} {e : Ev} {s s2 : State} {inL outL : List Nat}
    (hi : Inv cfg s inL outL) (hpc : s.wpc = WPC.semwait)
    (hs : writer cfg e s = some s2) : Inv cfg s2 inL outL := by
  obtain ⟨hsh, hN, hP, hW, hso, hsi, htp, htw, hcnt, hex⟩ := hi
  simp only [pOwn, pHold, wOwn, wOwnOf, hpc, ind, List.append_nil] at hsh htp htw hso hsi
  simp only [writer, hpc] at hs
  split at hs
  · simp at hs
  rename_i hne
  simp only [Option.some.injEq] at hs
  subst hs
  constructor
  · simpa [pOwn, pHold, wOwn, wOwnOf] using hsh
  · simpa using hN
  · simpa using hP
  · simp
  · simp only [ind] at hso ⊢
    simp at hso ⊢
    omega
  · simpa [ind] using hsi
  · simpa [pHold] using htp
  · simp [wOwn, wOwnOf]
  · simpa using hcnt
  · simpa using hex

theorem inv_dequeue {cfg : Cfg} {e : Ev} {s s2 : State} {inL outL : List Nat}
    (hi : Inv cfg s inL outL) (hpc : s.wpc = WPC.dequeue)
    (hs : writer cfg e s = some s2) :
    ∃ x xs, outL = x :: xs ∧ s2.wcur = some x ∧ Inv cfg s2 inL xs := by
  obtain ⟨hsh, hN, hP, hW, hso, hsi, htp, htw, hcnt, hex⟩ := hi
  simp only [pOwn, pHold, wOwn, wOwnOf, hpc, ind, List.append_nil] at hsh htp htw hso hsi
  cases outL with
  | nil =>
    simp at hso
  | cons x xs =>
    have hnx : (s.heap outBuffer).next = some x := by
      simpa [Chain] using hsh.chainOut.1
    simp only [writer, hpc, hnx, Option.some.injEq] at hs
    subst hs
    refine ⟨x, xs, rfl, rfl, ?_⟩
    constructor
    · simpa [pOwn, pHold, wOwn, wOwnOf] using shape_dequeue hsh
    · simpa using hN
    · simpa using hP
    · simp
    · simp only [ind, List.length_cons] at hso ⊢
      simp at hso ⊢
      omega
    · simpa [ind] using hsi
    · simpa [pHold, unlink_type] using htp
    · have := hsh.typeOut x (by simp)
      simpa [wOwn, wOwnOf, unlink_type] using this
    · simpa using hcnt
    · simpa using hex

theorem inv_write {cfg : Cfg} {e : Ev} {s s2 : State} {inL outL : List Nat}
    (hi : Inv cfg s inL outL) (hpc : s.wpc = WPC.write)
    (hs : writer cfg e s = some s2) : Inv cfg s2 inL outL := by
  obtain ⟨hsh, hN, hP, hW, hso, hsi, htp, htw, hcnt, hex⟩ := hi
  obtain ⟨c, hc⟩ := hW (Or.inl hpc)
  simp only [pOwn, pHold, wOwn, wOwnOf, hpc, hc, Option.toList, ind] at hsh htp htw hso hsi
  simp only [writer, hpc, hc, doWrite] at hs
  have htc := htw c (by simp)
  split at hs
  · rename_i hty
    simp only [Option.some.injEq] at hs
    subst hs
    constructor
    · simpa [pOwn, pHold, wOwn, wOwnOf, hc] using hsh
    · simpa using hN
    · simpa using hP
    · simp [hc]
    · simpa [ind] using hso
    · simpa [ind] using hsi
    · simpa [pHold] using htp
    · simp [wOwn, wOwnOf, hc, hty]
    · simpa using hcnt
    · simpa using hex
  · rename_i hty
    have hte : (s.heap c).type = BUF_TYPE_END := by
      rcases htc with h | h
      · exact absurd h hty
      · exact h.2
    simp only [hte, if_true, Option.some.injEq] at hs
    subst hs
    constructor
    · simpa [pOwn, pHold, wOwn, wOwnOf, hc] using shape_dropLast hsh
    · simpa using hN
    · simpa using hP
    · simp
    · simpa [ind] using hso
    · simpa [ind] using hsi
    · simpa [pHold] using htp
    · simp [wOwn, wOwnOf]
    · simpa using hcnt
    · simpa using hex

theorem inv_recycle {cfg : Cfg} {e : Ev} {s s2 : State} {inL outL : List Nat}
    (hi : Inv cfg s inL outL) (hpc : s.wpc = WPC.recycle)
    (hs : writer cfg e s = some s2) : Inv cfg s2 (inL ++ [s.inBufferTail]) outL := by
  obtain ⟨hsh, hN, hP, hW, hso, hsi, htp, htw, hcnt, hex⟩ := hi
  obtain ⟨c, hc⟩ := hW (Or.inr hpc)
  simp only [pOwn, pHold, wOwn, wOwnOf, hpc, hc, Option.toList, ind] at hsh htp htw hso hsi
  simp only [writer, hpc, hc, Option.some.injEq] at hs
  subst hs
  have hsh2 := shape_recycle hsh
  have hcp : c ∉ pOwnOf s.ppc s.ncur s.pcur := by
    intro hm
    have := List.disjoint_of_nodup_append hsh.ndOwn hm
    simp at this
  have hsub : ∀ a ∈ pHoldOf s.ppc s.ncur s.pcur, a ∈ pOwnOf s.ppc s.ncur s.pcur := by
    intro a ha
    exact ((List.append_sublist_append_right [c]).mp hsh.holdSub).subset ha
  have htype : ∀ a ∈ pHoldOf s.ppc s.ncur s.pcur,
      (recycle s.heap s.inBufferTail c a).type = (s.heap a).type := by
    intro a ha
    rw [recycle_other]
    · exact (hsh.dOwn a (by simp [hsub a ha])).1
    · rintro rfl; exact hcp (hsub _ ha)
  constructor
  · simpa [pOwn, pHold, wOwn, wOwnOf] using hsh2
  · simpa using hN
  · simpa using hP
  · simp
  · simpa [ind] using hso
  · simp only [ind] at hsi ⊢
    simp at hsi ⊢
    omega
  · intro a ha
    simp only [pHold] at ha
    rw [htype a ha]
    exact htp a ha
  · simp [wOwn, wOwnOf]
  · simpa using hcnt
  · simpa using hex

theorem inv_wpost {cfg : Cfg} {e : Ev} {s s2 : State} {inL outL : List Nat}
    (hi : Inv cfg s inL outL) (hpc : s.wpc = WPC.post)
    (hs : writer cfg e s = some s2) : Inv cfg s2 inL outL := by
  obtain ⟨hsh, hN, hP, hW, hso, hsi, htp, htw, hcnt, hex⟩ := hi
  simp only [pOwn, pHold, wOwn, wOwnOf, hpc, ind, List.append_nil] at hsh htp htw hso hsi
  simp only [writer, hpc, Option.some.injEq] at hs
  subst hs
  constructor
  · simpa [pOwn, pHold, wOwn, wOwnOf] using hsh
  · simpa using hN
  · simpa using hP
  · simp
  · simpa [ind] using hso
  · simp only [ind] at hsi ⊢
    simp at hsi ⊢
    omega
  · simpa [pHold] using htp
  · simp [wOwn, wOwnOf]
  · simpa using hcnt
  · simpa using hex

/-! ## The data invariant is preserved by every step -/

theorem nodeChunk_congr {s s2 : State} {a : Nat}
    (h1 : (s2.heap a).type = (s.heap a).type) (h2 : (s2.heap a).length = (s.heap a).length)
    (h3 : (s2.heap a).buf = (s.heap a).buf)
    (h4 : ∀ p, (s.heap a).buf = some p → s2.mem p = s.mem p) :
    nodeChunk s2 a = nodeChunk s a := by
  unfold nodeChunk chunkOf
  rw [h1, h2, h3]
  cases hb : (s.heap a).buf with
  | none => rfl
  | some p => simp [h4 p hb]

theorem data_frame {cfg : Cfg} {whole : List Nat} {s s2 : State} {outL outL2 : List Nat}
    {written : List Chunk}
    (hd : Data cfg whole s outL written)
    (h_enq : s2.enqLog = s.enqLog) (h_wr : s2.writes = s.writes)
    (h_wpc : s2.wpc = WPC.done ↔ s.wpc = WPC.done) (h_end : ended s2 ↔ ended s)
    (h_bytes : curBytes s2 ++ s2.input = curBytes s ++ s.input)
    (h_in : ended s → s2.input = s.input)
    (h_pend : (wPend s2 ++ outL2).map (nodeChunk s2) = (wPend s ++ outL).map (nodeChunk s))
    (h_loc : localOk cfg s2) : Data cfg whole s2 outL2 written := by
  obtain ⟨hlog, hwr, hwrN, hwrD, hlogN, hlogE, hlogL, hbytes, hloc⟩ := hd
  constructor
  · rw [h_enq, h_pend]; exact hlog
  · rw [h_wr]; exact hwr
  · intro h; exact hwrN (fun e => h (h_wpc.mpr e))
  · intro h
    rw [h_enq, h_end]
    exact hwrD (h_wpc.mp h)
  · intro h
    rw [h_enq]
    exact hlogN (fun e => h (h_end.mpr e))
  · intro h
    rw [h_enq]
    obtain ⟨pre, e, h1, h2, h3, h4, h5⟩ := hlogE (h_end.mp h)
    exact ⟨pre, e, h1, h2, h3, h4, by rw [h_in (h_end.mp h)]; exact h5⟩
  · rw [h_enq]; exact hlogL
  · rw [h_enq, List.append_assoc, h_bytes, ← List.append_assoc]; exact hbytes
  · exact h_loc

theorem data_init (cfg : Cfg) (input : List Nat) : Data cfg input (init cfg input) [] [] := by
  constructor <;> simp [init, wPend, wPendOf, ended, curBytes, localOk]

theorem pend_sub (s : State) (outL : List Nat) :
    ∀ a ∈ wPend s ++ outL, a ∈ outL ∨ a ∈ wOwn s := by
  intro a ha
  simp only [List.mem_append] at ha
  rcases ha with ha | ha
  · right
    unfold wPend wPendOf at ha
    unfold wOwn wOwnOf
    split at ha <;> simp_all
  · exact Or.inl ha

/-- A node of the main thread is none of the nodes whose chunks are in flight. -/
theorem pend_ne_pOwn {cfg : Cfg} {s : State} {inL outL : List Nat} (hi : Inv cfg s inL outL)
    {a c : Nat} (ha : a ∈ wPend s ++ outL) (hc : c ∈ pOwn s) : a ≠ c := by
  rintro rfl
  have hsh := hi.shape
  rcases pend_sub s outL a ha with h | h
  · exact (hsh.dOut a h).2.2 (by simp [hc])
  · have := List.disjoint_of_nodup_append hsh.ndOwn hc
    exact this h

theorem data_retryNew {cfg : Cfg} {whole : List Nat} {e : Ev} {s s2 : State}
    {outL : List Nat} {written : List Chunk}
    (hd : Data cfg whole s outL written) (hpc : s.ppc = PPC.retryNew)
    (hs : newBuffer cfg e s = some s2) : Data cfg whole s2 outL written := by
  simp only [newBuffer, hpc] at hs
  split at hs
  · simp at hs
  rename_i c hc
  split at hs <;>
  · simp only [Option.some.injEq] at hs
    subst hs
    apply data_frame hd
    · rfl
    · rfl
    · rfl
    · simp [ended, hpc]
    · simp [curBytes, hpc]
    · intro _; rfl
    · apply List.map_congr_left
      intro a _
      apply nodeChunk_congr <;> simp [unlink_type, unlink_length, unlink_buf]
    · simp [localOk]

theorem chunk_bytes_zero (s : State) (c : Nat) (h : (s.heap c).length = 0) :
    (nodeChunk s c).bytes = [] := by
  unfold nodeChunk chunkOf
  simp only [h, readBytes_zero]
  split <;> rfl

theorem ended_afterNew {s s2 : State} (hrd : s2.rd = s.rd) (hl : s2.inLoop = s.inLoop)
    (hp : s2.ppc = afterNew s)
    (hpc : s.ppc ≠ PPC.read ∧ s.ppc ≠ PPC.enqueue ∧ s.ppc ≠ PPC.post) :
    ended s2 ↔ ended s := by
  unfold ended
  rw [hrd, hl, hp]
  unfold afterNew
  by_cases h : s.inLoop = true ∧ s.rd = 0
  · simp [h, hpc]
  · simp only [h, if_false]
    simp only [not_and] at h
    constructor
    · rintro ⟨_, h2, _⟩; exact absurd rfl h2
    · rintro ⟨h1, _, _, h4⟩
      rcases h4 with h4 | h4
      · exact absurd h4 hpc.2.2
      · exact absurd h1 (h h4)

theorem localOk_afterNew {cfg : Cfg} {s s2 : State} (hB : 1 ≤ cfg.BUFSZ) {c : Nat}
    (hp : s2.ppc = afterNew s) (hc : s2.pcur = some c) (hl : (s2.heap c).length = 0) :
    localOk cfg s2 := by
  unfold localOk
  rcases afterNew_cases s with hn | hn <;> rw [hp, hn] <;> simp only
  · intro _ c2 hc2
    rw [hc] at hc2
    cases hc2
    exact hl
  · intro c2 hc2
    rw [hc] at hc2
    cases hc2
    omega

theorem curBytes_afterNew {s s2 : State} {c : Nat}
    (hp : s2.ppc = afterNew s) (hc : s2.pcur = some c) (hl : (s2.heap c).length = 0) :
    curBytes s2 = [] := by
  unfold curBytes
  rcases afterNew_cases s with hn | hn <;> rw [hp, hn] <;> simp only [hc] <;>
    exact chunk_bytes_zero s2 c hl

theorem data_reuse {cfg : Cfg} {whole : List Nat} {e : Ev} {s s2 : State}
    {inL outL : List Nat} {written : List Chunk} (hB : 1 ≤ cfg.BUFSZ)
    (hi : Inv cfg s inL outL)
    (hd : Data cfg whole s outL written) (hpc : s.ppc = PPC.reuse)
    (hs : newBuffer cfg e s = some s2) : Data cfg whole s2 outL written := by
  obtain ⟨c, hc⟩ := hi.hasN (Or.inl hpc)
  have hne : ∀ a ∈ wPend s ++ outL, a ≠ c :=
    fun a ha => pend_ne_pOwn hi ha (by simp [pOwn, pOwnOf, hpc, hc])
  simp only [newBuffer, hpc, hc] at hs
  split at hs
  · simp at hs
  simp only [Option.some.injEq] at hs
  subst hs
  apply data_frame hd
  · rfl
  · rfl
  · rfl
  · exact ended_afterNew (s := s) rfl rfl rfl (by simp [hpc])
  · rw [curBytes_afterNew (c := c) rfl rfl (by simp)]
    simp [curBytes, hpc]
  · intro _; rfl
  · apply List.map_congr_left
    intro a ha
    have := hne a ha
    apply nodeChunk_congr <;> simp [Function.update_noteq this]
  · exact localOk_afterNew hB (c := c) rfl rfl (by simp)

theorem data_allocNode {cfg : Cfg} {whole : List Nat} {e : Ev} {s s2 : State}
    {outL : List Nat} {written : List Chunk}
    (hd : Data cfg whole s outL written) (hpc : s.ppc = PPC.allocNode)
    (hs : newBuffer cfg e s = some s2) : Data cfg whole s2 outL written := by
  simp only [newBuffer, hpc] at hs
  have key : ∀ (n : Option Nat) (k : Nat) (pc : PPC),
      pc ≠ PPC.read ∧ pc ≠ PPC.enqueue ∧ pc ≠ PPC.post ∧ pc ≠ PPC.join ∧ pc ≠ PPC.exited →
      Data cfg whole { s with ncur := n, nextNode := k, ppc := pc } outL written := by
    intro n k pc hp
    apply data_frame hd
    · rfl
    · rfl
    · rfl
    · simp [ended, hpc, hp]
    · cases pc <;> simp_all [curBytes]
    · intro _; rfl
    · rfl
    · cases pc <;> simp_all [localOk]
  split at hs
  · simp only [Option.some.injEq] at hs
    subst hs
    exact key s.ncur s.nextNode _ (by simp)
  · cases e with
    | fail =>
      simp only [Option.some.injEq] at hs
      subst hs
      exact key none s.nextNode _ (by simp)
    | ok k =>
      simp only [Option.some.injEq] at hs
      subst hs
      exact key _ _ _ (by simp)

theorem data_allocBuf {cfg : Cfg} {whole : List Nat} {e : Ev} {s s2 : State}
    {inL outL : List Nat} {written : List Chunk} (hB : 1 ≤ cfg.BUFSZ)
    (hi : Inv cfg s inL outL)
    (hd : Data cfg whole s outL written) (hpc : s.ppc = PPC.allocBuf)
    (hs : newBuffer cfg e s = some s2) : Data cfg whole s2 outL written := by
  obtain ⟨c, hc⟩ := hi.hasN (Or.inr hpc)
  have hne : ∀ a ∈ wPend s ++ outL, a ≠ c :=
    fun a ha => pend_ne_pOwn hi ha (by simp [pOwn, pOwnOf, hpc, hc])
  simp only [newBuffer, hpc, hc] at hs
  cases e with
  | fail =>
    simp only [Option.some.injEq] at hs
    subst hs
    apply data_frame hd
    · rfl
    · rfl
    · rfl
    · simp [ended, hpc]
    · simp [curBytes, hpc]
    · intro _; rfl
    · rfl
    · simp [localOk]
  | ok k =>
    simp only [Option.some.injEq] at hs
    subst hs
    apply data_frame hd
    · rfl
    · rfl
    · rfl
    · exact ended_afterNew (s := s) rfl rfl rfl (by simp [hpc])
    · rw [curBytes_afterNew (c := c) rfl rfl (by simp)]
      simp [curBytes, hpc]
    · intro _; rfl
    · apply List.map_congr_left
      intro a ha
      have := hne a ha
      apply nodeChunk_congr <;> simp [Function.update_noteq this]
    · exact localOk_afterNew hB (c := c) rfl rfl (by simp)

theorem data_waitRetryNew {cfg : Cfg} {whole : List Nat} {e : Ev} {s s2 : State}
    {outL : List Nat} {written : List Chunk}
    (hd : Data cfg whole s outL written) (hpc : s.ppc = PPC.waitRetryNew)
    (hs : newBuffer cfg e s = some s2) : Data cfg whole s2 outL written := by
  simp only [newBuffer, hpc] at hs
  split at hs
  · simp at hs
  simp only [Option.some.injEq] at hs
  subst hs
  apply data_frame hd
  · rfl
  · rfl
  · rfl
  · simp [ended, hpc]
  · simp [curBytes, hpc]
  · intro _; rfl
  · rfl
  · simp [localOk]

theorem data_repost {cfg : Cfg} {whole : List Nat} {e : Ev} {s s2 : State}
    {outL : List Nat} {written : List Chunk}
    (hd : Data cfg whole s outL written) (hpc : s.ppc = PPC.repost)
    (hs : newBuffer cfg e s = some s2) : Data cfg whole s2 outL written := by
  simp only [newBuffer, hpc, Option.some.injEq] at hs
  subst hs
  apply data_frame hd
  · rfl
  · rfl
  · rfl
  · simp [ended, hpc]
  · simp [curBytes, hpc]
  · intro _; rfl
  · rfl
  · simp [localOk]

theorem data_post {cfg : Cfg} {whole : List Nat} {e : Ev} {s s2 : State}
    {outL : List Nat} {written : List Chunk}
    (hd : Data cfg whole s outL written) (hpc : s.ppc = PPC.post)
    (hs : main cfg e s = some s2) : Data cfg whole s2 outL written := by
  simp only [main, hpc, Option.some.injEq] at hs
  subst hs
  apply data_frame hd
  · rfl
  · rfl
  · rfl
  · simp [ended, hpc]
  · simp [curBytes, hpc]
  · intro _; rfl
  · rfl
  · simp [localOk]

theorem data_join {cfg : Cfg} {whole : List Nat} {e : Ev} {s s2 : State}
    {outL : List Nat} {written : List Chunk}
    (hd : Data cfg whole s outL written) (hpc : s.ppc = PPC.join)
    (hs : main cfg e s = some s2) : Data cfg whole s2 outL written := by
  simp only [main, hpc] at hs
  split at hs
  swap
  · simp at hs
  simp only [Option.some.injEq] at hs
  subst hs
  have hl := hd.loc
  apply data_frame hd
  · rfl
  · rfl
  · rfl
  · simp [ended, hpc]
  · simp only [curBytes, hpc]
    rfl
  · intro _; rfl
  · rfl
  · simpa [localOk, hpc] using hl

theorem data_read {cfg : Cfg} {whole : List Nat} {e : Ev} {s s2 : State}
    {inL outL : List Nat} {written : List Chunk}
    (hi : Inv cfg s inL outL)
    (hd : Data cfg whole s outL written) (hpc : s.ppc = PPC.read)
    (hs : main cfg e s = some s2) : Data cfg whole s2 outL written := by
  obtain ⟨c, hc⟩ := hi.hasP (Or.inl hpc)
  have hcown : c ∈ pOwn s := by simp [pOwn, pOwnOf, hpc, hc]
  have hne : ∀ a ∈ wPend s ++ outL, a ≠ c := fun a ha => pend_ne_pOwn hi ha hcown
  have hl := hd.loc
  simp only [localOk, hpc] at hl
  have hlen := hl c hc
  simp only [main, hpc, hc] at hs
  cases e with
  | fail =>
    simp only [Option.some.injEq] at hs
    subst hs
    apply data_frame hd
    · rfl
    · rfl
    · rfl
    · simp [ended, hpc]
    · simp only [curBytes, hpc, hc]
      rfl
    · intro _; rfl
    · rfl
    · simp [localOk]
  | ok k =>
    have hsh := hi.shape
    have hch : c ∈ pHold s ++ wOwn s := by simp [pHold, pHoldOf, hpc, hc]
    obtain ⟨p, hp, hplt⟩ := hsh.bufs c (Or.inr (Or.inr hch))
    simp only [hp, Option.some.injEq] at hs
    subst hs
    have hn1 : (k + 1) ⊓ ((cfg.BUFSZ - (s.heap c).length) ⊓ s.input.length) ≤ s.input.length := by
      simp only [inf_le_iff, le_refl, or_true]
    have hn2 : (k + 1) ⊓ ((cfg.BUFSZ - (s.heap c).length) ⊓ s.input.length)
        ≤ cfg.BUFSZ - (s.heap c).length := by
      simp only [inf_le_iff, le_refl, true_or, or_true]
    generalize hn : (k + 1) ⊓ ((cfg.BUFSZ - (s.heap c).length) ⊓ s.input.length) = n at hn1 hn2 ⊢
    have hn0 : n = 0 → s.input = [] := by
      intro h0
      subst h0
      rw [← List.length_eq_zero]
      rcases Nat.eq_zero_or_pos s.input.length with h | h
      · exact h
      · exfalso
        have : 1 ≤ (k + 1) ⊓ ((cfg.BUFSZ - (s.heap c).length) ⊓ s.input.length) := by
          simp only [le_inf_iff]
          omega
        omega
    apply data_frame hd
    · rfl
    · rfl
    · rfl
    · simp only [ended, hpc]
      split <;> simp
    · have key : readBytes (storeBytes (s.mem p) (s.heap c).length (List.take n s.input))
          ((s.heap c).length + n) = readBytes (s.mem p) (s.heap c).length ++ List.take n s.input := by
        have hl : (List.take n s.input).length = n := by simp [hn1]
        have := readBytes_store (s.mem p) (s.heap c).length (List.take n s.input)
        rwa [hl] at this
      split <;>
      · simp only [curBytes, hc, nodeChunk, chunkOf, Function.update_same, key, hpc, hp]
        simp
    · intro he
      simp [ended, hpc] at he
    · apply List.map_congr_left
      intro a ha
      have hac := hne a ha
      apply nodeChunk_congr
      · simp [Function.update_noteq hac]
      · simp [Function.update_noteq hac]
      · simp [Function.update_noteq hac]
      · intro q hq
        have hqp : q ≠ p := by
          rintro rfl
          apply hac
          apply hsh.bufInj a c _ (Or.inr (Or.inr hch)) (by rw [hq, hp])
          rcases pend_sub s outL a ha with h | h
          · exact Or.inr (Or.inl h)
          · exact Or.inr (Or.inr (by simp [h]))
        simp [Function.update_noteq hqp]
    · by_cases hcond : (s.heap c).length + n = cfg.BUFSZ ∨ n = 0
      · simp only [localOk, hcond, if_true, hc, Option.some.injEq, forall_eq',
          Function.update_same]
        rcases hcond with h | h
        · by_cases h0 : n = 0
          · right
            subst h0
            simp only [add_zero] at h
            omega
          · left
            exact ⟨by exact_mod_cast h0, h⟩
        · right
          subst h
          simp only [add_zero, Nat.cast_zero, List.drop_zero, true_and]
          exact ⟨hlen, hn0 rfl⟩
      · simp only [localOk, hcond, if_false, hc, Option.some.injEq, forall_eq',
          Function.update_same]
        simp only [not_or] at hcond
        omega

theorem curBytes_congr {s s2 : State} (h1 : s2.ppc = s.ppc) (h2 : s2.pcur = s.pcur)
    (h3 : ∀ c ∈ pHold s, nodeChunk s2 c = nodeChunk s c) : curBytes s2 = curBytes s := by
  unfold curBytes
  rw [h1, h2]
  unfold pHold pHoldOf at h3
  cases hp : s.ppc <;> simp only [hp] at h3 ⊢ <;> cases hc : s.pcur <;> simp only [hc] at h3 ⊢ <;>
    exact congrArg Chunk.bytes (h3 _ (by simp))

theorem localOk_congr {cfg : Cfg} {s s2 : State} (h1 : s2.ppc = s.ppc) (h2 : s2.pcur = s.pcur)
    (h3 : s2.rd = s.rd) (h4 : s2.input = s.input)
    (h5 : ∀ c ∈ pHold s, (s2.heap c).length = (s.heap c).length)
    (hl : localOk cfg s) : localOk cfg s2 := by
  unfold localOk at hl ⊢
  rw [h1, h2, h3, h4]
  unfold pHold pHoldOf at h5
  cases hp : s.ppc <;> simp only [hp] at h5 hl ⊢
  · intro c hc
    simp only [hc, Option.toList, List.mem_singleton, forall_eq] at h5
    rw [h5]; exact hl c hc
  · intro c hc
    simp only [hc, Option.toList, List.mem_singleton, forall_eq] at h5
    rw [h5]; exact hl c hc
  · intro hr c hc
    simp only [hc, Option.toList, List.mem_singleton, forall_eq] at h5
    rw [h5]; exact hl hr c hc
  · intro hr c hc
    simp only [hc, Option.toList, List.mem_singleton, forall_eq] at h5
    rw [h5]; exact hl hr c hc

theorem data_semwait {cfg : Cfg} {whole : List Nat} {e : Ev} {s s2 : State}
    {outL : List Nat} {written : List Chunk}
    (hd : Data cfg whole s outL written) (hpc : s.wpc = WPC.semwait)
    (hs : writer cfg e s = some s2) : Data cfg whole s2 outL written := by
  simp only [writer, hpc] at hs
  split at hs
  · simp at hs
  simp only [Option.some.injEq] at hs
  subst hs
  apply data_frame hd
  · rfl
  · rfl
  · simp [hpc]
  · rfl
  · rfl
  · intro _; rfl
  · simp [wPend, wPendOf, hpc]
    intro a _
    rfl
  · exact hd.loc

theorem data_wpost {cfg : Cfg} {whole : List Nat} {e : Ev} {s s2 : State}
    {outL : List Nat} {written : List Chunk}
    (hd : Data cfg whole s outL written) (hpc : s.wpc = WPC.post)
    (hs : writer cfg e s = some s2) : Data cfg whole s2 outL written := by
  simp only [writer, hpc, Option.some.injEq] at hs
  subst hs
  apply data_frame hd
  · rfl
  · rfl
  · simp [hpc]
  · rfl
  · rfl
  · intro _; rfl
  · simp [wPend, wPendOf, hpc]
    intro a _
    rfl
  · exact hd.loc

theorem data_dequeue {cfg : Cfg} {whole : List Nat} {e : Ev} {s s2 : State}
    {inL xs : List Nat} {x : Nat} {written : List Chunk}
    (hi : Inv cfg s inL (x :: xs))
    (hd : Data cfg whole s (x :: xs) written) (hpc : s.wpc = WPC.dequeue)
    (hs : writer cfg e s = some s2) : Data cfg whole s2 xs written := by
  have hnx : (s.heap outBuffer).next = some x := by
    simpa [Chain] using hi.shape.chainOut.1
  simp only [writer, hpc, hnx, Option.some.injEq] at hs
  subst hs
  have hnc : ∀ (t : State), t.heap = unlink s.heap outBuffer x → t.mem = s.mem →
      ∀ a, nodeChunk t a = nodeChunk s a := by
    intro t h1 h2 a
    apply nodeChunk_congr <;> simp [h1, h2, unlink_type, unlink_length, unlink_buf]
  apply data_frame hd
  · rfl
  · rfl
  · simp [hpc]
  · rfl
  · congr 1
    refine curBytes_congr ?_ ?_ ?_
    · rfl
    · rfl
    · intro c _
      apply hnc <;> rfl
  · intro _; rfl
  · simp only [wPend, wPendOf, hpc, Option.toList, List.singleton_append, List.nil_append]
    apply List.map_congr_left
    intro a _
    apply hnc <;> rfl
  · refine localOk_congr ?_ ?_ ?_ ?_ ?_ hd.loc
    · rfl
    · rfl
    · rfl
    · rfl
    · intro c _
      simp [unlink_length]

theorem data_recycle {cfg : Cfg} {whole : List Nat} {e : Ev} {s s2 : State}
    {inL outL : List Nat} {written : List Chunk}
    (hi : Inv cfg s inL outL)
    (hd : Data cfg whole s outL written) (hpc : s.wpc = WPC.recycle)
    (hs : writer cfg e s = some s2) : Data cfg whole s2 outL written := by
  obtain ⟨c, hc⟩ := hi.hasW (Or.inr hpc)
  have hsh := hi.shape
  simp only [wOwn, wOwnOf, hpc, hc, Option.toList] at hsh
  simp only [writer, hpc, hc, Option.some.injEq] at hs
  subst hs
  have hcp : c ∉ pOwn s := by
    intro hm
    have := List.disjoint_of_nodup_append hsh.ndOwn hm
    simp at this
  have hO : ∀ a, (a ∈ outL ∨ a ∈ pHold s) → recycle s.heap s.inBufferTail c a = s.heap a := by
    intro a ha
    rcases ha with ha | ha
    · have := hsh.dOut a ha
      apply recycle_other
      · exact this.1
      · rintro rfl; exact this.2.2 (by simp)
    · have hao : a ∈ pOwn s :=
        ((List.append_sublist_append_right [c]).mp hsh.holdSub).subset ha
      apply recycle_other
      · exact (hsh.dOwn a (by simp [hao])).1
      · rintro rfl; exact hcp hao
  have hnc : ∀ (t : State), t.heap = recycle s.heap s.inBufferTail c → t.mem = s.mem →
      ∀ a, (a ∈ outL ∨ a ∈ pHold s) → nodeChunk t a = nodeChunk s a := by
    intro t h1 h2 a ha
    apply nodeChunk_congr <;> simp [h1, h2, hO a ha]
  apply data_frame hd
  · rfl
  · rfl
  · simp [hpc]
  · rfl
  · congr 1
    refine curBytes_congr ?_ ?_ ?_
    · rfl
    · rfl
    · intro a ha
      apply hnc _ _ _ _ (Or.inr ha) <;> rfl
  · intro _; rfl
  · simp only [wPend, wPendOf, hpc, List.nil_append]
    apply List.map_congr_left
    intro a ha
    apply hnc _ _ _ _ (Or.inl ha) <;> rfl
  · refine localOk_congr ?_ ?_ ?_ ?_ ?_ hd.loc
    · rfl
    · rfl
    · rfl
    · rfl
    · intro a ha
      simp [hO a (Or.inr ha)]

theorem chunkOf_bytes_length (s : State) (ty c p : Nat) (hp : (s.heap c).buf = some p) :
    (chunkOf s ty c).bytes.length = (chunkOf s ty c).length := by
  simp [chunkOf, hp, readBytes_length]

theorem data_enqueue {cfg : Cfg} {whole : List Nat} {e : Ev} {s s2 : State}
    {inL outL : List Nat} {written : List Chunk}
    (hi : Inv cfg s inL outL)
    (hd : Data cfg whole s outL written) (hpc : s.ppc = PPC.enqueue)
    (hs : main cfg e s = some s2) :
    Data cfg whole s2 (outL ++ [s.outBufferTail]) written := by
  obtain ⟨c, hc⟩ := hi.hasP (Or.inr (Or.inl hpc))
  have hsh := hi.shape
  have hcown : c ∈ pOwn s := by simp [pOwn, pOwnOf, hpc, hc]
  have hch : c ∈ pHold s ++ wOwn s := by simp [pHold, pHoldOf, hpc, hc]
  obtain ⟨p, hp, hplt⟩ := hsh.bufs c (Or.inr (Or.inr hch))
  have hne : ∀ a ∈ wPend s ++ outL, a ≠ c := fun a ha => pend_ne_pOwn hi ha hcown
  have hnt : ∀ a ∈ wPend s ++ outL, a ≠ s.outBufferTail := by
    intro a ha
    rcases pend_sub s outL a ha with h | h
    · exact (hsh.dOut a h).2.1
    · exact (hsh.dOwn a (by simp [h])).2
  have htc : s.outBufferTail ≠ c := fun e => (hsh.dOwn c (by simp [hcown])).2 e.symm
  have hl := hd.loc
  simp only [localOk, hpc] at hl
  have hlc := hl c hc
  have hnend : ¬ ended s := by simp [ended, hpc]
  have hwpc : s.wpc ≠ WPC.done := fun h => hnend (hd.wrD h).2
  obtain ⟨hlog, hwr, hwrN, hwrD, hlogN, hlogE, hlogL, hbytes, hloc⟩ := hd
  simp only [main, hpc, hc, Option.some.injEq] at hs
  subst hs
  have hcur : curBytes s = (chunkOf s (if s.rd = 0 then BUF_TYPE_END else BUF_TYPE_NORMAL) c).bytes := by
    simp [curBytes, hpc, hc, nodeChunk, chunkOf]
  constructor
  · simp only [wPend, List.map_append, List.map_cons, List.map_nil]
    rw [hlog]
    simp only [wPend, List.map_append, List.append_assoc]
    congr 1
    congr 1
    · apply List.map_congr_left
      intro a ha
      symm
      have h1 := hne a (by simp [wPend, ha])
      have h2 := hnt a (by simp [wPend, ha])
      apply nodeChunk_congr <;> simp [enqueueOut_other _ _ _ _ _ h2 h1]
    · congr 1
      · apply List.map_congr_left
        intro a ha
        symm
        have h1 := hne a (by simp [ha])
        have h2 := hnt a (by simp [ha])
        apply nodeChunk_congr <;> simp [enqueueOut_other _ _ _ _ _ h2 h1]
      · simp [nodeChunk, chunkOf, enqueueOut_tail _ _ _ _ htc]
  · exact hwr
  · exact hwrN
  · intro h
    exact absurd h hwpc
  · intro hne2 x hx
    simp only [List.mem_append, List.mem_singleton] at hx
    have hrd : s.rd ≠ 0 := by
      intro h0
      apply hne2
      simp [ended, h0]
    rcases hx with hx | rfl
    · exact hlogN hnend x hx
    · simp [chunkOf, hrd]
  · intro he
    have hrd : s.rd = 0 := he.1
    refine ⟨s.enqLog, _, rfl, hlogN hnend, ?_, ?_, ?_⟩
    · simp [chunkOf, hrd]
    · simp only [chunkOf]
      rcases hlc with h | h
      · exact absurd hrd h.1
      · exact h.2.1
    · rcases hlc with h | h
      · exact absurd hrd h.1
      · exact h.2.2
  · intro x hx
    simp only [List.mem_append, List.mem_singleton] at hx
    rcases hx with hx | rfl
    · exact hlogL x hx
    · refine ⟨chunkOf_bytes_length s _ c p hp, ?_⟩
      intro hty
      have hrd : s.rd ≠ 0 := by
        intro h0
        simp [chunkOf, h0, BUF_TYPE_END, BUF_TYPE_NORMAL] at hty
      rcases hlc with h | h
      · simpa [chunkOf] using h.2
      · exact absurd h.1 hrd
  · rw [← hbytes, hcur]
    simp [curBytes]
  · simp [localOk]

theorem last_of_append_eq {α : Type} {l1 l2 pre : List α} {a e : α}
    (h : l1 ++ a :: l2 = pre ++ [e]) (ha : a ∉ pre) : l2 = [] := by
  rcases List.eq_nil_or_concat l2 with h2 | ⟨init, last, h2⟩
  · exact h2
  · exfalso
    subst h2
    have h3 : (l1 ++ a :: init) ++ [last] = pre ++ [e] := by
      rw [← h]; simp
    have h4 := List.append_inj_left' h3 rfl
    apply ha
    rw [← h4]
    simp

theorem data_write {cfg : Cfg} {whole : List Nat} {e : Ev} {s s2 : State}
    {inL outL : List Nat} {written : List Chunk}
    (hi : Inv cfg s inL outL)
    (hd : Data cfg whole s outL written) (hpc : s.wpc = WPC.write)
    (hs : writer cfg e s = some s2) :
    ∃ written2, Data cfg whole s2 outL written2 := by
  obtain ⟨c, hc⟩ := hi.hasW (Or.inl hpc)
  have htw := hi.typeW c (by simp [wOwn, wOwnOf, hpc, hc])
  obtain ⟨hlog, hwr, hwrN, hwrD, hlogN, hlogE, hlogL, hbytes, hloc⟩ := hd
  simp only [wPend, wPendOf, hpc, hc, Option.toList, List.singleton_append, List.map_cons] at hlog
  have hmem : nodeChunk s c ∈ s.enqLog := by rw [hlog]; simp
  simp only [writer, hpc, hc, doWrite] at hs
  refine ⟨written ++ [nodeChunk s c], ?_⟩
  split at hs
  · rename_i hty
    simp only [Option.some.injEq] at hs
    subst hs
    have hlen : (s.heap c).length = cfg.BUFSZ := by
      have := (hlogL _ hmem).2 (by simpa [nodeChunk, chunkOf] using hty)
      simpa [nodeChunk, chunkOf] using this
    constructor
    · simp only [wPend, wPendOf, List.nil_append]
      rw [hlog]
      simp only [List.append_assoc, List.singleton_append]
      rfl
    · simp only [List.map_append, List.map_cons, List.map_nil, hwr]
      congr 1
      simp only [nodeChunk, chunkOf, hlen]
    · intro _ x hx
      simp only [List.mem_append, List.mem_singleton] at hx
      rcases hx with hx | rfl
      · exact hwrN (by simp [hpc]) x hx
      · simpa [nodeChunk, chunkOf] using hty
    · intro h
      simp at h
    · exact hlogN
    · exact hlogE
    · exact hlogL
    · exact hbytes
    · exact hloc
  · rename_i hty
    have hte : (s.heap c).type = BUF_TYPE_END := by
      rcases htw with h | h
      · exact absurd h hty
      · exact h.2
    simp only [hte, if_true, Option.some.injEq] at hs
    subst hs
    have hcte : (nodeChunk s c).type = BUF_TYPE_END := by
      simpa [nodeChunk, chunkOf] using hte
    have hend : ended s := by
      by_contra hne
      have := hlogN hne _ hmem
      rw [hcte] at this
      simp [BUF_TYPE_END, BUF_TYPE_NORMAL] at this
    obtain ⟨pre, e2, hpre, hpreN, he2, _, _⟩ := hlogE hend
    have hnil : List.map (nodeChunk s) outL = [] := by
      apply last_of_append_eq (hlog.symm.trans hpre)
      intro hm
      have := hpreN _ hm
      rw [hcte] at this
      simp [BUF_TYPE_END, BUF_TYPE_NORMAL] at this
    have hout : outL = [] := by simpa using hnil
    constructor
    · simp only [wPend, wPendOf, List.nil_append]
      rw [hlog]
      simp only [List.append_assoc, List.singleton_append]
      rfl
    · simp only [List.map_append, List.map_cons, List.map_nil, hwr]
      congr 1
    · intro h
      simp at h
    · intro _
      refine ⟨?_, hend⟩
      show written ++ [nodeChunk s c] = s.enqLog
      rw [hlog, hnil]
    · exact hlogN
    · exact hlogE
    · exact hlogL
    · exact hbytes
    · exact hloc

/-! ## Every reachable state satisfies the invariant -/

theorem good_init (cfg : Cfg) (whole : List Nat) : Good cfg whole (init cfg whole) :=
  ⟨[], [], [], inv_init cfg whole, data_init cfg whole⟩

theorem good_producer {cfg : Cfg} {whole : List Nat} {e : Ev} {s s2 : State}
    (hB : 1 ≤ cfg.BUFSZ) (hg : Good cfg whole s) (hs : producer cfg e s = some s2) :
    Good cfg whole s2 := by
  obtain ⟨inL, outL, written, hi, hd⟩ := hg
  unfold producer at hs
  cases hpc : s.ppc <;> simp only [hpc] at hs
  · obtain ⟨inL2, hi2⟩ := inv_retryNew hi hpc hs
    exact ⟨inL2, outL, written, hi2, data_retryNew hd hpc hs⟩
  · exact ⟨inL, outL, written, inv_reuse hi hpc hs, data_reuse hB hi hd hpc hs⟩
  · exact ⟨inL, outL, written, inv_allocNode hi hpc hs, data_allocNode hd hpc hs⟩
  · exact ⟨inL, outL, written, inv_allocBuf hi hpc hs, data_allocBuf hB hi hd hpc hs⟩
  · exact ⟨inL, outL, written, inv_waitRetryNew hi hpc hs, data_waitRetryNew hd hpc hs⟩
  · exact ⟨inL, outL, written, inv_repost hi hpc hs, data_repost hd hpc hs⟩
  · exact ⟨inL, outL, written, inv_read hi hpc hs, data_read hi hd hpc hs⟩
  · exact ⟨inL, _, written, inv_enqueue hi hpc hs, data_enqueue hi hd hpc hs⟩
  · exact ⟨inL, outL, written, inv_post hi hpc hs, data_post hd hpc hs⟩
  · exact ⟨inL, outL, written, inv_join hi hpc hs, data_join hd hpc hs⟩
  · simp [main, hpc] at hs

theorem good_writer {cfg : Cfg} {whole : List Nat} {e : Ev} {s s2 : State}
    (hg : Good cfg whole s) (hs : writer cfg e s = some s2) :
    Good cfg whole s2 := by
  obtain ⟨inL, outL, written, hi, hd⟩ := hg
  cases hpc : s.wpc
  · exact ⟨inL, outL, written, inv_semwait hi hpc hs, data_semwait hd hpc hs⟩
  · obtain ⟨x, xs, hx, _, hi2⟩ := inv_dequeue hi hpc hs
    subst hx
    exact ⟨inL, xs, written, hi2, data_dequeue hi hd hpc hs⟩
  · obtain ⟨written2, hd2⟩ := data_write hi hd hpc hs
    exact ⟨inL, outL, written2, inv_write hi hpc hs, hd2⟩
  · exact ⟨_, outL, written, inv_recycle hi hpc hs, data_recycle hi hd hpc hs⟩
  · exact ⟨inL, outL, written, inv_wpost hi hpc hs, data_wpost hd hpc hs⟩
  · simp [writer, hpc] at hs

theorem good_step {cfg : Cfg} {whole : List Nat} {l : Label} {s s2 : State}
    (hB : 1 ≤ cfg.BUFSZ) (hg : Good cfg whole s) (hs : step cfg l s = some s2) :
    Good cfg whole s2 := by
  unfold step at hs
  split at hs
  · simp at hs
  · cases l with
    | prod e => exact good_producer hB hg hs
    | wr e => exact good_writer hg hs

theorem good_run {cfg : Cfg} {whole : List Nat} (hB : 1 ≤ cfg.BUFSZ) (ls : List Label) :
    ∀ {s s2 : State}, Good cfg whole s → run cfg ls s = some s2 → Good cfg whole s2 := by
  induction ls with
  | nil =>
    intro s s2 hg hs
    simp only [run, Option.some.injEq] at hs
    subst hs
    exact hg
  | cons l ls ih =>
    intro s s2 hg hs
    simp only [run] at hs
    cases h1 : step cfg l s with
    | none => simp [h1] at hs
    | some s1 =>
      simp only [h1, Option.some_bind] at hs
      exact ih (good_step hB hg h1) hs

theorem good_reachable {cfg : Cfg} {whole : List Nat} {s : State} (hB : 1 ≤ cfg.BUFSZ)
    (hr : Reachable cfg whole s) : Good cfg whole s := by
  obtain ⟨ls, hls⟩ := hr
  exact good_run hB ls (good_init cfg whole) hls

theorem inv_producer {cfg : Cfg} {e : Ev} {s s2 : State} {inL outL : List Nat}
    (hi : Inv cfg s inL outL) (hs : producer cfg e s = some s2) :
    ∃ inL2 outL2, Inv cfg s2 inL2 outL2 := by
  unfold producer at hs
  cases hpc : s.ppc <;> simp only [hpc] at hs
  · obtain ⟨inL2, hi2⟩ := inv_retryNew hi hpc hs
    exact ⟨inL2, outL, hi2⟩
  · exact ⟨inL, outL, inv_reuse hi hpc hs⟩
  · exact ⟨inL, outL, inv_allocNode hi hpc hs⟩
  · exact ⟨inL, outL, inv_allocBuf hi hpc hs⟩
  · exact ⟨inL, outL, inv_waitRetryNew hi hpc hs⟩
  · exact ⟨inL, outL, inv_repost hi hpc hs⟩
  · exact ⟨inL, outL, inv_read hi hpc hs⟩
  · exact ⟨inL, _, inv_enqueue hi hpc hs⟩
  · exact ⟨inL, outL, inv_post hi hpc hs⟩
  · exact ⟨inL, outL, inv_join hi hpc hs⟩
  · simp [main, hpc] at hs

theorem inv_writer {cfg : Cfg} {e : Ev} {s s2 : State} {inL outL : List Nat}
    (hi : Inv cfg s inL outL) (hs : writer cfg e s = some s2) :
    ∃ inL2 outL2, Inv cfg s2 inL2 outL2 := by
  cases hpc : s.wpc
  · exact ⟨inL, outL, inv_semwait hi hpc hs⟩
  · obtain ⟨x, xs, _, _, hi2⟩ := inv_dequeue hi hpc hs
    exact ⟨inL, xs, hi2⟩
  · exact ⟨inL, outL, inv_write hi hpc hs⟩
  · exact ⟨_, outL, inv_recycle hi hpc hs⟩
  · exact ⟨inL, outL, inv_wpost hi hpc hs⟩
  · simp [writer, hpc] at hs

theorem inv_run {cfg : Cfg} (ls : List Label) :
    ∀ {s s2 : State}, (∃ inL outL, Inv cfg s inL outL) → run cfg ls s = some s2 →
      ∃ inL outL, Inv cfg s2 inL outL := by
  induction ls with
  | nil =>
    intro s s2 hg hs
    simp only [run, Option.some.injEq] at hs
    subst hs
    exact hg
  | cons l ls ih =>
    intro s s2 hg hs
    simp only [run] at hs
    cases h1 : step cfg l s with
    | none => simp [h1] at hs
    | some s1 =>
      simp only [h1, Option.some_bind] at hs
      apply ih _ hs
      obtain ⟨inL, outL, hi⟩ := hg
      unfold step at h1
      split at h1
      · simp at h1
      · cases l with
        | prod e => exact inv_producer hi h1
        | wr e => exact inv_writer hi h1

theorem inv_reachable {cfg : Cfg} {whole : List Nat} {s : State}
    (hr : Reachable cfg whole s) : ∃ inL outL, Inv cfg s inL outL := by
  obtain ⟨ls, hls⟩ := hr
  exact inv_run ls ⟨[], [], inv_init cfg whole⟩ hls

/-! ## The linked nodes of a reachable state -/

theorem linked_out {cfg : Cfg} {s : State} {inL outL : List Nat} (hi : Inv cfg s inL outL) :
    linked s outBuffer s.outBufferTail = outL := by
  have hsh := hi.shape
  have hnot : s.outBufferTail ∉ outL := fun h => (hsh.dOut _ h).2.1 rfl
  apply walk_chain hsh.chainOut hnot
  have h1 : (s.outBufferTail :: outL).Nodup := List.nodup_cons.mpr ⟨hnot, hsh.ndOut⟩
  have h2 : ∀ a ∈ s.outBufferTail :: outL, a < s.nextNode := by
    intro a ha
    simp only [List.mem_cons] at ha
    rcases ha with rfl | ha
    · exact hsh.rTail.2.2
    · exact (hsh.rOut a ha).2
  have := nodup_length_le h1 h2
  simpa using this

theorem linked_in {cfg : Cfg} {s : State} {inL outL : List Nat} (hi : Inv cfg s inL outL) :
    linked s inBuffer s.inBufferTail = inL := by
  have hsh := hi.shape
  have hnot : s.inBufferTail ∉ inL := fun h => (hsh.dIn _ h).1 rfl
  apply walk_chain hsh.chainIn hnot
  have h1 : (s.inBufferTail :: inL).Nodup := List.nodup_cons.mpr ⟨hnot, hsh.ndIn⟩
  have h2 : ∀ a ∈ s.inBufferTail :: inL, a < s.nextNode := by
    intro a ha
    simp only [List.mem_cons] at ha
    rcases ha with rfl | ha
    · exact hsh.rTail.1.2
    · exact (hsh.rIn a ha).2
  have := nodup_length_le h1 h2
  simpa using this

theorem dataCount_out {cfg : Cfg} {s : State} {inL outL : List Nat} (hi : Inv cfg s inL outL) :
    dataCount s outBuffer s.outBufferTail = outL.length := by
  unfold dataCount
  rw [linked_out hi, List.filter_eq_self.mpr]
  intro a ha
  simpa [isData] using hi.shape.typeOut a ha

theorem dataCount_in {cfg : Cfg} {s : State} {inL outL : List Nat} (hi : Inv cfg s inL outL) :
    dataCount s inBuffer s.inBufferTail = inL.length := by
  unfold dataCount
  rw [linked_in hi, List.filter_eq_self.mpr]
  intro a ha
  simp [isData, hi.shape.typeIn a ha]

/-! ## Stale pointers -/

theorem stale_init (cfg : Cfg) (whole : List Nat) : Stale (init cfg whole) := by
  simp [Stale, init]

theorem stale_producer {cfg : Cfg} {e : Ev} {s s2 : State}
    (h : Stale s) (hs : producer cfg e s = some s2) : Stale s2 := by
  unfold producer newBuffer main at hs
  unfold Stale at h ⊢
  cases hpc : s.ppc <;> simp only [hpc] at hs h <;> (repeat' split at hs) <;>
    simp only [Option.some.injEq, reduceCtorEq] at hs <;> subst hs <;>
    simp_all [afterNew]

theorem stale_writer {cfg : Cfg} {e : Ev} {s s2 : State}
    (h : Stale s) (hs : writer cfg e s = some s2) : Stale s2 := by
  unfold writer doWrite at hs
  unfold Stale at h ⊢
  cases hpc : s.wpc <;> simp only [hpc] at hs h <;> (repeat' split at hs) <;>
    simp only [Option.some.injEq, reduceCtorEq] at hs <;> subst hs <;>
    simp_all

theorem stale_run {cfg : Cfg} (ls : List Label) :
    ∀ {s s2 : State}, Stale s → run cfg ls s = some s2 → Stale s2 := by
  induction ls with
  | nil =>
    intro s s2 hg hs
    simp only [run, Option.some.injEq] at hs
    subst hs
    exact hg
  | cons l ls ih =>
    intro s s2 hg hs
    simp only [run] at hs
    cases h1 : step cfg l s with
    | none => simp [h1] at hs
    | some s1 =>
      simp only [h1, Option.some_bind] at hs
      apply ih _ hs
      unfold step at h1
      split at h1
      · simp at h1
      · cases l with
        | prod e => exact stale_producer hg h1
        | wr e => exact stale_writer hg h1

/-! ## Runs -/

theorem run_append (cfg : Cfg) (l1 l2 : List Label) :
    ∀ s, run cfg (l1 ++ l2) s = (run cfg l1 s).bind (run cfg l2) := by
  induction l1 with
  | nil => intro s; simp [run]
  | cons l l1 ih =>
    intro s
    simp only [List.cons_append, run]
    cases step cfg l s with
    | none => simp
    | some t => simp [ih]

theorem reachable_step {cfg : Cfg} {whole : List Nat} {s s2 : State} {l : Label}
    (hr : Reachable cfg whole s) (hs : step cfg l s = some s2) : Reachable cfg whole s2 := by
  obtain ⟨ls, hls⟩ := hr
  refine ⟨ls ++ [l], ?_⟩
  rw [run_append, hls]
  simp [run, hs]

/-! ## What the data invariant says about the traces -/

theorem curBytes_ended {cfg : Cfg} {whole : List Nat} {s : State} {outL : List Nat}
    {written : List Chunk} (hd : Data cfg whole s outL written) (he : ended s) :
    curBytes s = [] := by
  have hl := hd.loc
  obtain ⟨h1, h2, h3, _⟩ := he
  unfold curBytes
  unfold localOk at hl
  cases hpc : s.ppc <;> simp only [hpc] at hl h2 h3 ⊢
  · exact absurd rfl h2
  · exact absurd rfl h3
  · cases hc : s.pcur with
    | none => rfl
    | some c => exact chunk_bytes_zero s c (hl h1 c hc)
  · cases hc : s.pcur with
    | none => rfl
    | some c => exact chunk_bytes_zero s c (hl h1 c hc)

theorem writes_initial {cfg : Cfg} {whole : List Nat} {s : State} {outL : List Nat}
    {written : List Chunk} (hd : Data cfg whole s outL written) :
    ∃ rest, s.writes.flatten ++ rest = whole := by
  refine ⟨(((wPend s ++ outL).map (nodeChunk s)).map (fun e => e.bytes)).flatten ++
    curBytes s ++ s.input, ?_⟩
  rw [← hd.bytes, hd.log, hd.wr]
  simp [List.append_assoc]

theorem writes_done {cfg : Cfg} {whole : List Nat} {s : State} {outL : List Nat}
    {written : List Chunk} (hd : Data cfg whole s outL written) (hw : s.wpc = WPC.done) :
    s.writes.flatten = whole := by
  obtain ⟨h1, h2⟩ := hd.wrD hw
  obtain ⟨_, _, _, _, _, _, hin⟩ := hd.logE h2
  have := hd.bytes
  rw [curBytes_ended hd h2, hin, ← h1, ← hd.wr] at this
  simpa using this

/-! ## Chunking -/

theorem normals_eq (C : Nat) : ∀ (pre : List Chunk) (whole rest : List Nat),
    (∀ x ∈ pre, x.type = BUF_TYPE_NORMAL ∧ x.length = C ∧ x.bytes.length = C) →
    (pre.map (fun e => e.bytes)).flatten ++ rest = whole →
    pre = (List.range pre.length).map
        (fun i => { type := BUF_TYPE_NORMAL, length := C, bytes := (whole.drop (i * C)).take C }) ∧
      rest = whole.drop (pre.length * C) := by
  intro pre
  induction pre with
  | nil =>
    intro whole rest _ h
    simp at h
    simp [h]
  | cons x xs ih =>
    intro whole rest hx h
    have hx0 := hx x (by simp)
    simp only [List.map_cons, List.flatten_cons, List.append_assoc] at h
    obtain ⟨ih1, ih2⟩ := ih _ rest (fun y hy => hx y (by simp [hy])) rfl
    have hdrop : ∀ n, whole.drop (C + n) = ((xs.map (fun e => e.bytes)).flatten ++ rest).drop n := by
      intro n
      rw [← h, ← List.drop_drop, ← hx0.2.2, List.drop_left]
    constructor
    · rw [List.length_cons, List.range_succ_eq_map, List.map_cons, List.map_map]
      congr 1
      · cases x with
        | mk t l b =>
          simp only at hx0
          simp only [Chunk.mk.injEq, Nat.zero_mul, List.drop_zero]
          refine ⟨hx0.1, hx0.2.1, ?_⟩
          rw [← h, ← hx0.2.2, List.take_left]
      · conv_lhs => rw [ih1]
        apply List.map_congr_left
        intro i _
        simp only [Function.comp, Chunk.mk.injEq, true_and]
        rw [show (i + 1) * C = C + i * C by ring, hdrop]
    · rw [ih2, List.length_cons, show (xs.length + 1) * C = C + xs.length * C by ring, hdrop]

theorem log_spec {cfg : Cfg} {whole : List Nat} {s : State} {outL : List Nat}
    {written : List Chunk} (hB : 1 ≤ cfg.BUFSZ) (hd : Data cfg whole s outL written) :
    (ended s → s.enqLog = specChunks cfg.BUFSZ whole) ∧
      ∃ rest, s.enqLog ++ rest = specChunks cfg.BUFSZ whole := by
  have hE : ended s → s.enqLog = specChunks cfg.BUFSZ whole := by
    intro he
    obtain ⟨pre, e, hlog, hpre, hety, helen, hin⟩ := hd.logE he
    have hb := hd.bytes
    rw [curBytes_ended hd he, hin, hlog] at hb
    simp only [List.map_append, List.map_cons, List.map_nil, List.flatten_append,
      List.flatten_cons, List.flatten_nil, List.append_nil] at hb
    have hL := hd.logL
    rw [hlog] at hL
    obtain ⟨h1, h2⟩ := normals_eq cfg.BUFSZ pre whole e.bytes (by
      intro x hx
      have := hL x (by simp [hx])
      exact ⟨hpre x hx, this.2 (hpre x hx), by rw [this.1, this.2 (hpre x hx)]⟩) hb
    have hel := (hL e (by simp)).1
    have hlen : whole.length = pre.length * cfg.BUFSZ + e.length := by
      have := congrArg List.length h2
      rw [List.length_drop, hel] at this
      have h3 : pre.length * cfg.BUFSZ ≤ whole.length := by
        rw [← hb]
        have := congrArg List.length h1
        simp only [List.length_append]
        have h4 : ((pre.map (fun e => e.bytes)).flatten).length = pre.length * cfg.BUFSZ := by
          rw [List.length_flatten, List.map_map]
          have : List.map (List.length ∘ fun e => e.bytes) pre
              = List.replicate pre.length cfg.BUFSZ := by
            apply List.eq_replicate_iff.mpr
            refine ⟨by simp, ?_⟩
            intro b hb2
            simp only [List.mem_map, Function.comp] at hb2
            obtain ⟨x, hx, rfl⟩ := hb2
            have := hL x (by simp [hx])
            rw [this.1, this.2 (hpre x hx)]
          rw [this]
          simp
        omega
      omega
    have hq : whole.length / cfg.BUFSZ = pre.length := by
      rw [hlen, Nat.mul_comm, Nat.mul_add_div (by omega), Nat.div_eq_of_lt helen]
      omega
    have hm : whole.length % cfg.BUFSZ = e.length := by
      rw [hlen, Nat.mul_comm, Nat.mul_add_mod, Nat.mod_eq_of_lt helen]
    unfold specChunks
    rw [hlog, hq, hm, ← h1, ← h2]
    cases e with
    | mk t l b =>
      simp only at hety
      simp [hety]
  refine ⟨hE, ?_⟩
  by_cases he : ended s
  · exact ⟨[], by rw [List.append_nil]; exact hE he⟩
  · have hN := hd.logN he
    have hL := hd.logL
    have hb := hd.bytes
    rw [List.append_assoc] at hb
    obtain ⟨h1, h2⟩ := normals_eq cfg.BUFSZ s.enqLog whole (curBytes s ++ s.input) (by
      intro x hx
      have := hL x hx
      exact ⟨hN x hx, this.2 (hN x hx), by rw [this.1, this.2 (hN x hx)]⟩) hb
    have hle : s.enqLog.length * cfg.BUFSZ ≤ whole.length := by
      rw [← hb]
      simp only [List.length_append]
      have h4 : ((s.enqLog.map (fun e => e.bytes)).flatten).length
          = s.enqLog.length * cfg.BUFSZ := by
        rw [List.length_flatten, List.map_map]
        have : List.map (List.length ∘ fun e => e.bytes) s.enqLog
            = List.replicate s.enqLog.length cfg.BUFSZ := by
          apply List.eq_replicate_iff.mpr
          refine ⟨by simp, ?_⟩
          intro b hb2
          simp only [List.mem_map, Function.comp] at hb2
          obtain ⟨x, hx, rfl⟩ := hb2
          have := hL x hx
          rw [this.1, this.2 (hN x hx)]
        rw [this]
        simp
      omega
    have hk : s.enqLog.length ≤ whole.length / cfg.BUFSZ :=
      (Nat.le_div_iff_mul_le (by omega)).mpr hle
    obtain ⟨d, hd2⟩ := Nat.exists_eq_add_of_le hk
    unfold specChunks
    rw [hd2, List.range_add, List.map_append, ← h1, ← hd2, List.append_assoc]
    exact ⟨_, rfl⟩

/-! ## Progress: a run without failures can always be completed -/

theorem balance_init (cfg : Cfg) (whole : List Nat) : Balance (init cfg whole) := by
  simp [Balance, init, ind]

theorem balance_step {cfg : Cfg} {l : Label} {s s2 : State} (hb : Balance s)
    (hs : step cfg l s = some s2) : Balance s2 := by
  unfold step at hs
  split at hs
  · simp at hs
  · cases l with
    | prod e =>
      simp only at hs
      unfold producer newBuffer main at hs
      cases hpc : s.ppc <;> simp only [hpc] at hs <;> (repeat' split at hs) <;>
        simp only [Option.some.injEq, reduceCtorEq] at hs <;> subst hs <;>
        unfold Balance at hb ⊢ <;>
        rcases afterNew_cases s with ha | ha <;>
        simp [hpc, ha, ind] at hb ⊢ <;> omega
    | wr e =>
      simp only at hs
      unfold writer doWrite at hs
      cases hpc : s.wpc <;> simp only [hpc] at hs <;> (repeat' split at hs) <;>
        simp only [Option.some.injEq, reduceCtorEq] at hs <;> subst hs <;>
        unfold Balance at hb ⊢ <;>
        simp [hpc, ind] at hb ⊢ <;> omega

theorem clean_init (cfg : Cfg) (whole : List Nat) : Clean cfg (init cfg whole) := by
  simp [Clean, init]

theorem clean_step {cfg : Cfg} {l : Label} {s s2 : State} (hc : Clean cfg s)
    (hl : noFail l = true) (hs : step cfg l s = some s2) : Clean cfg s2 := by
  obtain ⟨h1, h2, h3⟩ := hc
  unfold step at hs
  split at hs
  · simp at hs
  · cases l with
    | prod e =>
      cases e with
      | fail => simp [noFail] at hl
      | ok k =>
        simp only at hs
        unfold producer newBuffer main at hs
        cases hpc : s.ppc <;> simp only [hpc] at hs <;> (repeat' split at hs) <;>
          simp only [Option.some.injEq, reduceCtorEq] at hs <;> subst hs <;>
          simp only [hpc, reduceCtorEq, false_or, or_false, false_implies, true_implies,
            forall_const, or_true, true_or] at h1 h2 h3 <;>
          (try simp only [ended, hpc, reduceCtorEq, not_false_eq_true, true_and, false_or, ne_eq,
            not_true_eq_false, false_and, and_false] at h1) <;>
          by_cases hcond : s.inLoop = true ∧ s.rd = 0 <;>
          simp only [Clean, ended, afterNew, hcond, if_true, if_false] <;>
          (try simp) <;>
          first
            | assumption
            | omega
            | tauto
    | wr e =>
      simp only at hs
      unfold writer doWrite at hs
      cases hpc : s.wpc <;> simp only [hpc] at hs <;> (repeat' split at hs) <;>
        simp only [Option.some.injEq, reduceCtorEq] at hs <;> subst hs <;>
        refine ⟨h1, h2, ?_⟩ <;> intro hx <;> have := h3 hx <;> simp [hpc] at this

theorem exit_none {cfg : Cfg} {s : State} {inL outL : List Nat} (hi : Inv cfg s inL outL)
    (hc : Clean cfg s) (hd : s.wpc ≠ WPC.done) : s.exit = none := by
  rcases hi.exitP with h | h
  · exact h
  · exact absurd (hc.2.2 h) hd

theorem mainRank_congr {s s2 : State} (h1 : s2.input = s.input) (h2 : s2.rd = s.rd)
    (h3 : s2.ppc = s.ppc) (h4 : s2.inLoop = s.inLoop) (h5 : s.inBufferSem ≤ s2.inBufferSem) :
    mainRank s2 ≤ mainRank s := by
  have hp : mainPhase s2 ≤ mainPhase s := by
    unfold mainPhase
    rw [h3]
    cases s.ppc <;> simp only [le_refl]
    split <;> split <;> omega
  have ht : mainTodo s2 = mainTodo s := by
    unfold mainTodo
    rw [h2, h3, h4]
  unfold mainRank
  rw [h1, ht]
  omega

theorem writer_progress {cfg : Cfg} {whole : List Nat} {s : State} (hg : Good cfg whole s)
    (hc : Clean cfg s) (hd : s.wpc ≠ WPC.done)
    (hen : s.wpc = WPC.semwait → s.outBufferSem ≠ 0) :
    ∃ s2, step cfg W s = some s2 ∧ mainRank s2 ≤ mainRank s ∧
      (s2.wpc = WPC.done ∨ writerRank s2 < writerRank s) := by
  obtain ⟨inL, outL, written, hi, hdat⟩ := hg
  have hex := exit_none hi hc hd
  cases hst : step cfg W s with
  | none =>
    exfalso
    cases hpc : s.wpc with
    | semwait => simp [step, W, hex, writer, hpc, hen hpc] at hst
    | dequeue =>
      have hnx := chain_front hi.shape.chainOut
      simp [step, W, hex, writer, hpc, hnx] at hst
    | write =>
      obtain ⟨x, hx⟩ := hi.hasW (Or.inl hpc)
      simp only [step, W, hex, writer, hpc, hx, Option.isSome_none, Bool.false_eq_true,
        if_false] at hst
      split at hst
      · simp at hst
      · split at hst <;> simp at hst
    | recycle =>
      obtain ⟨x, hx⟩ := hi.hasW (Or.inr hpc)
      simp [step, W, hex, writer, hpc, hx] at hst
    | post => simp [step, W, hex, writer, hpc] at hst
    | done => exact hd hpc
  | some s2 =>
    refine ⟨s2, rfl, ?_⟩
    simp only [step, W, hex, Option.isSome_none, Bool.false_eq_true, if_false] at hst
    unfold writer doWrite at hst
    cases hpc : s.wpc <;> simp only [hpc] at hst <;> (repeat' split at hst) <;>
      simp only [Option.some.injEq, reduceCtorEq] at hst <;> subst hst <;>
      refine ⟨mainRank_congr rfl rfl rfl rfl (by simp), ?_⟩ <;>
      (simp [writerRank, hpc]; try omega)

theorem main_progress {cfg : Cfg} {whole : List Nat} {s : State} (hB : 1 ≤ cfg.BUFSZ)
    (hM : 1 ≤ cfg.MAXBUFS) (hg : Good cfg whole s) (hb : Balance s) (hc : Clean cfg s)
    (hw : s.wpc = WPC.semwait) (ho : s.outBufferSem = 0) :
    ∃ s2, step cfg (P (cfg.BUFSZ - 1)) s = some s2 ∧ mainRank s2 < mainRank s := by
  obtain ⟨inL, outL, written, hi, hdat⟩ := hg
  have hd : s.wpc ≠ WPC.done := by rw [hw]; decide
  have hex := exit_none hi hc hd
  have hbal : s.bufCt = _ := hb
  have hsi := hi.semIn
  have hso := hi.semOut
  simp only [hw, ho, ind, reduceCtorEq, if_false, false_or, or_false, Nat.add_zero,
    Nat.zero_add] at hbal hsi hso
  cases hpc : s.ppc with
  | retryNew =>
    have hnx := chain_front hi.shape.chainIn
    simp only [hpc, reduceCtorEq, if_false, Nat.add_zero] at hsi
    by_cases hty : (s.heap ((inL ++ [s.inBufferTail]).headI)).type = BUF_TYPE_NORMAL
    · cases hst : step cfg (P (cfg.BUFSZ - 1)) s with
      | none => simp [step, P, hex, producer, newBuffer, hpc, hnx, hty] at hst
      | some s2 =>
        refine ⟨s2, rfl, ?_⟩
        simp [step, P, hex, producer, newBuffer, hpc, hnx, hty] at hst
        subst hst
        simp only [mainRank, mainTodo, mainPhase, hpc]
        split_ifs <;> simp_all
    · have hin : s.inBufferSem = 0 := by
        cases inL with
        | nil => simpa using hsi
        | cons y ys =>
          exfalso
          apply hty
          simpa using hi.shape.typeIn y (by simp)
      cases hst : step cfg (P (cfg.BUFSZ - 1)) s with
      | none => simp [step, P, hex, producer, newBuffer, hpc, hnx, hty] at hst
      | some s2 =>
        refine ⟨s2, rfl, ?_⟩
        simp [step, P, hex, producer, newBuffer, hpc, hnx, hty] at hst
        subst hst
        simp [mainRank, mainTodo, mainPhase, hpc, hin]
  | reuse =>
    obtain ⟨x, hx⟩ := hi.hasN (Or.inl hpc)
    simp only [hpc, reduceCtorEq, if_false, if_true, Nat.add_zero] at hsi
    have hin : s.inBufferSem ≠ 0 := by omega
    cases hst : step cfg (P (cfg.BUFSZ - 1)) s with
    | none => simp [step, P, hex, producer, newBuffer, hpc, hx, hin] at hst
    | some s2 =>
      refine ⟨s2, rfl, ?_⟩
      simp [step, P, hex, producer, newBuffer, hpc, hx, hin] at hst
      subst hst
      by_cases hcond : s.inLoop = true ∧ s.rd = 0
      · simp [mainRank, mainTodo, mainPhase, hpc, afterNew, hcond]
      · have hcond2 : ¬ (s.rd = 0 ∧ s.inLoop = true) := fun h => hcond ⟨h.2, h.1⟩
        simp [mainRank, mainTodo, mainPhase, hpc, afterNew, hcond, hcond2]
  | allocNode =>
    cases hst : step cfg (P (cfg.BUFSZ - 1)) s with
    | none =>
      by_cases hcap : cfg.MAXBUFS ≤ s.bufCt <;>
        simp [step, P, hex, producer, newBuffer, hpc, hcap] at hst
    | some s2 =>
      refine ⟨s2, rfl, ?_⟩
      by_cases hcap : cfg.MAXBUFS ≤ s.bufCt <;>
        simp [step, P, hex, producer, newBuffer, hpc, hcap] at hst <;>
        subst hst <;>
        simp [mainRank, mainTodo, mainPhase, hpc]
  | allocBuf =>
    obtain ⟨x, hx⟩ := hi.hasN (Or.inr hpc)
    cases hst : step cfg (P (cfg.BUFSZ - 1)) s with
    | none => simp [step, P, hex, producer, newBuffer, hpc, hx] at hst
    | some s2 =>
      refine ⟨s2, rfl, ?_⟩
      simp [step, P, hex, producer, newBuffer, hpc, hx] at hst
      subst hst
      by_cases hcond : s.inLoop = true ∧ s.rd = 0
      · simp [mainRank, mainTodo, mainPhase, hpc, afterNew, hcond]
      · have hcond2 : ¬ (s.rd = 0 ∧ s.inLoop = true) := fun h => hcond ⟨h.2, h.1⟩
        simp [mainRank, mainTodo, mainPhase, hpc, afterNew, hcond, hcond2]
  | waitRetryNew =>
    have hcap := hc.2.1 (Or.inl hpc)
    simp only [hpc, reduceCtorEq, if_false, false_or, or_false, Nat.add_zero] at hbal
    have hin : s.inBufferSem ≠ 0 := by omega
    cases hst : step cfg (P (cfg.BUFSZ - 1)) s with
    | none => simp [step, P, hex, producer, newBuffer, hpc, hin] at hst
    | some s2 =>
      refine ⟨s2, rfl, ?_⟩
      simp [step, P, hex, producer, newBuffer, hpc, hin] at hst
      subst hst
      simp [mainRank, mainTodo, mainPhase, hpc]
  | repost =>
    cases hst : step cfg (P (cfg.BUFSZ - 1)) s with
    | none => simp [step, P, hex, producer, newBuffer, hpc] at hst
    | some s2 =>
      refine ⟨s2, rfl, ?_⟩
      simp [step, P, hex, producer, newBuffer, hpc] at hst
      subst hst
      simp [mainRank, mainTodo, mainPhase, hpc]
  | read =>
    obtain ⟨x, hx⟩ := hi.hasP (Or.inl hpc)
    obtain ⟨p, hpb, _⟩ :=
      hi.shape.bufs x (Or.inr (Or.inr (by simp [pHold, pHoldOf, hpc, hx])))
    have hloc := hdat.loc
    simp only [localOk, hpc] at hloc
    have hlen := hloc x hx
    cases hst : step cfg (P (cfg.BUFSZ - 1)) s with
    | none => simp [step, P, hex, producer, main, hpc, hx, hpb] at hst
    | some s2 =>
      refine ⟨s2, rfl, ?_⟩
      simp only [step, P, hex, producer, main, hpc, hx, hpb, Option.isSome_none,
        Bool.false_eq_true, if_false, Option.some.injEq] at hst
      subst hst
      simp only [mainRank, mainTodo, mainPhase, hpc, List.length_drop]
      by_cases hnil : s.input.length = 0
      · simp [hnil]
      · have hn : 1 ≤ min (cfg.BUFSZ - 1 + 1) (min (cfg.BUFSZ - (s.heap x).length)
            s.input.length) := by omega
        have hn2 : min (cfg.BUFSZ - 1 + 1) (min (cfg.BUFSZ - (s.heap x).length)
            s.input.length) ≤ s.input.length := by omega
        generalize min (cfg.BUFSZ - 1 + 1) (min (cfg.BUFSZ - (s.heap x).length)
            s.input.length) = n at hn hn2 ⊢
        have hne : ¬ ((n : Int) = 0) := by omega
        have hne2 : ¬ (n = 0) := by omega
        by_cases hfull : (s.heap x).length + n = cfg.BUFSZ <;>
          simp [hne, hne2, hfull] <;> omega
  | enqueue =>
    obtain ⟨x, hx⟩ := hi.hasP (Or.inr (Or.inl hpc))
    cases hst : step cfg (P (cfg.BUFSZ - 1)) s with
    | none => simp [step, P, hex, producer, main, hpc, hx] at hst
    | some s2 =>
      refine ⟨s2, rfl, ?_⟩
      simp [step, P, hex, producer, main, hpc, hx] at hst
      subst hst
      simp [mainRank, mainTodo, mainPhase, hpc]
  | post =>
    cases hst : step cfg (P (cfg.BUFSZ - 1)) s with
    | none => simp [step, P, hex, producer, main, hpc] at hst
    | some s2 =>
      refine ⟨s2, rfl, ?_⟩
      simp [step, P, hex, producer, main, hpc] at hst
      subst hst
      simp only [mainRank, mainTodo, mainPhase, hpc]
      split_ifs <;> simp_all
  | join =>
    exfalso
    have he := hc.1 (Or.inl hpc)
    simp only [hpc, reduceCtorEq, if_false, Nat.add_zero] at hso
    have hout : outL = [] := List.length_eq_zero.mp hso.symm
    obtain ⟨pre, e, hpre, _, hety, _, _⟩ := hdat.logE he
    have hlog := hdat.log
    simp only [wPend, wPendOf, hw, hout, List.append_nil, List.map_nil] at hlog
    have := hdat.wrN hd e (by rw [← hlog, hpre]; simp)
    rw [hety] at this
    exact absurd this (by decide)
  | exited => exact absurd (hc.2.2 hpc) hd

theorem noFailure_append {l1 l2 : List Label} (h1 : NoFailure l1) (h2 : NoFailure l2) :
    NoFailure (l1 ++ l2) := by
  intro l hl
  rcases List.mem_append.mp hl with h | h
  · exact h1 l h
  · exact h2 l h

theorem fullWrites_append {l1 l2 : List Label} (h1 : FullWrites l1) (h2 : FullWrites l2) :
    FullWrites (l1 ++ l2) := by
  intro l hl
  rcases List.mem_append.mp hl with h | h
  · exact h1 l h
  · exact h2 l h

theorem live_run {cfg : Cfg} (ls : List Label) :
    ∀ {s s2 : State}, NoFailure ls → Balance s → Clean cfg s → run cfg ls s = some s2 →
      Balance s2 ∧ Clean cfg s2 := by
  induction ls with
  | nil =>
    intro s s2 _ hb hc hs
    simp only [run, Option.some.injEq] at hs
    subst hs
    exact ⟨hb, hc⟩
  | cons l ls ih =>
    intro s s2 hnf hb hc hs
    simp only [run] at hs
    cases h1 : step cfg l s with
    | none => simp [h1] at hs
    | some s1 =>
      simp only [h1, Option.some_bind] at hs
      exact ih (fun e he => hnf e (List.mem_cons_of_mem _ he)) (balance_step hb h1)
        (clean_step hc (hnf l (List.mem_cons_self _ _)) h1) hs

/-- The writer runs until it has ended or waits on `outBufferSem` with nothing pending. -/
theorem drain {cfg : Cfg} {whole : List Nat} (hB : 1 ≤ cfg.BUFSZ) :
    ∀ (w : Nat) (s : State), writerRank s < w → Good cfg whole s → Balance s → Clean cfg s →
      s.wpc ≠ WPC.done →
      ∃ ls s2, run cfg ls s = some s2 ∧ NoFailure ls ∧ FullWrites ls ∧ Good cfg whole s2 ∧
        Balance s2 ∧ Clean cfg s2 ∧ mainRank s2 ≤ mainRank s ∧
        (s2.wpc = WPC.done ∨ (s2.wpc = WPC.semwait ∧ s2.outBufferSem = 0)) := by
  intro w
  induction w with
  | zero => intro s h; omega
  | succ w ih =>
    intro s hw hg hb hc hd
    by_cases hen : s.wpc = WPC.semwait ∧ s.outBufferSem = 0
    · exact ⟨[], s, rfl, by decide, by decide, hg, hb, hc, le_rfl, Or.inr hen⟩
    · obtain ⟨s1, h1, hm1, hw1⟩ := writer_progress hg hc hd (fun h h0 => hen ⟨h, h0⟩)
      have g1 := good_step hB hg h1
      have b1 := balance_step hb h1
      have c1 := clean_step hc (by rfl : noFail W = true) h1
      by_cases hd1 : s1.wpc = WPC.done
      · refine ⟨[W], s1, by simp [run, h1], by decide, by decide, g1, b1, c1, hm1, Or.inl hd1⟩
      · have hlt : writerRank s1 < w := by
          rcases hw1 with h | h
          · exact absurd h hd1
          · omega
        obtain ⟨ls, s2, h2, hnf, hfw, g2, b2, c2, hm2, hfin⟩ := ih s1 hlt g1 b1 c1 hd1
        refine ⟨[W] ++ ls, s2, ?_, noFailure_append (by decide) hnf,
          fullWrites_append (by decide) hfw, g2, b2, c2, le_trans hm2 hm1, hfin⟩
        rw [run_append]
        simp [run, h1, h2]

theorem finish_from {cfg : Cfg} {whole : List Nat} (hB : 1 ≤ cfg.BUFSZ)
    (hM : 1 ≤ cfg.MAXBUFS) :
    ∀ (m : Nat) (s : State), mainRank s < m → Good cfg whole s → Balance s → Clean cfg s →
      ∃ ls s2, run cfg ls s = some s2 ∧ NoFailure ls ∧ FullWrites ls ∧
        s2.wpc = WPC.done := by
  have hP : noFail (P (cfg.BUFSZ - 1)) = true ∧ isFull (P (cfg.BUFSZ - 1)) = true :=
    ⟨rfl, rfl⟩
  have hP1 : NoFailure [P (cfg.BUFSZ - 1)] := by
    intro l hl
    rw [List.mem_singleton.mp hl]
    exact hP.1
  have hP2 : FullWrites [P (cfg.BUFSZ - 1)] := by
    intro l hl
    rw [List.mem_singleton.mp hl]
    exact hP.2
  intro m
  induction m with
  | zero => intro s h; omega
  | succ m ih =>
    intro s hm hg hb hc
    by_cases hd : s.wpc = WPC.done
    · exact ⟨[], s, rfl, by decide, by decide, hd⟩
    · obtain ⟨ls1, s1, h1, hnf1, hfw1, g1, b1, c1, hm1, hfin⟩ :=
        drain hB (writerRank s + 1) s (Nat.lt_succ_self _) hg hb hc hd
      rcases hfin with hd1 | ⟨hw1, ho1⟩
      · exact ⟨ls1, s1, h1, hnf1, hfw1, hd1⟩
      · obtain ⟨s2, h2, hm2⟩ := main_progress hB hM g1 b1 c1 hw1 ho1
        have g2 := good_step hB g1 h2
        have b2 := balance_step b1 h2
        have c2 := clean_step c1 hP.1 h2
        obtain ⟨ls3, s3, h3, hnf3, hfw3, hd3⟩ := ih s2 (by omega) g2 b2 c2
        refine ⟨ls1 ++ ([P (cfg.BUFSZ - 1)] ++ ls3), s3, ?_,
          noFailure_append hnf1 (noFailure_append hP1 hnf3),
          fullWrites_append hfw1 (fullWrites_append hP2 hfw3), hd3⟩
        rw [run_append, h1, Option.some_bind, run_append]
        simp [run, h2, h3]

/-- Whatever has happened so far, as long as no `read` and no `malloc` has failed, the run can
be continued, without failures and with full writes, until the writer has written the
end-of-stream chunk and ended. -/
theorem can_finish (cfg : Cfg) (whole : List Nat) (hB : 1 ≤ cfg.BUFSZ)
    (hM : 1 ≤ cfg.MAXBUFS) (ls : List Label) (s : State) (hnf : NoFailure ls)
    (hrun : run cfg ls (init cfg whole) = some s) :
    ∃ ls2 s2, run cfg ls2 s = some s2 ∧ NoFailure ls2 ∧ FullWrites ls2 ∧
      s2.wpc = WPC.done := by
  have hg := good_run hB ls (good_init cfg whole) hrun
  obtain ⟨hb, hc⟩ := live_run ls hnf (balance_init cfg whole) (clean_init cfg whole) hrun
  exact finish_from hB hM (mainRank s + 1) s (Nat.lt_succ_self _) hg hb hc


/-! ## Runs that never return -/

theorem balance_run {cfg : Cfg} (ls : List Label) :
    ∀ {s s2 : State}, Balance s → run cfg ls s = some s2 → Balance s2 := by
  induction ls with
  | nil =>
    intro s s2 hb hs
    simp only [run, Option.some.injEq] at hs
    subst hs
    exact hb
  | cons l ls ih =>
    intro s s2 hb hs
    simp only [run] at hs
    cases h1 : step cfg l s with
    | none => simp [h1] at hs
    | some s1 =>
      simp only [h1, Option.some_bind] at hs
      exact ih (balance_step hb h1) hs

/-- With the pool cap at 1, `main` cannot be in `pthread_join` with the writer ended: the
payload block of the end-of-stream chunk and the chunk of the last `newBuffer` would make
two. -/
theorem cap1_step {cfg : Cfg} {l : Label} {s s2 : State} {inL outL : List Nat}
    (hcap : cfg.MAXBUFS ≤ 1) (hi : Inv cfg s inL outL) (hb : Balance s)
    (hj : s.exit = none ∧ s.ppc ≠ PPC.exited) (hs : step cfg l s = some s2) :
    s2.exit = none ∧ s2.ppc ≠ PPC.exited := by
  obtain ⟨hex, hne⟩ := hj
  have hcnt := hi.cnt.2.1
  unfold step at hs
  split at hs
  · simp at hs
  · cases l with
    | prod e =>
      simp only at hs
      unfold producer newBuffer main at hs
      cases hpc : s.ppc <;> simp only [hpc] at hs <;> (repeat' split at hs) <;>
        simp only [Option.some.injEq, reduceCtorEq] at hs <;> subst hs <;>
        first
          | exact absurd hpc hne
          | (exfalso
             unfold Balance at hb
             simp_all [ind]
             omega)
          | (refine ⟨hex, ?_⟩
             rcases afterNew_cases s with ha | ha <;> simp [ha])
    | wr e =>
      simp only at hs
      unfold writer doWrite at hs
      cases hpc : s.wpc <;> simp only [hpc] at hs <;> (repeat' split at hs) <;>
        simp only [Option.some.injEq, reduceCtorEq] at hs <;> subst hs <;> exact ⟨hex, hne⟩

theorem cap1_run {cfg : Cfg} {whole : List Nat} (hcap : cfg.MAXBUFS ≤ 1) (ls : List Label) :
    ∀ {s s2 : State}, Reachable cfg whole s → s.exit = none ∧ s.ppc ≠ PPC.exited →
      run cfg ls s = some s2 → s2.exit = none ∧ s2.ppc ≠ PPC.exited := by
  induction ls with
  | nil =>
    intro s s2 _ hj hs
    simp only [run, Option.some.injEq] at hs
    subst hs
    exact hj
  | cons l ls ih =>
    intro s s2 hr hj hs
    simp only [run] at hs
    cases h1 : step cfg l s with
    | none => simp [h1] at hs
    | some s1 =>
      simp only [h1, Option.some_bind] at hs
      obtain ⟨inL, outL, hi⟩ := inv_reachable hr
      obtain ⟨ls0, hls0⟩ := hr
      have hb := balance_run ls0 (balance_init cfg whole) hls0
      exact ih (reachable_step ⟨ls0, hls0⟩ h1) (cap1_step hcap hi hb hj h1) hs

/-- With the pool cap at 1 the process never exits, whatever the input and the schedule. -/
theorem cap1_never_exits (cfg : Cfg) (whole : List Nat) (hcap : cfg.MAXBUFS ≤ 1)
    (ls : List Label) (s : State) (hrun : run cfg ls (init cfg whole) = some s) :
    s.exit = none ∧ s.ppc ≠ PPC.exited :=
  cap1_run hcap ls ⟨[], rfl⟩ ⟨rfl, by simp [init]⟩ hrun

theorem failed_step {cfg : Cfg} {whole : List Nat} {l : Label} {s s2 : State}
    (hg : Good cfg whole s) (hj : s.rd = -1 ∧ s.ppc = PPC.join ∧ s.exit = none)
    (hs : step cfg l s = some s2) : s2.rd = -1 ∧ s2.ppc = PPC.join ∧ s2.exit = none := by
  obtain ⟨hrd, hpc, hex⟩ := hj
  obtain ⟨inL, outL, written, hi, hd⟩ := hg
  unfold step at hs
  split at hs
  · simp at hs
  · cases l with
    | prod e =>
      simp only at hs
      unfold producer main at hs
      simp only [hpc] at hs
      split at hs
      · rename_i hdone
        have := (hd.wrD hdone).2.1
        rw [hrd] at this
        exact absurd this (by decide)
      · simp at hs
    | wr e =>
      simp only at hs
      unfold writer doWrite at hs
      cases hw : s.wpc <;> simp only [hw] at hs <;> (repeat' split at hs) <;>
        simp only [Option.some.injEq, reduceCtorEq] at hs <;> subst hs <;>
        exact ⟨hrd, hpc, hex⟩

theorem failed_run {cfg : Cfg} {whole : List Nat} (hB : 1 ≤ cfg.BUFSZ) (ls : List Label) :
    ∀ {s s2 : State}, Good cfg whole s → s.rd = -1 ∧ s.ppc = PPC.join ∧ s.exit = none →
      run cfg ls s = some s2 → s2.rd = -1 ∧ s2.ppc = PPC.join ∧ s2.exit = none := by
  induction ls with
  | nil =>
    intro s s2 _ hj hs
    simp only [run, Option.some.injEq] at hs
    subst hs
    exact hj
  | cons l ls ih =>
    intro s s2 hg hj hs
    simp only [run] at hs
    cases h1 : step cfg l s with
    | none => simp [h1] at hs
    | some s1 =>
      simp only [h1, Option.some_bind] at hs
      exact ih (good_step hB hg h1) (failed_step hg hj h1) hs

/-- When a `read` of `main` fails, at any point of a run, `main` goes to `pthread_join`
and the process never exits. -/
theorem read_failure_never_exits (cfg : Cfg) (whole : List Nat) (hB : 1 ≤ cfg.BUFSZ)
    (ls : List Label) (s s1 : State) (hrun : run cfg ls (init cfg whole) = some s)
    (hpc : s.ppc = PPC.read) (hs : step cfg (Label.prod Ev.fail) s = some s1)
    (ls2 : List Label) (s2 : State) (hrun2 : run cfg ls2 s1 = some s2) :
    s1.rd = -1 ∧ s2.ppc = PPC.join ∧ s2.exit = none := by
  have hg := good_run hB ls (good_init cfg whole) hrun
  have hg1 := good_step hB hg hs
  have hj : s1.rd = -1 ∧ s1.ppc = PPC.join ∧ s1.exit = none := by
    obtain ⟨inL, outL, written, hi, hd⟩ := hg
    obtain ⟨c, hc⟩ := hi.hasP (Or.inl hpc)
    unfold step at hs
    split at hs
    · simp at hs
    · rename_i hex
      simp only [producer, main, hpc, hc, Option.some.injEq] at hs
      subst hs
      simpa using hex
  have := failed_run hB ls2 hg1 hj hrun2
  exact ⟨hj.1, this.2.1, this.2.2⟩

/-! ## Concrete runs are runs -/

theorem reachable_runD (cfg : Cfg) (whole : List Nat) (ls : List Label)
    (h : (run cfg ls (init cfg whole)).isSome = true) :
    Reachable cfg whole (runD cfg ls (init cfg whole)) := by
  refine ⟨ls, ?_⟩
  unfold runD
  cases hr : run cfg ls (init cfg whole) with
  | none => simp [hr] at h
  | some s => rfl

/-! ## Bounded pool -/

/-- C3: in every reachable state `bufCt` is at most `MAXBUFS`; a step of the main thread
either leaves `bufCt` and the number of payload blocks unchanged or allocates exactly one
block, increments `bufCt` and was taken with `bufCt < MAXBUFS`; the writer never changes
them; and when `bufCt >= MAXBUFS` and the front node of the free queue is not `NORMAL`,
`newBuffer` goes from `retryNew` to `waitRetryNew` without allocating, where it blocks while
`inBufferSem` is 0. -/
theorem bounded_pool (cfg : Cfg) (whole : List Nat) (s : State)
    (hr : Reachable cfg whole s) :
    s.bufCt ≤ cfg.MAXBUFS ∧
    (∀ e s2, producer cfg e s = some s2 →
      (s2.bufCt = s.bufCt ∧ s2.nextMem = s.nextMem) ∨
      (s.bufCt < cfg.MAXBUFS ∧ s2.bufCt = s.bufCt + 1 ∧ s2.nextMem = s.nextMem + 1)) ∧
    (∀ e s2, writer cfg e s = some s2 → s2.bufCt = s.bufCt ∧ s2.nextMem = s.nextMem) ∧
    (s.ppc = PPC.retryNew → cfg.MAXBUFS ≤ s.bufCt →
      (∀ c, (s.heap inBuffer).next = some c → (s.heap c).type ≠ BUF_TYPE_NORMAL) →
      ∀ e1 e2, ∃ s1 s2, producer cfg e1 s = some s1 ∧ producer cfg e2 s1 = some s2 ∧
        s2.ppc = PPC.waitRetryNew ∧ s2.bufCt = s.bufCt ∧ s2.nextMem = s.nextMem ∧
        (s2.inBufferSem = 0 → ∀ e3, producer cfg e3 s2 = none)) := by
  obtain ⟨inL, outL, hi⟩ := inv_reachable hr
  refine ⟨hi.cnt.2.1, ?_, ?_, ?_⟩
  · intro e s2 hs
    unfold producer newBuffer main at hs
    cases hpc : s.ppc <;> simp only [hpc] at hs <;> (repeat' split at hs) <;>
      simp only [Option.some.injEq, reduceCtorEq] at hs <;> subst hs <;>
      first
        | (left; exact ⟨rfl, rfl⟩)
        | (right; exact ⟨hi.cnt.2.2 hpc, rfl, rfl⟩)
  · intro e s2 hs
    unfold writer doWrite at hs
    cases hpc : s.wpc <;> simp only [hpc] at hs <;> (repeat' split at hs) <;>
      simp only [Option.some.injEq, reduceCtorEq] at hs <;> subst hs <;> exact ⟨rfl, rfl⟩
  · intro hpc hcap hfront e1 e2
    have hnx := chain_front hi.shape.chainIn
    have hty := hfront _ hnx
    refine ⟨{ s with ncur := some ((inL ++ [s.inBufferTail]).headI), ppc := PPC.allocNode },
      { s with ncur := some ((inL ++ [s.inBufferTail]).headI), ppc := PPC.waitRetryNew },
      ?_, ?_, rfl, rfl, rfl, ?_⟩
    · simp [producer, newBuffer, hpc, hnx, hty]
    · simp [producer, newBuffer, hcap]
    · intro h0 e3
      simp only at h0
      simp [producer, newBuffer, h0]

theorem bounded_pool_witness :
    Reachable cfg4 inputABCDEF (runD cfg4 (schedFirst ++ schedChunk) (init cfg4 inputABCDEF)) ∧
      (runD cfg4 (schedFirst ++ schedChunk) (init cfg4 inputABCDEF)).bufCt ≤ cfg4.MAXBUFS :=
  ⟨reachable_runD cfg4 inputABCDEF (schedFirst ++ schedChunk) rfl,
    (bounded_pool cfg4 inputABCDEF _
      (reachable_runD cfg4 inputABCDEF (schedFirst ++ schedChunk) rfl)).1⟩

/-! ## Semaphores and queue contents -/

/-- C9, amended: in every reachable state the count of `outBufferSem` is at most the number of
`NORMAL`/`END` nodes linked between `outBuffer` and `outBufferTail`, so the node the writer
detaches after `sem_wait(&outBufferSem)` is a linked `NORMAL` or `END` node and not the tail
sentinel; the count of `inBufferSem` is at most the number of data nodes linked between
`inBuffer` and `inBufferTail`, plus one while `newBuffer` stands between its unlink and its
`sem_wait`. -/
theorem sem_consistency (cfg : Cfg) (whole : List Nat) (s : State)
    (hr : Reachable cfg whole s) :
    s.outBufferSem ≤ dataCount s outBuffer s.outBufferTail ∧
    s.inBufferSem ≤ dataCount s inBuffer s.inBufferTail + ind (s.ppc = PPC.reuse) ∧
    (s.wpc = WPC.dequeue → ∀ e, ∃ s2 c, writer cfg e s = some s2 ∧ s2.wcur = some c ∧
      c ∈ linked s outBuffer s.outBufferTail ∧ c ≠ s.outBufferTail ∧
      ((s.heap c).type = BUF_TYPE_NORMAL ∨ (s.heap c).type = BUF_TYPE_END)) := by
  obtain ⟨inL, outL, hi⟩ := inv_reachable hr
  have ho := hi.semOut
  have hn := hi.semIn
  refine ⟨?_, ?_, ?_⟩
  · rw [dataCount_out hi]; omega
  · rw [dataCount_in hi]; omega
  · intro hpc e
    rw [linked_out hi]
    simp only [hpc, ind, if_true] at ho
    cases outL with
    | nil => simp at ho
    | cons x xs =>
      have hnx : (s.heap outBuffer).next = some x := by
        simpa [Chain] using hi.shape.chainOut.1
      cases hw : writer cfg e s with
      | none => simp [writer, hpc, hnx] at hw
      | some s2 =>
      obtain ⟨y, ys, hy, hwc, _⟩ := inv_dequeue hi hpc hw
      simp only [List.cons.injEq] at hy
      rw [← hy.1] at hwc
      refine ⟨s2, x, rfl, hwc, by simp, ?_, ?_⟩
      · exact (hi.shape.dOut x (by simp)).2.1
      · exact hi.shape.typeOut x (by simp)

theorem sem_consistency_witness :
    Reachable cfg4 inputABCD (runD cfg4 schedUnlinked (init cfg4 inputABCD)) ∧
      (runD cfg4 schedUnlinked (init cfg4 inputABCD)).outBufferSem ≤
        dataCount (runD cfg4 schedUnlinked (init cfg4 inputABCD)) outBuffer
          (runD cfg4 schedUnlinked (init cfg4 inputABCD)).outBufferTail :=
  ⟨reachable_runD cfg4 inputABCD schedUnlinked rfl,
    (sem_consistency cfg4 inputABCD _ (reachable_runD cfg4 inputABCD schedUnlinked rfl)).1⟩

/-- C9 as stated fails for the free queue: after one chunk has been recycled and `newBuffer`
has unlinked it, `inBufferSem` still counts 1 while no data node is linked between `inBuffer`
and `inBufferTail`. -/
theorem sem_consistency_counterexample :
    (run cfg4 schedUnlinked (init cfg4 inputABCD)).isSome = true ∧
      (runD cfg4 schedUnlinked (init cfg4 inputABCD)).inBufferSem = 1 ∧
      dataCount (runD cfg4 schedUnlinked (init cfg4 inputABCD)) inBuffer
        (runD cfg4 schedUnlinked (init cfg4 inputABCD)).inBufferTail = 0 := by
  refine ⟨rfl, rfl, rfl⟩

/-! ## Exclusive ownership of payload blocks -/

theorem stale_reachable {cfg : Cfg} {whole : List Nat} {s : State}
    (hr : Reachable cfg whole s) : Stale s := by
  obtain ⟨ls, hls⟩ := hr
  exact stale_run ls (stale_init cfg whole) hls

/-- A holder that references a payload block is a data node of a queue or a node held by a
thread. -/
theorem holder_mem {cfg : Cfg} {s : State} {inL outL : List Nat} (hi : Inv cfg s inL outL)
    (hst : Stale s) {a p : Nat} (ha : Holder s a) (hp : (s.heap a).buf = some p) :
    a ∈ inL ∨ a ∈ outL ∨ a ∈ pHold s ++ wOwn s := by
  have hsh := hi.shape
  rcases ha with h | h | h | h | h
  · rw [linked_in hi] at h; exact Or.inl h
  · rw [linked_out hi] at h; exact Or.inr (Or.inl h)
  · by_cases hpc : s.ppc = PPC.read ∨ s.ppc = PPC.enqueue ∨ s.ppc = PPC.join ∨
        s.ppc = PPC.exited
    · right; right
      rcases hpc with e | e | e | e <;> simp [pHold, pHoldOf, e, h]
    · exfalso
      simp only [not_or] at hpc
      rcases hst.1 hpc with e | e
      · rw [h] at e; cases e
      · rw [h] at e
        cases e
        rw [hsh.tailOut.1] at hp
        cases hp
  · right; right
    simp [pHold, pHoldOf, h.1, h.2]
  · by_cases hpc : s.wpc = WPC.write ∨ s.wpc = WPC.recycle
    · right; right
      rcases hpc with e | e <;> simp [wOwn, wOwnOf, e, h.2]
    · exfalso
      simp only [not_or] at hpc
      have hw : s.wpc = WPC.semwait ∨ s.wpc = WPC.dequeue ∨ s.wpc = WPC.post := by
        have := h.1
        cases hq : s.wpc <;> simp_all
      rcases hst.2 hw with e | e
      · rw [h.2] at e; cases e
      · rw [h.2] at e
        cases e
        rw [hsh.tailIn.1] at hp
        cases hp

theorem holders_eq {cfg : Cfg} {s : State} {inL outL : List Nat} (hi : Inv cfg s inL outL) :
    holders s = inL ++ outL ++ (pHold s ++ wOwn s) := by
  unfold holders
  rw [linked_in hi, linked_out hi, List.append_assoc (inL ++ outL)]

theorem holders_mem {cfg : Cfg} {s : State} {inL outL : List Nat} (hi : Inv cfg s inL outL)
    (a : Nat) : a ∈ holders s ↔ (a ∈ inL ∨ a ∈ outL ∨ a ∈ pHold s ++ wOwn s) := by
  rw [holders_eq hi, List.mem_append, List.mem_append, or_assoc]

/-- No node plays two roles, and no payload block is referenced from two roles. -/
theorem holders_nodup {cfg : Cfg} {s : State} {inL outL : List Nat} (hi : Inv cfg s inL outL) :
    (holders s).Nodup ∧ ((holders s).map (fun a => (s.heap a).buf)).Nodup := by
  have hsh := hi.shape
  have hhold : (pHold s ++ wOwn s).Nodup := hsh.holdSub.nodup hsh.ndOwn
  have hsub : ∀ a, a ∈ pHold s ++ wOwn s → a ∈ pOwn s ++ wOwn s := fun a h => hsh.holdSub.subset h
  have hnd : (holders s).Nodup := by
    rw [holders_eq hi]
    refine List.Nodup.append (List.Nodup.append hsh.ndIn hsh.ndOut ?_) hhold ?_
    · intro a ha hb
      exact (hsh.dIn a ha).2.2.1 hb
    · intro a ha hb
      rcases List.mem_append.mp ha with h | h
      · exact (hsh.dIn a h).2.2.2 (hsub a hb)
      · exact (hsh.dOut a h).2.2 (hsub a hb)
  refine ⟨hnd, List.Nodup.map_on ?_ hnd⟩
  intro a ha b hb hab
  exact hsh.bufInj a b ((holders_mem hi a).mp ha) ((holders_mem hi b).mp hb) hab

/-- C10: in every reachable state the holders of payload blocks (one for each node linked in
the free queue, each node linked in the pending queue, the chunk of `main` and the chunk of
the writer) are distinct nodes that reference distinct allocated payload blocks, so no block
is referenced by two holders and no node is in two of the four classes at once; every node
that a queue or a thread points to and that references a block is one of these holders, and
two such nodes that reference the same block are the same node; the head and tail sentinels
of both queues reference no payload; and when `newBuffer` returns, the chunk it returns has
type `NORMAL`, length 0 and a payload block that no node of the pending queue and not the
writer's `cur` references. -/
theorem exclusive_ownership (cfg : Cfg) (whole : List Nat) (s : State)
    (hr : Reachable cfg whole s) :
    ((holders s).Nodup ∧ ((holders s).map (fun a => (s.heap a).buf)).Nodup ∧
      (∀ a ∈ holders s, ∃ p, (s.heap a).buf = some p ∧ p < s.nextMem) ∧
      (∀ a p, Holder s a → (s.heap a).buf = some p → a ∈ holders s)) ∧
    (∀ a b p, Holder s a → Holder s b → (s.heap a).buf = some p → (s.heap b).buf = some p →
      a = b) ∧
    ((s.heap inBuffer).buf = none ∧ (s.heap outBuffer).buf = none ∧
      (s.heap s.inBufferTail).buf = none ∧ (s.heap s.outBufferTail).buf = none) ∧
    (∀ e s2, (s.ppc = PPC.reuse ∨ s.ppc = PPC.allocBuf) → producer cfg e s = some s2 →
      (s2.ppc = PPC.read ∨ s2.ppc = PPC.join) →
      ∃ c p, s2.pcur = some c ∧ (s2.heap c).type = BUF_TYPE_NORMAL ∧ (s2.heap c).length = 0 ∧
        (s2.heap c).buf = some p ∧
        ∀ a, (a ∈ linked s2 outBuffer s2.outBufferTail ∨
            (s2.wpc ≠ WPC.done ∧ s2.wcur = some a)) → (s2.heap a).buf ≠ some p) := by
  have key : ∀ t : State, Reachable cfg whole t →
      ∀ a b p, Holder t a → Holder t b → (t.heap a).buf = some p → (t.heap b).buf = some p →
        a = b := by
    intro t ht a b p ha hb hpa hpb
    obtain ⟨inL, outL, hi⟩ := inv_reachable ht
    have hst := stale_reachable ht
    exact hi.shape.bufInj a b (holder_mem hi hst ha hpa) (holder_mem hi hst hb hpb)
      (by rw [hpa, hpb])
  obtain ⟨inL, outL, hi⟩ := inv_reachable hr
  have hlist : (holders s).Nodup ∧ ((holders s).map (fun a => (s.heap a).buf)).Nodup ∧
      (∀ a ∈ holders s, ∃ p, (s.heap a).buf = some p ∧ p < s.nextMem) ∧
      (∀ a p, Holder s a → (s.heap a).buf = some p → a ∈ holders s) := by
    refine ⟨(holders_nodup hi).1, (holders_nodup hi).2, ?_, ?_⟩
    · intro a ha
      exact hi.shape.bufs a ((holders_mem hi a).mp ha)
    · intro a p ha hp
      exact (holders_mem hi a).mpr (holder_mem hi (stale_reachable hr) ha hp)
  refine ⟨hlist, key s hr, ⟨hi.shape.headIn, hi.shape.headOut, hi.shape.tailIn.1,
    hi.shape.tailOut.1⟩, ?_⟩
  intro e s2 hpc hs hret
  have hr2 : Reachable cfg whole s2 := by
    obtain ⟨ls, hls⟩ := hr
    refine ⟨ls ++ [Label.prod e], ?_⟩
    have hex : s.exit = none := by
      rcases hi.exitP with h | h
      · exact h
      · rcases hpc with h2 | h2 <;> rw [h] at h2 <;> cases h2
    have : ∀ (l1 : List Label) (t : State), run cfg l1 t = some s →
        run cfg (l1 ++ [Label.prod e]) t = some s2 := by
      intro l1
      induction l1 with
      | nil =>
        intro t ht
        simp only [run, Option.some.injEq] at ht
        subst ht
        simp [run, step, hex, hs]
      | cons l l1 ih =>
        intro t ht
        simp only [run, List.cons_append] at ht ⊢
        cases h1 : step cfg l t with
        | none => simp [h1] at ht
        | some t1 =>
          simp only [h1, Option.some_bind] at ht ⊢
          exact ih t1 ht
    exact this ls _ hls
  obtain ⟨inL2, outL2, hi2⟩ := inv_reachable hr2
  have hst2 := stale_reachable hr2
  have hP : ∃ c, s2.pcur = some c := by
    rcases hret with h | h
    · exact hi2.hasP (Or.inl h)
    · exact hi2.hasP (Or.inr (Or.inr (Or.inl h)))
  obtain ⟨c, hc⟩ := hP
  have hch : c ∈ pHold s2 := by
    rcases hret with h | h <;> simp [pHold, pHoldOf, h, hc]
  obtain ⟨p, hp, _⟩ := hi2.shape.bufs c (Or.inr (Or.inr (by simp [hch])))
  have hlen : (s2.heap c).length = 0 := by
    unfold producer newBuffer at hs
    rcases hpc with h | h <;> simp only [h] at hs <;> (repeat' split at hs) <;>
      simp only [Option.some.injEq, reduceCtorEq] at hs <;> subst hs <;>
      first
        | (exfalso; simp at hret; done)
        | (simp only [Option.some.injEq] at hc; subst hc; simp)
  refine ⟨c, p, hc, hi2.typeP c hch, hlen, hp, ?_⟩
  intro a ha hpa
  have hca : Holder s2 c := Or.inr (Or.inr (Or.inl hc))
  have hha : Holder s2 a := by
    rcases ha with h | h
    · exact Or.inr (Or.inl h)
    · exact Or.inr (Or.inr (Or.inr (Or.inr h)))
  have hac : a = c := key s2 hr2 a c p hha hca hpa hp
  subst hac
  have hcown : a ∈ pOwn s2 := by
    rcases hret with h | h <;> simp [pOwn, pOwnOf, h, hc]
  rcases ha with h | h
  · rw [linked_out hi2] at h
    exact (hi2.shape.dOut a h).2.2 (by simp [hcown])
  · by_cases hw : s2.wpc = WPC.write ∨ s2.wpc = WPC.recycle
    · have haw : a ∈ wOwn s2 := by
        rcases hw with e2 | e2 <;> simp [wOwn, wOwnOf, e2, h.2]
      exact List.disjoint_of_nodup_append hi2.shape.ndOwn hcown haw
    · simp only [not_or] at hw
      have hw2 : s2.wpc = WPC.semwait ∨ s2.wpc = WPC.dequeue ∨ s2.wpc = WPC.post := by
        have := h.1
        cases hq : s2.wpc <;> simp_all
      rcases hst2.2 hw2 with e2 | e2
      · rw [h.2] at e2; cases e2
      · rw [h.2] at e2
        cases e2
        rw [hi2.shape.tailIn.1] at hp
        cases hp

theorem exclusive_ownership_witness :
    Reachable cfg4 inputAL (runD cfg4 schedFourHolders (init cfg4 inputAL)) ∧
      linked (runD cfg4 schedFourHolders (init cfg4 inputAL)) inBuffer
        (runD cfg4 schedFourHolders (init cfg4 inputAL)).inBufferTail = [2] ∧
      linked (runD cfg4 schedFourHolders (init cfg4 inputAL)) outBuffer
        (runD cfg4 schedFourHolders (init cfg4 inputAL)).outBufferTail = [5] ∧
      pHold (runD cfg4 schedFourHolders (init cfg4 inputAL)) = [7] ∧
      wOwn (runD cfg4 schedFourHolders (init cfg4 inputAL)) = [4] ∧
      (holders (runD cfg4 schedFourHolders (init cfg4 inputAL))).map
        (fun a => ((runD cfg4 schedFourHolders (init cfg4 inputAL)).heap a).buf)
        = [some 0, some 2, some 3, some 1] ∧
      ((holders (runD cfg4 schedFourHolders (init cfg4 inputAL))).map
        (fun a => ((runD cfg4 schedFourHolders (init cfg4 inputAL)).heap a).buf)).Nodup :=
  ⟨reachable_runD cfg4 inputAL schedFourHolders rfl, by decide, by decide, by decide,
    by decide, by decide,
    (exclusive_ownership cfg4 inputAL _
      (reachable_runD cfg4 inputAL schedFourHolders rfl)).1.2.1⟩

/-! ## FIFO queues -/

/-- C4, amended: on an empty queue, for every sequence of operations in which the nodes handed
over are owned by the caller and every dequeue finds a data node linked, the sentinel-swap
enqueue of `main` and the head dequeue of `writer` behave as a list queue: the `k`-th node
dequeued from the pending queue carries the type, length and payload of the `k`-th chunk
enqueued.  The recycle of `writer` and the reuse of `newBuffer` hand the payloads through the
free queue in the same first-in first-out order, every node `newBuffer` returns has type
`NORMAL`, and its length is 0, not the length of the recycled chunk. -/
theorem queue_fifo (bound : Nat) (q : Queue) (ops : List QOp) (he : q.empty bound) :
    (validPending bound q ops →
      dequeuedPending q ops = listQueue [] (opsPending q ops) ∧
      ∀ k, k < (dequeuedPending q ops).length →
        (dequeuedPending q ops)[k]? = (added (opsPending q ops))[k]?) ∧
    (validFree bound q ops →
      (dequeuedFree q ops).map Item.buf = (listQueue [] (opsFree q ops)).map Item.buf ∧
      (∀ k, k < (dequeuedFree q ops).length →
        ((dequeuedFree q ops)[k]?).map Item.buf = ((added (opsFree q ops))[k]?).map Item.buf) ∧
      ∀ i ∈ dequeuedFree q ops, i.type = BUF_TYPE_NORMAL ∧ i.length = 0) := by
  have hq := qrep_empty he
  constructor
  · intro hv
    have h1 := pending_refines bound ops q [] hq hv
    simp only [List.map_nil] at h1
    refine ⟨h1, ?_⟩
    intro k hk
    rw [h1] at hk ⊢
    simpa using listQueue_fifo _ [] k hk
  · intro hv
    obtain ⟨h1, h2⟩ := free_refines bound ops q [] [] hq (by simp) rfl hv
    refine ⟨h1, ?_, h2⟩
    intro k hk
    have hk2 : k < (listQueue [] (opsFree q ops)).length := by
      have := congrArg List.length h1
      simp only [List.length_map] at this
      omega
    have h3 := listQueue_fifo _ [] k hk2
    simp only [List.nil_append] at h3
    rw [← h3, ← List.getElem?_map, ← List.getElem?_map, h1]

theorem queue_fifo_witness :
    queue0.empty 8 ∧ validPending 8 queue0 opsTwo ∧ validFree 8 queue0 opsTwo ∧
      dequeuedPending queue0 opsTwo = listQueue [] (opsPending queue0 opsTwo) ∧
      (dequeuedFree queue0 opsTwo).map Item.buf
        = (listQueue [] (opsFree queue0 opsTwo)).map Item.buf :=
  ⟨by decide, by decide, by decide,
    ((queue_fifo 8 queue0 opsTwo (by decide)).1 (by decide)).1,
    ((queue_fifo 8 queue0 opsTwo (by decide)).2 (by decide)).1⟩

/-- C4 as stated fails for the free queue: a chunk of length 4 is recycled and taken back;
the node `newBuffer` returns carries its payload and its type but length 0, and before the
reset of line 182 it carries the stale length 9 of the sentinel it was copied into. -/
theorem queue_fifo_counterexample :
    validFree 8 queue0 [QOp.put 5 BUF_TYPE_NORMAL, QOp.get] ∧
      added (opsFree queue0 [QOp.put 5 BUF_TYPE_NORMAL, QOp.get])
        = [{ type := BUF_TYPE_NORMAL, length := 4, buf := some 0 }] ∧
      dequeuedFree queue0 [QOp.put 5 BUF_TYPE_NORMAL, QOp.get]
        = [{ type := BUF_TYPE_NORMAL, length := 0, buf := some 0 }] ∧
      (((queue0.recycle 5).deq).map (fun r => item r.2.heap r.1))
        = some { type := BUF_TYPE_NORMAL, length := 9, buf := some 0 } := by
  refine ⟨by decide, by decide, by decide, by decide⟩

/-! ## Output and writes -/

theorem producer_traces {cfg : Cfg} {e : Ev} {s s2 : State} (hs : producer cfg e s = some s2) :
    s2.out = s.out ∧ s2.writes = s.writes := by
  unfold producer newBuffer main at hs
  cases hpc : s.ppc <;> simp only [hpc] at hs <;> (repeat' split at hs) <;>
    simp only [Option.some.injEq, reduceCtorEq] at hs <;> subst hs <;> exact ⟨rfl, rfl⟩

theorem writer_full {cfg : Cfg} {s s2 : State} (hs : writer cfg (Ev.ok 0) s = some s2)
    (h : s.out = s.writes.flatten) : s2.out = s2.writes.flatten := by
  unfold writer doWrite at hs
  cases hpc : s.wpc <;> simp only [hpc] at hs <;> (repeat' split at hs) <;>
    simp only [Option.some.injEq, reduceCtorEq] at hs <;> subst hs <;>
    simp [h, readBytes_length]

theorem out_full (cfg : Cfg) (ls : List Label) :
    ∀ s s2, FullWrites ls → s.out = s.writes.flatten → run cfg ls s = some s2 →
      s2.out = s2.writes.flatten := by
  induction ls with
  | nil =>
    intro s s2 _ h hs
    simp only [run, Option.some.injEq] at hs
    subst hs
    exact h
  | cons l ls ih =>
    intro s s2 hf h hs
    simp only [run] at hs
    cases h1 : step cfg l s with
    | none => simp [h1] at hs
    | some s1 =>
      simp only [h1, Option.some_bind] at hs
      refine ih s1 s2 (fun e he => hf e (List.mem_cons_of_mem _ he)) ?_ hs
      have hl := hf l (by simp)
      unfold step at h1
      split at h1
      · simp at h1
      · cases l with
        | prod e =>
          obtain ⟨h2, h3⟩ := producer_traces h1
          rw [h2, h3]; exact h
        | wr e =>
          have he : e = Ev.ok 0 := by
            cases e with
            | fail => simp [isFull] at hl
            | ok k =>
              cases k with
              | zero => rfl
              | succ k => simp [isFull] at hl
          subst he
          exact writer_full h1 h

/-- The process only ever exits through the `return 0` of `main`. -/
theorem exit_status_zero (cfg : Cfg) (ls : List Label) :
    ∀ s s2, (s.exit = none ∨ s.exit = some 0) → run cfg ls s = some s2 →
      (s2.exit = none ∨ s2.exit = some 0) := by
  induction ls with
  | nil =>
    intro s s2 h hs
    simp only [run, Option.some.injEq] at hs
    subst hs
    exact h
  | cons l ls ih =>
    intro s s2 h hs
    simp only [run] at hs
    cases h1 : step cfg l s with
    | none => simp [h1] at hs
    | some s1 =>
      simp only [h1, Option.some_bind] at hs
      refine ih s1 s2 ?_ hs
      unfold step at h1
      split at h1
      · simp at h1
      · cases l with
        | prod e =>
          unfold producer newBuffer main at h1
          cases hpc : s.ppc <;> simp only [hpc] at h1 <;> (repeat' split at h1) <;>
            simp only [Option.some.injEq, reduceCtorEq] at h1 <;> subst h1 <;>
            first
              | exact h
              | exact Or.inr rfl
        | wr e =>
          unfold writer doWrite at h1
          cases hpc : s.wpc <;> simp only [hpc] at h1 <;> (repeat' split at h1) <;>
            simp only [Option.some.injEq, reduceCtorEq] at h1 <;> subst h1 <;> exact h

/-- C6 fails on the code: when the first `read` returns an error, `main` leaves its loop and
stands in `pthread_join`, the writer waits on `outBufferSem` (count 0) for a chunk that is
never enqueued, no step of the process is possible and no exit status is ever set.  On every
input, a `read` that fails at any point of a run leaves `main` in `pthread_join` for ever
with no exit status, and the only status the process ever exits with is 0. -/
theorem read_failure_hangs :
    ((run cfg4 schedReadFail (init cfg4 inputABCDEF)).isSome = true ∧
      (runD cfg4 schedReadFail (init cfg4 inputABCDEF)).rd = -1 ∧
      (runD cfg4 schedReadFail (init cfg4 inputABCDEF)).ppc = PPC.join ∧
      (runD cfg4 schedReadFail (init cfg4 inputABCDEF)).wpc = WPC.semwait ∧
      (runD cfg4 schedReadFail (init cfg4 inputABCDEF)).outBufferSem = 0 ∧
      (runD cfg4 schedReadFail (init cfg4 inputABCDEF)).exit = none ∧
      Stuck cfg4 (runD cfg4 schedReadFail (init cfg4 inputABCDEF))) ∧
    (∀ (cfg : Cfg) (whole : List Nat) (ls : List Label) (s s1 : State), 1 ≤ cfg.BUFSZ →
      run cfg ls (init cfg whole) = some s → s.ppc = PPC.read →
      step cfg (Label.prod Ev.fail) s = some s1 →
      ∀ ls2 s2, run cfg ls2 s1 = some s2 →
        s1.rd = -1 ∧ s2.ppc = PPC.join ∧ s2.exit = none) ∧
    (∀ (cfg : Cfg) (whole : List Nat) (ls : List Label) (s : State),
      run cfg ls (init cfg whole) = some s → s.exit = none ∨ s.exit = some 0) := by
  refine ⟨⟨rfl, rfl, rfl, rfl, rfl, rfl, ?_⟩, ?_, ?_⟩
  · intro l
    cases l <;> rfl
  · intro cfg whole ls s s1 hB hrun hpc hs ls2 s2 hrun2
    exact read_failure_never_exits cfg whole hB ls s s1 hrun hpc hs ls2 s2 hrun2
  · intro cfg whole ls s hrun
    exact exit_status_zero cfg ls _ s (Or.inl rfl) hrun

/-- C7, amended: when `malloc` of the node or of the payload fails in `newBuffer`, the process
does not terminate: nothing is allocated, `bufCt` and the heap stay as they are and
`newBuffer` goes to `waitRetryNew`, where it blocks while `inBufferSem` is 0 and otherwise
goes through `sem_wait` and `sem_post` back to `retryNew`. -/
theorem alloc_failure_waits (cfg : Cfg) (whole : List Nat) (s : State)
    (hr : Reachable cfg whole s) (hpc : s.ppc = PPC.allocNode ∨ s.ppc = PPC.allocBuf) :
    (∃ s2, step cfg (Label.prod Ev.fail) s = some s2 ∧ s2.ppc = PPC.waitRetryNew ∧
      s2.exit = none ∧ s2.bufCt = s.bufCt ∧ s2.nextMem = s.nextMem ∧ s2.heap = s.heap ∧
      s2.inBufferSem = s.inBufferSem) ∧
    (∀ t e, t.ppc = PPC.waitRetryNew → t.exit = none →
      (t.inBufferSem = 0 → step cfg (Label.prod e) t = none) ∧
      (t.inBufferSem ≠ 0 → ∃ t1 t2, step cfg (Label.prod e) t = some t1 ∧
        step cfg (Label.prod e) t1 = some t2 ∧ t2.ppc = PPC.retryNew ∧
        t2.inBufferSem = t.inBufferSem ∧ t2.exit = none)) := by
  obtain ⟨inL, outL, hi⟩ := inv_reachable hr
  have hex : s.exit = none := by
    rcases hi.exitP with h | h
    · exact h
    · rcases hpc with h2 | h2 <;> rw [h] at h2 <;> cases h2
  constructor
  · rcases hpc with h | h
    · by_cases hcap : cfg.MAXBUFS ≤ s.bufCt
      · exact ⟨{ s with ppc := PPC.waitRetryNew },
          by simp [step, hex, producer, newBuffer, h, hcap], rfl, hex, rfl, rfl, rfl, rfl⟩
      · exact ⟨{ s with ncur := none, ppc := PPC.waitRetryNew },
          by simp [step, hex, producer, newBuffer, h, hcap], rfl, hex, rfl, rfl, rfl, rfl⟩
    · obtain ⟨c, hc⟩ := hi.hasN (Or.inr h)
      exact ⟨{ s with ppc := PPC.waitRetryNew },
        by simp [step, hex, producer, newBuffer, h, hc], rfl, hex, rfl, rfl, rfl, rfl⟩
  · intro t e ht hte
    constructor
    · intro h0
      simp [step, hte, producer, newBuffer, ht, h0]
    · intro h0
      refine ⟨{ t with inBufferSem := t.inBufferSem - 1, ppc := PPC.repost },
        { t with inBufferSem := t.inBufferSem - 1 + 1, ppc := PPC.retryNew }, ?_, ?_, rfl, ?_,
        hte⟩
      · simp [step, hte, producer, newBuffer, ht, h0]
      · simp [step, hte, producer, newBuffer]
      · show t.inBufferSem - 1 + 1 = t.inBufferSem
        omega

theorem alloc_failure_waits_witness :
    Reachable cfg4 inputABCDEF (runD cfg4 [P 0] (init cfg4 inputABCDEF)) ∧
      (runD cfg4 [P 0] (init cfg4 inputABCDEF)).ppc = PPC.allocNode ∧
      ∃ s2, step cfg4 (Label.prod Ev.fail) (runD cfg4 [P 0] (init cfg4 inputABCDEF)) = some s2 ∧
        s2.ppc = PPC.waitRetryNew ∧ s2.exit = none :=
  ⟨reachable_runD cfg4 inputABCDEF [P 0] rfl, rfl,
    (alloc_failure_waits cfg4 inputABCDEF _ (reachable_runD cfg4 inputABCDEF [P 0] rfl)
      (Or.inl rfl)).1.imp (fun _ h => ⟨h.1, h.2.1, h.2.2.1⟩)⟩

/-- C7 as stated fails: after a failed `malloc` of the node, and after a failed `malloc` of
the payload, the process has not terminated; `main` stands at `waitRetryNew` inside
`newBuffer` with `bufCt` still 0. -/
theorem alloc_failure_counterexample :
    ((run cfg4 schedNodeFail (init cfg4 inputABCDEF)).isSome = true ∧
      (runD cfg4 schedNodeFail (init cfg4 inputABCDEF)).ppc = PPC.waitRetryNew ∧
      (runD cfg4 schedNodeFail (init cfg4 inputABCDEF)).exit = none ∧
      (runD cfg4 schedNodeFail (init cfg4 inputABCDEF)).bufCt = 0) ∧
    ((run cfg4 schedBufFail (init cfg4 inputABCDEF)).isSome = true ∧
      (runD cfg4 schedBufFail (init cfg4 inputABCDEF)).ppc = PPC.waitRetryNew ∧
      (runD cfg4 schedBufFail (init cfg4 inputABCDEF)).exit = none ∧
      (runD cfg4 schedBufFail (init cfg4 inputABCDEF)).bufCt = 0) := by
  refine ⟨⟨rfl, rfl, rfl, rfl⟩, ⟨rfl, rfl, rfl, rfl⟩⟩

/-- C5 fails on the code: with `MAXBUFS` set to 1 and empty input, every read and write
succeeds, the writer writes the end-of-stream chunk and ends with the output equal to the
input, but `main`, which calls `newBuffer` once more after enqueuing that chunk, blocks in
`sem_wait(&inBufferSem)` at `waitRetryNew`: no step of the process is possible and it has not
exited.  With `MAXBUFS` set to 1 no run on any input ever reaches the return of `main`. -/
theorem cap1_deadlock :
    ((run cfgCap1 schedCap1 (init cfgCap1 [])).isSome = true ∧
      NoFailure schedCap1 ∧ FullWrites schedCap1 ∧
      (runD cfgCap1 schedCap1 (init cfgCap1 [])).wpc = WPC.done ∧
      (runD cfgCap1 schedCap1 (init cfgCap1 [])).out = [] ∧
      (runD cfgCap1 schedCap1 (init cfgCap1 [])).ppc = PPC.waitRetryNew ∧
      (runD cfgCap1 schedCap1 (init cfgCap1 [])).inBufferSem = 0 ∧
      (runD cfgCap1 schedCap1 (init cfgCap1 [])).exit = none ∧
      Stuck cfgCap1 (runD cfgCap1 schedCap1 (init cfgCap1 []))) ∧
    (∀ (cfg : Cfg) (whole : List Nat) (ls : List Label) (s : State), cfg.MAXBUFS = 1 →
      run cfg ls (init cfg whole) = some s → s.exit = none ∧ s.ppc ≠ PPC.exited) := by
  refine ⟨⟨rfl, by decide, by decide, rfl, rfl, rfl, rfl, rfl, ?_⟩, ?_⟩
  · intro l
    cases l <;> rfl
  · intro cfg whole ls s hcap hrun
    exact cap1_never_exits cfg whole (le_of_eq hcap) ls s hrun

theorem run_runD (cfg : Cfg) (ls : List Label) (s : State)
    (h : (run cfg ls s).isSome = true) : run cfg ls s = some (runD cfg ls s) := by
  unfold runD
  cases hr : run cfg ls s with
  | none => simp [hr] at h
  | some s2 => rfl

/-! ## Order preservation -/

/-- C1: for every input, every chunk capacity `BUFSZ >= 1` and every schedule (so every way the
`read` calls split the input), the concatenation of the byte ranges the writer has passed to
`write`, in the order it dequeued the chunks, is a prefix of the input, it equals the input
once the writer has written the `END` chunk, and with full writes it is what the output stream
has accepted; and every run in which no `read` and no `malloc` has failed can be continued,
without failures and with full writes, until the writer has written the `END` chunk. -/
theorem order_preservation (cfg : Cfg) (whole : List Nat) (hB : 1 ≤ cfg.BUFSZ) :
    (∀ ls s, run cfg ls (init cfg whole) = some s →
      (∃ rest, s.writes.flatten ++ rest = whole) ∧
      (s.wpc = WPC.done → s.writes.flatten = whole) ∧
      (FullWrites ls → s.out = s.writes.flatten)) ∧
    (1 ≤ cfg.MAXBUFS → ∀ ls s, NoFailure ls → run cfg ls (init cfg whole) = some s →
      ∃ ls2 s2, run cfg ls2 s = some s2 ∧ NoFailure ls2 ∧ FullWrites ls2 ∧
        s2.wpc = WPC.done ∧ s2.writes.flatten = whole) := by
  have key : ∀ ls s, run cfg ls (init cfg whole) = some s →
      (∃ rest, s.writes.flatten ++ rest = whole) ∧
      (s.wpc = WPC.done → s.writes.flatten = whole) ∧
      (FullWrites ls → s.out = s.writes.flatten) := by
    intro ls s hrun
    obtain ⟨inL, outL, written, hi, hd⟩ := good_reachable hB ⟨ls, hrun⟩
    exact ⟨writes_initial hd, writes_done hd,
      fun hfw => out_full cfg ls _ _ hfw (by simp [init]) hrun⟩
  refine ⟨key, ?_⟩
  intro hM ls s hnf hrun
  obtain ⟨ls2, s2, hrun2, hnf2, hfw2, hdone⟩ := can_finish cfg whole hB hM ls s hnf hrun
  have hrun3 : run cfg (ls ++ ls2) (init cfg whole) = some s2 := by
    rw [run_append, hrun]; exact hrun2
  exact ⟨ls2, s2, hrun2, hnf2, hfw2, hdone, (key _ s2 hrun3).2.1 hdone⟩

theorem order_preservation_witness :
    1 ≤ cfg4.BUFSZ ∧
      (run cfg4 schedABCDEF (init cfg4 inputABCDEF)).isSome = true ∧
      (runD cfg4 schedABCDEF (init cfg4 inputABCDEF)).wpc = WPC.done ∧
      (runD cfg4 schedABCDEF (init cfg4 inputABCDEF)).writes = [[65, 66, 67, 68], [69, 70]] ∧
      (runD cfg4 schedABCDEF (init cfg4 inputABCDEF)).writes.flatten = inputABCDEF :=
  ⟨by decide, rfl, rfl, rfl,
    ((order_preservation cfg4 inputABCDEF (by decide)).1 schedABCDEF _
      (run_runD cfg4 schedABCDEF _ rfl)).2.1 rfl⟩

/-! ## Chunking -/

theorem enqLog_step {cfg : Cfg} {l : Label} {s s2 : State} (hs : step cfg l s = some s2) :
    ∃ t, s2.enqLog = s.enqLog ++ t := by
  unfold step at hs
  split at hs
  · simp at hs
  · cases l with
    | prod e =>
      simp only at hs
      unfold producer newBuffer main at hs
      cases hpc : s.ppc <;> simp only [hpc] at hs <;> (repeat' split at hs) <;>
        simp only [Option.some.injEq, reduceCtorEq] at hs <;> subst hs <;>
        first
          | exact ⟨_, rfl⟩
          | exact ⟨[], (List.append_nil _).symm⟩
    | wr e =>
      simp only at hs
      unfold writer doWrite at hs
      cases hpc : s.wpc <;> simp only [hpc] at hs <;> (repeat' split at hs) <;>
        simp only [Option.some.injEq, reduceCtorEq] at hs <;> subst hs <;>
        exact ⟨[], (List.append_nil _).symm⟩

theorem enqLog_run (cfg : Cfg) (ls : List Label) :
    ∀ s s2, run cfg ls s = some s2 → ∃ t, s2.enqLog = s.enqLog ++ t := by
  induction ls with
  | nil =>
    intro s s2 hs
    simp only [run, Option.some.injEq] at hs
    subst hs
    exact ⟨[], by simp⟩
  | cons l ls ih =>
    intro s s2 hs
    simp only [run] at hs
    cases h1 : step cfg l s with
    | none => simp [h1] at hs
    | some s1 =>
      simp only [h1, Option.some_bind] at hs
      obtain ⟨t1, ht1⟩ := enqLog_step h1
      obtain ⟨t2, ht2⟩ := ih s1 s2 hs
      exact ⟨t1 ++ t2, by rw [ht2, ht1, List.append_assoc]⟩

/-- C2: for every input of length `L`, every capacity `C >= 1` and every schedule (so every
split of the input into partial reads), the chunks `main` has enqueued onto the pending queue
are the first ones of: `L / C` chunks of type `NORMAL` and length `C` holding the input in
order, then one chunk of type `END` and length `L mod C` holding the rest; they are all of
them once the `END` chunk has been enqueued, nothing is enqueued after it, and every run in
which no `read` and no `malloc` has failed can be continued without failures until the `END`
chunk has been enqueued. -/
theorem chunking (cfg : Cfg) (whole : List Nat) (hB : 1 ≤ cfg.BUFSZ) :
    (∀ ls s, run cfg ls (init cfg whole) = some s →
      (∃ rest, s.enqLog ++ rest = specChunks cfg.BUFSZ whole) ∧
      (ended s → s.enqLog = specChunks cfg.BUFSZ whole ∧
        ∀ ls2 s2, run cfg ls2 s = some s2 → s2.enqLog = s.enqLog)) ∧
    (1 ≤ cfg.MAXBUFS → ∀ ls s, NoFailure ls → run cfg ls (init cfg whole) = some s →
      ∃ ls2 s2, run cfg ls2 s = some s2 ∧ NoFailure ls2 ∧ ended s2 ∧
        s2.enqLog = specChunks cfg.BUFSZ whole) ∧
    (specChunks cfg.BUFSZ whole).length = whole.length / cfg.BUFSZ + 1 ∧
    (∀ i, i < whole.length / cfg.BUFSZ → (specChunks cfg.BUFSZ whole)[i]? =
      some { type := BUF_TYPE_NORMAL, length := cfg.BUFSZ,
             bytes := (whole.drop (i * cfg.BUFSZ)).take cfg.BUFSZ }) ∧
    (specChunks cfg.BUFSZ whole)[whole.length / cfg.BUFSZ]? =
      some { type := BUF_TYPE_END, length := whole.length % cfg.BUFSZ,
             bytes := whole.drop (whole.length / cfg.BUFSZ * cfg.BUFSZ) } := by
  have key : ∀ ls s, run cfg ls (init cfg whole) = some s →
      (∃ rest, s.enqLog ++ rest = specChunks cfg.BUFSZ whole) ∧
      (ended s → s.enqLog = specChunks cfg.BUFSZ whole) := by
    intro ls s hrun
    obtain ⟨inL, outL, written, hi, hd⟩ := good_reachable hB ⟨ls, hrun⟩
    exact ⟨(log_spec hB hd).2, (log_spec hB hd).1⟩
  refine ⟨?_, ?_, ?_, ?_, ?_⟩
  · intro ls s hrun
    refine ⟨(key ls s hrun).1, fun he => ⟨(key ls s hrun).2 he, ?_⟩⟩
    intro ls2 s2 hrun2
    have hrun3 : run cfg (ls ++ ls2) (init cfg whole) = some s2 := by
      rw [run_append, hrun]; exact hrun2
    obtain ⟨rest, hrest⟩ := (key _ s2 hrun3).1
    obtain ⟨t, ht⟩ := enqLog_run cfg ls2 s s2 hrun2
    have hl := congrArg List.length hrest
    rw [ht, ← (key ls s hrun).2 he] at hl
    simp only [List.length_append] at hl
    have : t = [] := List.length_eq_zero.mp (by omega)
    rw [ht, this, List.append_nil]
  · intro hM ls s hnf hrun
    obtain ⟨ls2, s2, hrun2, hnf2, _, hdone⟩ := can_finish cfg whole hB hM ls s hnf hrun
    have hrun3 : run cfg (ls ++ ls2) (init cfg whole) = some s2 := by
      rw [run_append, hrun]; exact hrun2
    obtain ⟨inL, outL, written, hi, hd⟩ := good_reachable hB ⟨_, hrun3⟩
    have he := (hd.wrD hdone).2
    exact ⟨ls2, s2, hrun2, hnf2, he, (key _ s2 hrun3).2 he⟩
  · simp [specChunks]
  · intro i hi
    simp [specChunks, List.getElem?_append_left, hi]
  · simp [specChunks, List.getElem?_append_right]

theorem chunking_witness :
    1 ≤ cfg4.BUFSZ ∧
      (runD cfg4 schedABCDEFGH (init cfg4 inputABCDEFGH)).enqLog =
        [{ type := BUF_TYPE_NORMAL, length := 4, bytes := [65, 66, 67, 68] },
         { type := BUF_TYPE_NORMAL, length := 4, bytes := [69, 70, 71, 72] },
         { type := BUF_TYPE_END, length := 0, bytes := [] }] ∧
      (runD cfg4 schedABCDEF (init cfg4 inputABCDEF)).enqLog =
        [{ type := BUF_TYPE_NORMAL, length := 4, bytes := [65, 66, 67, 68] },
         { type := BUF_TYPE_END, length := 2, bytes := [69, 70] }] ∧
      (runD cfg4 schedNoInput (init cfg4 [])).enqLog =
        [{ type := BUF_TYPE_END, length := 0, bytes := [] }] :=
  ⟨by decide,
    ((((chunking cfg4 inputABCDEFGH (by decide)).1 schedABCDEFGH _
      (run_runD cfg4 schedABCDEFGH _ rfl)).2 (by decide)).1).trans (by decide),
    ((((chunking cfg4 inputABCDEF (by decide)).1 schedABCDEF _
      (run_runD cfg4 schedABCDEF _ rfl)).2 (by decide)).1).trans (by decide),
    ((((chunking cfg4 [] (by decide)).1 schedNoInput _
      (run_runD cfg4 schedNoInput _ rfl)).2 (by decide)).1).trans (by decide)⟩

end WriteBuffer
